import Mathlib

/-!
# Machine collaboration utility: bot streaming, collaboration barrier, park sequence

A shallow embedding of

* `src/bots/Marlin.js` (job streaming, synchronization directives, ad-hoc G-code,
  precursor barrier),
* `src/bots/KLONER3D/commands/generateParkCommands.js` (park sequence),
* `src/server/middleware/bots/comProtocols/virtual/connection.js` (simulated link).

JavaScript strings are lists of characters, JavaScript numbers are binary64 values with
round-to-nearest-even arithmetic, closures stored in queue entries are defunctionalised
(`Hook`, `DataHandler`) and the effects of a handler on its collaborators (line reader,
logger, subscribers) are recorded in a trace.
-/

set_option maxRecDepth 100000

namespace MCU

/-- JavaScript strings. -/
abbrev Str := List Char

/-! ## JavaScript numbers (IEEE-754 binary64) -/

/-- Floor of the binary logarithm by repeated halving; the first argument bounds the
number of halvings. -/
def log2Fuel : Nat → Nat → Nat
  | 0, _ => 0
  | fuel + 1, n => if 2 ≤ n then log2Fuel fuel (n / 2) + 1 else 0

/-- Floor of the binary logarithm of a positive natural number. -/
def ilog2 (n : Nat) : Nat := log2Fuel n n

/-- The integer nearest to `a / b`, ties going to the even neighbour. -/
def roundHalfEven (a b : Nat) : Nat :=
  if 2 * (a % b) < b then a / b
  else if b < 2 * (a % b) then a / b + 1
  else a / b + (a / b) % 2

/-- Floor of the binary logarithm of the positive fraction `a / b`. -/
def fracLog2 (a b : Nat) : Int :=
  let t : Int := (ilog2 a : Int) - (ilog2 b : Int)
  if b * 2 ^ t.toNat ≤ a * 2 ^ (-t).toNat then t else t - 1

/-- The decimal digit `d`. -/
def digitChar (d : Nat) : Char := "0123456789".toList.getD d '0'

/-- Decimal digits of a natural number, most significant first; the first argument
bounds the number of digits. -/
def natDigitsAux : Nat → Nat → Str → Str
  | 0, _, acc => acc
  | fuel + 1, n, acc =>
    if n < 10 then digitChar n :: acc else natDigitsAux fuel (n / 10) (digitChar (n % 10) :: acc)

/-- The decimal representation of a natural number. -/
def natDigits (n : Nat) : Str := natDigitsAux (n + 1) n []

/-- A JavaScript number: `NaN`, an infinity, or the finite binary64 value
`(-1)^neg * m * 2^e`. Values produced by `JsNumber.round` are in canonical form:
`2^52 ≤ m < 2^53` with `-1074 ≤ e ≤ 971` (normal), `0 < m < 2^52` with `e = -1074`
(subnormal), or `m = 0` with `e = 0` (zero). -/
inductive JsNumber
  | nan
  | inf (neg : Bool)
  | fin (neg : Bool) (m : Nat) (e : Int)
  deriving DecidableEq, Repr

namespace JsNumber

/-- The exponent of the last place of the binary64 value nearest to `a / b`: 52 below
the binary logarithm, and `-1074` in the subnormal range. -/
def roundExp (a b : Nat) : Int := max (fracLog2 a b - 52) (-1074)

/-- The significand of the binary64 value nearest to `a / b`: the fraction scaled by
`2^-roundExp` and rounded to the nearest integer, ties to even. -/
def roundMant (a b : Nat) : Nat :=
  roundHalfEven (a * 2 ^ (-roundExp a b).toNat) (b * 2 ^ (roundExp a b).toNat)

/-- The binary64 value nearest to the fraction `a / b` (with `0 < b`), ties to even, with
gradual underflow below `2^-1022` and overflow to infinity from `2^1024 - 2^970` on. -/
def round (neg : Bool) (a b : Nat) : JsNumber :=
  if a = 0 ∨ roundMant a b = 0 then fin neg 0 0
  else if roundMant a b = 2 ^ 53 then
    (if 971 < roundExp a b + 1 then inf neg else fin neg (2 ^ 52) (roundExp a b + 1))
  else if 971 < roundExp a b then inf neg
  else fin neg (roundMant a b) (roundExp a b)

/-- The number denoted by a natural-number literal or by a decimal digit string. -/
def ofNat (n : Nat) : JsNumber := round false n 1

/-- The signed integer `(-1)^neg * m * 2^(e - lo)`, for `lo ≤ e`. -/
def scaled (neg : Bool) (m : Nat) (e lo : Int) : Int :=
  if neg then -((m * 2 ^ (e - lo).toNat : Nat) : Int) else ((m * 2 ^ (e - lo).toNat : Nat) : Int)

/-- JavaScript `a < b` (false as soon as an operand is `NaN`). -/
def lt : JsNumber → JsNumber → Bool
  | nan, _ => false
  | _, nan => false
  | inf n₁, inf n₂ => n₁ && !n₂
  | inf n₁, fin _ _ _ => n₁
  | fin _ _ _, inf n₂ => !n₂
  | fin n₁ m₁ e₁, fin n₂ m₂ e₂ =>
    decide (scaled n₁ m₁ e₁ (min e₁ e₂) < scaled n₂ m₂ e₂ (min e₁ e₂))

/-- JavaScript `a >= b` (false as soon as an operand is `NaN`). -/
def ge : JsNumber → JsNumber → Bool
  | nan, _ => false
  | _, nan => false
  | a, b => !(lt a b)

/-- JavaScript `a <= b` (false as soon as an operand is `NaN`). -/
def le (a b : JsNumber) : Bool := ge b a

/-- JavaScript `a / b`. -/
def div : JsNumber → JsNumber → JsNumber
  | nan, _ => nan
  | _, nan => nan
  | inf _, inf _ => nan
  | inf n₁, fin n₂ _ _ => inf (xor n₁ n₂)
  | fin n₁ _ _, inf n₂ => fin (xor n₁ n₂) 0 0
  | fin n₁ m₁ e₁, fin n₂ m₂ e₂ =>
    if m₂ = 0 then (if m₁ = 0 then nan else inf (xor n₁ n₂))
    else round (xor n₁ n₂) (m₁ * 2 ^ (e₁ - e₂).toNat) (m₂ * 2 ^ (e₂ - e₁).toNat)

/-- JavaScript `a * b`. -/
def mul : JsNumber → JsNumber → JsNumber
  | nan, _ => nan
  | _, nan => nan
  | inf n₁, inf n₂ => inf (xor n₁ n₂)
  | inf n₁, fin n₂ m₂ _ => if m₂ = 0 then nan else inf (xor n₁ n₂)
  | fin n₁ m₁ _, inf n₂ => if m₁ = 0 then nan else inf (xor n₁ n₂)
  | fin n₁ m₁ e₁, fin n₂ m₂ e₂ =>
    round (xor n₁ n₂) (m₁ * m₂ * 2 ^ (e₁ + e₂).toNat) (2 ^ (-(e₁ + e₂)).toNat)

/-- JavaScript `a + b`. -/
def add : JsNumber → JsNumber → JsNumber
  | nan, _ => nan
  | _, nan => nan
  | inf n₁, inf n₂ => if n₁ = n₂ then inf n₁ else nan
  | inf n₁, fin _ _ _ => inf n₁
  | fin _ _ _, inf n₂ => inf n₂
  | fin n₁ m₁ e₁, fin n₂ m₂ e₂ =>
    let lo := min e₁ e₂
    let s : Int := scaled n₁ m₁ e₁ lo + scaled n₂ m₂ e₂ lo
    round (if s = 0 then n₁ && n₂ else decide (s < 0)) (s.natAbs * 2 ^ lo.toNat) (2 ^ (-lo).toNat)

/-- JavaScript unary minus. -/
def neg : JsNumber → JsNumber
  | nan => nan
  | inf n => inf (!n)
  | fin n m e => fin (!n) m e

/-- JavaScript `a - b`. -/
def sub (a b : JsNumber) : JsNumber := add a (neg b)

/-- Integer part of the magnitude `m * 2^e`. -/
def floorAbs (m : Nat) (e : Int) : Nat := m * 2 ^ e.toNat / 2 ^ (-e).toNat

/-- Least `t` (counting up from the last argument) with `b ≤ a * 10^t`. -/
def dec10Down : Nat → Nat → Nat → Nat → Nat
  | 0, _, _, t => t
  | fuel + 1, a, b, t => if b ≤ a * 10 ^ t then t else dec10Down fuel a b (t + 1)

/-- Greatest `t` (counting up from the last argument) with `b * 10^t ≤ a`. -/
def dec10Up : Nat → Nat → Nat → Nat → Nat
  | 0, _, _, t => t
  | fuel + 1, a, b, t => if a < b * 10 ^ (t + 1) then t else dec10Up fuel a b (t + 1)

/-- First digit of `Number::toString` of the positive value `m * 2^e`, i.e. of the
shortest decimal that reads back as that value: when a one-digit decimal `d * 10^j`
reads back as the value it is that `d`, and otherwise every decimal that reads back
shares the first digit of the exact value. -/
def leadingDigit (m : Nat) (e : Int) : Nat :=
  let a := m * 2 ^ e.toNat
  let b := 2 ^ (-e).toNat
  let pa := 10 ^ dec10Down (b + 1) a b 0
  let pb := b * 10 ^ dec10Up (a + 1) a b 0
  let d := a * pa / pb
  if round false (d * pb) (pa * b) = round false a b then d
  else if round false ((d + 1) * pb) (pa * b) = round false a b then
    (if d + 1 = 10 then 1 else d + 1)
  else d

/-- JavaScript `parseInt(x, 10)` applied to a number `x`: the number is first converted
to a string. `NaN` and the infinities print as words, hence `NaN`. A finite value whose
shortest decimal lies in `[10^-6, 10^21)` prints in positional notation, and the digits
before the decimal point are those of the integer part. Outside that range the string is
in exponent notation (`5e-7`, `1.2e+21`) and `parseInt` stops after its first digit. -/
def parseInt : JsNumber → JsNumber
  | nan => nan
  | inf _ => nan
  | fin n m e =>
    if m = 0 then fin false 0 0
    else if lt (fin false m e) (round false 1 (10 ^ 6)) ∨
        ge (fin false m e) (round false (10 ^ 21) 1) then
      round n (leadingDigit m e) 1
    else round n (floorAbs m e) 1

/-- The rational denoted by a finite number (0 for `NaN` and the infinities). -/
def val : JsNumber → ℚ
  | fin neg m e => (if neg then -1 else 1) * (m : ℚ) * (2 : ℚ) ^ e
  | _ => 0

/-- The value `roundMant * 2^roundExp` to which `round` takes the positive rational `q`,
written as the fraction of its numerator and denominator. -/
def nearest (q : ℚ) : ℚ :=
  (roundMant q.num.natAbs q.den : ℚ) * (2 : ℚ) ^ roundExp q.num.natAbs q.den

/-- The integer nearest to `a / b`, the larger one of two ("Let n be an integer for which
n / 10^f - x is as close to zero as possible. If there are two such n, pick the larger
n"). -/
def roundHalfUp (a b : Nat) : Nat := (2 * a + b) / (2 * b)

/-- The integer `n` of `toFixed(f)` for the magnitude `m * 2^e`: the integer nearest to
`m * 2^e * 10^f`. -/
def fixedUnits (f m : Nat) (e : Int) : Nat :=
  roundHalfUp (m * 2 ^ e.toNat * 10 ^ f) (2 ^ (-e).toNat)

/-- The digits of `n` with a decimal point before the last `f` of them, padded with
zeros on the left to `f + 1` digits (`Number.prototype.toFixed`, where the digits of `n`
are split into the integer and the fraction part). -/
def fixedPoint (f n : Nat) : Str :=
  let ds := natDigits n
  let padded := List.replicate (f + 1 - ds.length) '0' ++ ds
  if f = 0 then padded
  else padded.take (padded.length - f) ++ '.' :: padded.drop (padded.length - f)

/-- The shortest decimal `s * 10^j`, with `k` digits or more in `s`, that reads back as
the integer `x` of `p` digits: the digits of `s` and the exponent of its first digit. Of
two candidates with the same number of digits the one closer to `x` is taken, as engines
do. The first argument bounds the number of digits tried. -/
def shortestAux : Nat → Nat → Nat → Nat → Str × Nat
  | 0, _, x, p => (natDigits x, p - 1)
  | fuel + 1, k, x, p =>
    let base := 10 ^ (p - k)
    let s := x / base
    let lo := round false (s * base) 1 = round false x 1
    let hi := round false ((s + 1) * base) 1 = round false x 1
    let up : Bool := hi ∧ (¬ lo ∨ (s + 1) * base - x < x - s * base ∨
      ((s + 1) * base - x = x - s * base ∧ s % 2 = 1))
    if up then (if s + 1 = 10 ^ k then ("1".toList, p) else (natDigits (s + 1), p - 1))
    else if lo then (natDigits s, p - 1)
    else shortestAux fuel (k + 1) x p

/-- The string `Number::toString` of a value `m * 2^e` of at least `10^21`: exponent
notation with the shortest digits that read back as the value. -/
def toStringBig (m : Nat) (e : Int) : Str :=
  let x := m * 2 ^ e.toNat / 2 ^ (-e).toNat
  let r := shortestAux 17 1 x (natDigits x).length
  (match r.1 with
    | [] => []
    | [d] => [d]
    | d :: ds => d :: '.' :: ds) ++ "e+".toList ++ natDigits r.2

/-- JavaScript `x.toFixed(f)`: `NaN` and the infinities print as words, a magnitude of
`10^21` or more prints as `Number::toString` does, and any other value prints as the
nearest multiple of `10^-f`, with `f` digits after the point; a negative value has a
leading `-`, also when it prints as zero. -/
def toFixed (f : Nat) : JsNumber → Str
  | nan => "NaN".toList
  | inf neg => if neg then "-Infinity".toList else "Infinity".toList
  | fin neg m e =>
    (if neg = true ∧ m ≠ 0 then "-".toList else []) ++
      (if ge (fin false m e) (round false (10 ^ 21) 1) then toStringBig m e
       else fixedPoint f (fixedUnits f m e))

end JsNumber

/-! ## JavaScript string helpers -/

/-- JavaScript `s.split(sep)` for a non-empty separator: the pieces between successive
non-overlapping occurrences of `sep`, scanning from the left. The first argument counts
the characters of a matched separator still to be skipped, the last one holds the
current piece in reverse. -/
def jsSplitAux (sep : Str) : Nat → Str → Str → List Str
  | _, [], cur => [cur.reverse]
  | skip + 1, _ :: cs, cur => jsSplitAux sep skip cs cur
  | 0, c :: cs, cur =>
    if sep.isPrefixOf (c :: cs) then cur.reverse :: jsSplitAux sep (sep.length - 1) cs []
    else jsSplitAux sep 0 cs (c :: cur)

/-- JavaScript `s.split(sep)` for a non-empty separator. -/
def jsSplit (sep s : Str) : List Str := jsSplitAux sep 0 s []

/-- JavaScript `s.split(sep).shift()` / `s.split(sep)[0]`. -/
def splitFirst (sep s : Str) : Str := (jsSplit sep s).headD []

/-- JavaScript `s.split(sep).pop()`. -/
def splitLast (sep s : Str) : Str := (jsSplit sep s).getLastD []

/-- JavaScript `\d`: the code points of `0` to `9`. -/
def isDigit (c : Char) : Bool := 0x30 ≤ c.toNat ∧ c.toNat ≤ 0x39

/-- JavaScript `\w`: the code points of `a-z`, `A-Z`, `0-9` and `_`. -/
def isWord (c : Char) : Bool :=
  (0x61 ≤ c.toNat ∧ c.toNat ≤ 0x7A) ∨ (0x41 ≤ c.toNat ∧ c.toNat ≤ 0x5A) ∨
  (0x30 ≤ c.toNat ∧ c.toNat ≤ 0x39) ∨ c.toNat = 0x5F

/-- JavaScript line terminators: LF, CR, LS, PS. -/
def isLineTerminator (c : Char) : Bool :=
  c.toNat = 0x0A ∨ c.toNat = 0x0D ∨ c.toNat = 0x2028 ∨ c.toNat = 0x2029

/-- JavaScript `\s`: white space and line terminators. -/
def isSpace (c : Char) : Bool :=
  c.toNat = 0x09 ∨ c.toNat = 0x0B ∨ c.toNat = 0x0C ∨ c.toNat = 0x20 ∨ c.toNat = 0xA0 ∨
  c.toNat = 0x1680 ∨ (0x2000 ≤ c.toNat ∧ c.toNat ≤ 0x200A) ∨ c.toNat = 0x202F ∨
  c.toNat = 0x205F ∨ c.toNat = 0x3000 ∨ c.toNat = 0xFEFF ∨ isLineTerminator c

/-- JavaScript `.` (without the `s` flag): anything but a line terminator. -/
def isDot (c : Char) : Bool := !isLineTerminator c

/-- Value of a string of decimal digits, most significant first. -/
def digitsValue (ds : Str) : Nat := ds.foldl (fun acc c => 10 * acc + (c.toNat - '0'.toNat)) 0

/-- JavaScript `parseInt(s, 10)` applied to a string: leading white space is skipped, an
optional sign is read, then the longest run of decimal digits; `NaN` when that run is
empty. -/
def parseIntStr (s : Str) : JsNumber :=
  let t := s.dropWhile isSpace
  let neg := t.head? = some '-'
  let u := if t.head? = some '-' ∨ t.head? = some '+' then t.tail else t
  let ds := u.takeWhile isDigit
  if ds = [] then JsNumber.nan else JsNumber.round neg (digitsValue ds) 1

/-! ## Regular expressions

The three patterns of `Marlin.js` use literals, greedy repetition of a character class
and capture groups. `Re.run` is a backtracking matcher in continuation-passing style
that tries the alternatives in the order a JavaScript engine does (longest repetition
first), so the captures are those of the first successful match. -/

/-- The fragment of regular-expression syntax used by the source. -/
inductive Re
  | lit (s : Str)
  | star (p : Char → Bool)
  | plus (p : Char → Bool)
  | group (r : Re)
  | seq (r₁ r₂ : Re)

/-- If `l` is a prefix of `s`, the rest of `s`. -/
def dropPrefix : Str → Str → Option Str
  | [], s => some s
  | _ :: _, [] => none
  | a :: l, c :: s => if a = c then dropPrefix l s else none

/-- Greedy `p*` followed by the continuation `k`: consume as many characters as
possible, giving back one at a time while `k` fails. -/
def starRun {α : Type} (p : Char → Bool) (k : Str → Option α) : Str → Option α
  | [] => k []
  | c :: cs =>
    if p c then
      match starRun p k cs with
      | some r => some r
      | none => k (c :: cs)
    else k (c :: cs)

/-- Match `r` at the start of `s`, then continue with `k` on the rest of the input and
the captures collected so far (in order of the groups). -/
def Re.run {α : Type} : Re → Str → List Str → (Str → List Str → Option α) → Option α
  | .lit l, s, caps, k =>
    match dropPrefix l s with
    | some rest => k rest caps
    | none => none
  | .star p, s, caps, k => starRun p (fun rest => k rest caps) s
  | .plus p, s, caps, k =>
    match s with
    | [] => none
    | c :: cs => if p c then starRun p (fun rest => k rest caps) cs else none
  | .group r, s, caps, k =>
    r.run s caps (fun rest caps₁ => k rest (caps₁ ++ [s.take (s.length - rest.length)]))
  | .seq r₁ r₂, s, caps, k => r₁.run s caps (fun rest caps₁ => r₂.run rest caps₁ k)

/-- The value of `/^r$/.exec(s)`: the captures `[1], [2], ...` of the first match of `r`
against the whole of `s`, or `none` for `null`. -/
def Re.exec (r : Re) (s : Str) : Option (List Str) :=
  r.run s [] (fun rest caps => if rest = [] then some caps else none)

/-- The class `[\w\d\s]`. -/
def isWordDigitSpace (c : Char) : Bool := isWord c || isDigit c || isSpace c

/-- The pattern `/^[\w\d\s]*; <<<(\w+)>>> (.*)$/` (Marlin.js:106). -/
def conductorComment : Re :=
  .seq (.star isWordDigitSpace) (.seq (.lit "; <<<".toList) (.seq (.group (.plus isWord))
    (.seq (.lit ">>> ".toList) (.group (.star isDot)))))

/-- The pattern `/^.*bot(\w+) : (\d+)$/` of the CHECKPOINT case (Marlin.js:111). -/
def checkpointBotRegex : Re :=
  .seq (.star isDot) (.seq (.lit "bot".toList) (.seq (.group (.plus isWord))
    (.seq (.lit " : ".toList) (.group (.plus isDigit)))))

/-- The pattern `/^.*(bot\w+) : (\d+)$/` of the PRECURSOR case (Marlin.js:146). -/
def precursorBotRegex : Re :=
  .seq (.star isDot) (.seq (.group (.seq (.lit "bot".toList) (.plus isWord)))
    (.seq (.lit " : ".toList) (.group (.plus isDigit))))

/-! ## Bot state -/

/-- The closures stored as `preCallback` / `postCallback` of queue entries. -/
inductive Hook
  /-- The `postCallback` of a streamed line (Marlin.js:177-183). -/
  | lineDone
  /-- The `postCallback` of the trailing entry queued at the end of the source
  (Marlin.js:193-199). -/
  | jobEnd
  /-- The call `self.fsm.jobToGcode()` (Marlin.js:382). -/
  | jobToGcode
  /-- The call `self.fsm.parkToGcode()` (Marlin.js:389). -/
  | parkToGcode
  /-- The call `self.fsm.jobGcodeDone()` (Marlin.js:407). -/
  | jobGcodeDone
  /-- The call `self.fsm.parkGcodeDone()` (Marlin.js:414). -/
  | parkGcodeDone
  /-- The `preCallback` of the position query (generateParkCommands.js:14). -/
  | parkStart
  /-- The `postCallback` of the position query (generateParkCommands.js:28-45). -/
  | parkPlan
  /-- The `postCallback` of the final `G28 X Y` (generateParkCommands.js:39-42). -/
  | parkDone
  deriving DecidableEq, Repr

/-- The closures stored as `processData` of queue entries. -/
inductive DataHandler
  /-- Position parser of `updateRoutine` (Marlin.js:254). -/
  | statusPosition
  /-- Temperature parser of `updateRoutine` (Marlin.js:275). -/
  | statusSensors
  /-- Resolver of `processGcode` (Marlin.js:321). -/
  | resolveReply
  /-- Position reader of `jog` (Marlin.js:352), closed over `params`. -/
  | jogReply (axis : Str) (amount : JsNumber) (feedRate : Option JsNumber)
  /-- Position parser of the park query (generateParkCommands.js:18). -/
  | parkPosition
  deriving DecidableEq, Repr

/-- A command object `{ code, preCallback, postCallback, processData }`; an absent
property is `none`. -/
structure Command where
  code : Option Str := none
  preCallback : Option Hook := none
  postCallback : Option Hook := none
  processData : Option DataHandler := none
  deriving DecidableEq, Repr

/-- What the source hands to the queue: a bare string or a command object. -/
inductive QueueEntry
  | text (s : Str)
  | command (c : Command)
  deriving DecidableEq, Repr

/-- What a handler does to its collaborators, in order. -/
inductive Event
  /-- The call `self.lr.pause()`. -/
  | lrPause
  /-- The call `self.lr.resume()`. -/
  | lrResume
  /-- The call `self.lr.close()`. -/
  | lrClose
  /-- The call `logger.info` of "Bot ... just reached checkpoint ...". -/
  | infoReachedCheckpoint (bot : Str) (checkpoint : JsNumber)
  /-- The call `logger.info` of "Just set blocker to bot ..., checkpoint ...". -/
  | infoBlockerSet (bot : Str) (checkpoint : JsNumber)
  /-- The call `logger.info` of "completed reading file". -/
  | infoCompletedReading
  /-- The call `logger.error('Unknown comment', result)`. -/
  | errorUnknownComment (name payload : Str)
  /-- The call `logger.debug` of the park callbacks. -/
  | debug (msg : Str)
  /-- The POST `{command: 'updateCollaborativeBotCheckpoint', bot, checkpoint}` sent to
  one subscriber. -/
  | notify (subscriber bot : Str) (checkpoint : Option JsNumber)
  /-- An uncaught `TypeError` (indexing `null`), which ends the handler. -/
  | typeError
  /-- An assignment to `currentJob.percentComplete`. -/
  | percent (value : JsNumber)
  deriving DecidableEq, Repr

/-- The object `status.blocker`. -/
structure Blocker where
  bot : Option Str
  checkpoint : Option JsNumber
  deriving DecidableEq, Repr

/-- The collaboration part of `self.status`; `collaborators` is an object used as a map
from bot names to checkpoint numbers. -/
structure Status where
  checkpoint : Option JsNumber
  collaborators : List (Str × JsNumber)
  blocker : Blocker
  deriving DecidableEq, Repr

/-- The state of a bot whose job has been started: the fields of `self` read or written
by the functions below, and the trace of the calls made on the line reader, the logger
and the subscribers. `currentLine` and `numLines` are JavaScript numbers holding
counters, exact below `2^53`. -/
structure Marlin where
  status : Status
  /-- The field `self.queue.mQueue`. -/
  mQueue : List QueueEntry
  /-- Whether the line reader `self.lr` is paused. -/
  lrPaused : Bool
  currentLine : Nat
  numLines : Nat
  /-- The field `self.currentJob.percentComplete`, `none` before the first assignment. -/
  percentComplete : Option JsNumber
  /-- The field `self.currentJob.fsm.current`. -/
  jobState : Str
  /-- The call `self.fsm.current`. -/
  fsmCurrent : Str
  /-- The field `self.settings.name`. -/
  name : Str
  /-- The field `self.subscribers`, `none` when it is not an array. -/
  subscribers : Option (List Str)
  parked : Bool
  /-- The field `self.parkedPosition.z`. -/
  parkedZ : JsNumber
  trace : List Event
  deriving DecidableEq, Repr

/-- The transforms `addOffset`, `addSpeedMultiplier` and `addFeedMultiplier` that
`Marlin` inherits from `DefaultBot`, which is not part of the sources: parameters of the
model. Arguments and results may be `undefined`. -/
structure Transforms where
  addOffset : Option Str → Option Str
  addSpeedMultiplier : Option Str → Option Str
  addFeedMultiplier : Option Str → Option Str

/-- Transforms that change nothing. -/
def Transforms.identity : Transforms := ⟨id, id, id⟩

/-- Record an event. -/
def emit (self : Marlin) (ev : Event) : Marlin := { self with trace := self.trace ++ [ev] }

/-- The call `self.lr.pause()`. -/
def lrPause (self : Marlin) : Marlin := emit { self with lrPaused := true } .lrPause

/-- The call `self.lr.resume()`. -/
def lrResume (self : Marlin) : Marlin := emit { self with lrPaused := false } .lrResume

/-- Modelled from the spec: `queue.queueCommands` of the command queue, which is not part
of the sources ("append to the tail, preserving relative order among the appended
set"). -/
def queueCommands (self : Marlin) (cmds : List QueueEntry) : Marlin :=
  { self with mQueue := self.mQueue ++ cmds }

/-- Modelled from the spec: `queue.prependCommands` of the command queue, which is not
part of the sources ("insert at the head, preserving relative order among the inserted
set"). -/
def prependCommands (self : Marlin) (cmds : List QueueEntry) : Marlin :=
  { self with mQueue := cmds ++ self.mQueue }

/-! ## Precursor barrier (Marlin.js:424-434) -/

/-- The test `collaborators[bot] >= checkpoint`; a missing entry is `undefined`, which compares
false. -/
def barrierOpen (collaborators : List (Str × JsNumber)) (bot : Str) (checkpoint : JsNumber) :
    Bool :=
  match collaborators.lookup bot with
  | some v => JsNumber.ge v checkpoint
  | none => false

/-- The function `commands.checkPrecursors`. -/
def checkPrecursors (self : Marlin) : Marlin :=
  match self.status.blocker.bot, self.status.blocker.checkpoint with
  | some bot, some checkpoint =>
    if barrierOpen self.status.collaborators bot checkpoint then lrResume self else self
  | _, _ => self

/-- The function `commands.updateCollaboratorCheckpoints`. -/
def updateCollaboratorCheckpoints (self : Marlin) (collaborators : List (Str × JsNumber)) :
    Marlin :=
  checkPrecursors { self with status.collaborators := collaborators }

/-! ## Job streaming (Marlin.js:78-223) -/

/-- The operand `(currentLine / numLines) * 100` of Marlin.js:182. -/
def percentRaw (currentLine numLines : Nat) : JsNumber :=
  JsNumber.mul (JsNumber.div (JsNumber.ofNat currentLine) (JsNumber.ofNat numLines))
    (JsNumber.ofNat 100)

/-- The expression `parseInt((currentLine / numLines) * 100, 10)` (Marlin.js:182). -/
def percentOf (currentLine numLines : Nat) : JsNumber :=
  JsNumber.parseInt (percentRaw currentLine numLines)

/-- The integer part of the binary64 value of `(k / n) * 100`. -/
def percentFloor (k n : Nat) : Nat :=
  ⌊JsNumber.nearest (JsNumber.nearest ((k : ℚ) / n) * 100)⌋₊

/-- Assign `currentJob.percentComplete`. -/
def setPercent (self : Marlin) (v : JsNumber) : Marlin :=
  emit { self with percentComplete := some v } (.percent v)

/-- The requests sent to the subscribers on a checkpoint (Marlin.js:119-140). -/
def notifySubscribers (self : Marlin) : Marlin :=
  match self.subscribers with
  | some subs =>
    { self with
      trace := self.trace ++ subs.map (fun sub => Event.notify sub self.name self.status.checkpoint) }
  | none => self

/-- The `CHECKPOINT` case of the line handler (Marlin.js:110-144). -/
def onCheckpoint (self : Marlin) (payload : Str) : Marlin :=
  match checkpointBotRegex.exec payload with
  | none => emit self .typeError
  | some caps =>
    let bot := caps.getD 0 []
    let checkpoint := parseIntStr (caps.getD 1 [])
    let self := { self with status.checkpoint := some (JsNumber.parseInt checkpoint) }
    let self := emit self (.infoReachedCheckpoint bot checkpoint)
    let self := lrResume self
    notifySubscribers self

/-- The `PRECURSOR` case of the line handler (Marlin.js:145-154). -/
def onPrecursor (self : Marlin) (payload : Str) : Marlin :=
  match precursorBotRegex.exec payload with
  | none => emit self .typeError
  | some caps =>
    let bot := caps.getD 0 []
    let checkpoint := parseIntStr (caps.getD 1 [])
    let self := { self with status.blocker := { bot := some bot, checkpoint := some checkpoint } }
    let self := emit self (.infoBlockerSet bot checkpoint)
    checkPrecursors self

/-- The handler of the reader's `line` event (Marlin.js:97-187). -/
def onLine (tr : Transforms) (self : Marlin) (line : Str) : Marlin :=
  let self := lrPause self
  match conductorComment.exec line with
  | some caps =>
    let name := caps.getD 0 []
    let payload := caps.getD 1 []
    if name = "CHECKPOINT".toList then onCheckpoint self payload
    else if name = "PRECURSOR".toList then onPrecursor self payload
    else if name = "DRY".toList then lrResume self
    else emit self (.errorUnknownComment name payload)
  | none =>
    let command := splitFirst ";".toList line
    if command.length ≤ 0 then lrResume self
    else
      queueCommands self
        [.command
          { code := tr.addFeedMultiplier (tr.addSpeedMultiplier (tr.addOffset (some command)))
            postCallback := some .lineDone }]

/-- The handler of the reader's `end` event (Marlin.js:189-201). -/
def onEnd (self : Marlin) : Marlin :=
  let self := emit self .infoCompletedReading
  let self := emit self .lrClose
  queueCommands self [.command { postCallback := some .jobEnd }]

/-- Number of matches of `/\r\n|[\n\r\u0085\u2028\u2029]/g` in a chunk, that is
`chunk.split(...).length - 1` (Marlin.js:208-211). -/
def countSeparators : Str → Nat
  | [] => 0
  | [c] =>
    if c.toNat = 0x0A ∨ c.toNat = 0x0D ∨ c.toNat = 0x85 ∨ c.toNat = 0x2028 ∨ c.toNat = 0x2029
    then 1 else 0
  | c :: d :: cs =>
    if c.toNat = 0x0D ∧ d.toNat = 0x0A then countSeparators cs + 1
    else if c.toNat = 0x0A ∨ c.toNat = 0x0D ∨ c.toNat = 0x85 ∨ c.toNat = 0x2028 ∨
        c.toNat = 0x2029 then countSeparators (d :: cs) + 1
    else countSeparators (d :: cs)

/-- The count `numLines` accumulated over the `data` events of the file stream
(Marlin.js:204-218): one string per chunk delivered. -/
def countLines (chunks : List Str) : Nat := (chunks.map countSeparators).sum

/-- The part of `commands.startJob` after the handlers are registered: the line counter
is reset, the reader exists and is paused, the lines are counted and the reader is
resumed (Marlin.js:89-90, 203-222). -/
def startJob (self : Marlin) (chunks : List Str) : Marlin :=
  let self := { self with currentLine := 0 }
  let self := lrPause self
  let self := { self with numLines := countLines chunks }
  lrResume self

/-! ## Ad-hoc G-code (Marlin.js:310-423) -/

/-- The function `commands.gcodeInitialState`; `Except.error` is a `throw`. -/
def gcodeInitialState (self : Marlin) : Except Str QueueEntry :=
  if self.fsmCurrent = "connected".toList then .ok (.text [])
  else if self.fsmCurrent = "processingJob".toList ∨
      self.fsmCurrent = "processingJobGcode".toList then
    .ok (.command { preCallback := some .jobToGcode })
  else if self.fsmCurrent = "parked".toList then
    .ok (.command { preCallback := some .parkToGcode })
  else .error ("\"processGcode\" not possible from state \"".toList ++ self.fsmCurrent)

/-- The function `commands.gcodeFinalState`. -/
def gcodeFinalState (self : Marlin) : QueueEntry :=
  if self.fsmCurrent = "connected".toList then .text []
  else if self.fsmCurrent = "processingJob".toList ∨
      self.fsmCurrent = "processingJobGcode".toList then
    .command { preCallback := some .jobGcodeDone }
  else if self.fsmCurrent = "processingParkGcode".toList then
    .command { preCallback := some .parkGcodeDone }
  else .text []

/-- The function `commands.streamGcode`: what the call returns (`Except.ok accepted`) or
throws (`Except.error`), and the bot as the call leaves it. The commands are collected
in a local array; the bot is touched by the closing `queueCommands` only, which a throw
does not reach. -/
def streamGcode (tr : Transforms) (self : Marlin) (gcode : Option Str) :
    Except Str Bool × Marlin :=
  if 32 ≤ self.mQueue.length then (.ok false, self)
  else
    match tr.addOffset gcode with
    | none => (.error "\"gcode\" is undefined".toList, self)
    | some g =>
      match gcodeInitialState self with
      | .error err => (.error err, self)
      | .ok first =>
        (.ok true, queueCommands self [first, .text g, gcodeFinalState self])

/-- The function `commands.processGcode`, up to the point where it waits for the reply:
whether the call has failed (`Except.error`) and the bot as the call leaves it. -/
def processGcode (tr : Transforms) (self : Marlin) (gcode : Option Str) :
    Except Str Unit × Marlin :=
  match tr.addOffset gcode with
  | none => (.error "\"gcode\" is undefined".toList, self)
  | some g =>
    match gcodeInitialState self with
    | .error err => (.error err, self)
    | .ok first =>
      (.ok (), queueCommands self
        [first, .command { code := some g, processData := some .resolveReply },
          gcodeFinalState self])

/-- The function `commands.jog`: whether the call has thrown (`Except.error`) and the
bot as the call leaves it. -/
def jog (self : Marlin) (axis : Str) (amount : JsNumber) (feedRate : Option JsNumber) :
    Except Str Unit × Marlin :=
  match gcodeInitialState self with
  | .error err => (.error err, self)
  | .ok first =>
    (.ok (), queueCommands self
      [first,
        .command { code := some "M114".toList, processData := some (.jogReply axis amount feedRate) },
        gcodeFinalState self])

/-! ## Park sequence (generateParkCommands.js) -/

/-- The constant `parkLift`. -/
def parkLift : JsNumber := JsNumber.ofNat 10

/-- The string `parkGcode` built at generateParkCommands.js:34-36. The source pushes it
nowhere. -/
def parkGcode (self : Marlin) : Str :=
  "G1 X".toList ++ (if self.name = "bot1".toList then "5".toList else "495".toList) ++
    " Y238 F3000".toList

/-- The array `parkCommandArray` handed to `queue.prependCommands`
(generateParkCommands.js:30-44). -/
def parkCommandArray (self : Marlin) : List QueueEntry :=
  [.text "G92 E0".toList, .text "G1 E-2 F3000".toList] ++
  (if JsNumber.lt self.parkedZ (JsNumber.sub (JsNumber.ofNat 135) parkLift) then
    [.text ("G1 Z".toList ++ JsNumber.toFixed 2 (JsNumber.add self.parkedZ parkLift) ++
      " F1000".toList)] else []) ++
  [.command { code := some "G28 X Y".toList, postCallback := some .parkDone }]

/-- The array returned by `generateParkCommands(self)`; `clearBufferCommand` is
`self.info.clearBufferCommand`, set by a bot definition outside the sources. -/
def generateParkCommands (clearBufferCommand : QueueEntry) : List QueueEntry :=
  [clearBufferCommand,
    .command
      { preCallback := some .parkStart
        code := some "M114".toList
        processData := some .parkPosition
        postCallback := some .parkPlan }]

/-! ## Callbacks -/

/-- Modelled from the spec: the transitions of the bot state machine of `DefaultBot`,
which is not part of the sources ("From `processingJob`, an interjected ad-hoc
instruction transitions to `processingJobGcode` and back ... From `parked` ... to
`processingParkGcode` and back"). A transition fired from another state leaves the
state alone. -/
def fsmFire (src dst : String) (self : Marlin) : Marlin :=
  if self.fsmCurrent = src.toList then { self with fsmCurrent := dst.toList } else self

/-- Run a stored closure. -/
def runHook (self : Marlin) : Hook → Marlin
  | .lineDone =>
    let self := if self.jobState = "running".toList then lrResume self else self
    let self := { self with currentLine := self.currentLine + 1 }
    setPercent self (percentOf self.currentLine self.numLines)
  | .jobEnd =>
    -- `fsm.stop()`, `fsm.stopDone()`, `currentJob.fsm.runningDone()`,
    -- `currentJob.stopwatch.stop()` belong to `DefaultBot` and `Job`, outside the sources;
    -- by the spec the bot goes back to `connected` and the job lifecycle completes.
    let self := setPercent self (JsNumber.ofNat 100)
    { self with fsmCurrent := "connected".toList, jobState := "complete".toList }
  | .jobToGcode => fsmFire "processingJob" "processingJobGcode" self
  | .parkToGcode => fsmFire "parked" "processingParkGcode" self
  | .jobGcodeDone => fsmFire "processingJobGcode" "processingJob" self
  | .parkGcodeDone => fsmFire "processingParkGcode" "parked" self
  | .parkStart => emit self (.debug "Starting park movements".toList)
  | .parkPlan => prependCommands self (parkCommandArray self)
  | .parkDone => emit { self with parked := true } (.debug "Done with park movements".toList)

/-- The hooks of a queue entry, `preCallback` first. -/
def QueueEntry.hooks : QueueEntry → List Hook
  | .command c => c.preCallback.toList ++ c.postCallback.toList
  | _ => []

/-! ## Simulated connection (connection.js) -/

/-- The fields of a `VirtualConnection`; `hasDataFunc` is `_.isFunction(this.mDataFunc)`. -/
structure VirtualConnection where
  hasDataFunc : Bool
  nBufferedCommands : Nat
  bufferSize : Nat
  deriving DecidableEq, Repr

/-- What `send` does, in order. -/
inductive ConnEvent
  /-- One `Promise.delay(100)` of `waitForBufferToClear`. -/
  | poll
  /-- A `Promise.delay(ms)` simulating the instruction. -/
  | delay (ms : JsNumber)
  /-- A call `this.logger.error(msg)`. -/
  | logError (msg : Str)
  /-- A call `this.mDataFunc(reply)`. -/
  | data (reply : Str)
  deriving DecidableEq, Repr

/-- The method `waitForBufferToClear`: poll every 100 ms while the buffer is full. The
counter is lowered by other sends in flight only; `seen` lists the values it has at the
successive polls. The result is the number of polls and the value that let the call
through, or `none` while it is still waiting at the end of `seen`. -/
def waitForBufferToClear (bufferSize : Nat) : List Nat → Option (Nat × Nat)
  | [] => none
  | v :: seen =>
    if bufferSize ≤ v then (waitForBufferToClear bufferSize seen).map (fun r => (r.1 + 1, r.2))
    else some (1, v)

/-- Whether `needle` occurs in `s` (`s.indexOf(needle) !== -1`). -/
def containsStr (needle : Str) : Str → Bool
  | [] => needle.isPrefixOf []
  | c :: cs => needle.isPrefixOf (c :: cs) || containsStr needle cs

/-- The method `send`: the resulting connection and what was done, in order. A send that
is still waiting for room in the buffer has done nothing but poll. -/
def send (self : VirtualConnection) (seen : List Nat) (inCommandStr : Str) :
    VirtualConnection × List ConnEvent :=
  if self.hasDataFunc then
    let commandPrefix := splitFirst " ".toList inCommandStr
    let reply := "ok".toList
    let waited : Option (Nat × Nat) :=
      if self.bufferSize ≤ self.nBufferedCommands then waitForBufferToClear self.bufferSize seen
      else some (0, self.nBufferedCommands)
    match waited with
    | none => (self, List.replicate seen.length .poll)
    | some (polls, n) =>
      let body : List ConnEvent :=
        if commandPrefix = "G4".toList then
          if containsStr "G4 P".toList inCommandStr then
            [.delay (parseIntStr (splitFirst "\n".toList (splitLast "G4 P".toList inCommandStr)))]
          else []
        else if commandPrefix = "G1".toList then [.delay (JsNumber.ofNat 100)]
        else [.logError "command not supported".toList]
      ({ self with nBufferedCommands := n + 1 - 1 },
        List.replicate polls .poll ++ body ++ [.data reply])
  else (self, [])

/-! ## A streaming job as a transition system -/

/-- Pieces of `chunk.split(/(?:\n|\r\n|\r)/g)`; the last argument holds the current piece
in reverse. -/
def splitLinesAux : Str → Str → List Str
  | [], cur => [cur.reverse]
  | [c], cur =>
    if c.toNat = 0x0A ∨ c.toNat = 0x0D then [cur.reverse, []] else [(c :: cur).reverse]
  | c :: d :: cs, cur =>
    if c.toNat = 0x0D ∧ d.toNat = 0x0A then cur.reverse :: splitLinesAux cs []
    else if c.toNat = 0x0A ∨ c.toNat = 0x0D then cur.reverse :: splitLinesAux (d :: cs) []
    else splitLinesAux (d :: cs) (c :: cur)

/-- The lines emitted by the reader of the npm package `line-by-line`, a dependency
outside the repository: each chunk is split at `\n`, `\r\n` and `\r`, the text after the
last separator of a chunk is carried over to the next chunk, and what is left at the end
of the file is emitted as a last line unless it is empty. -/
def readerLinesAux : Str → List Str → List Str
  | frag, [] => if frag = [] then [] else [frag]
  | frag, chunk :: chunks =>
    ((frag ++ (splitLinesAux chunk []).headD []) :: (splitLinesAux chunk []).tail).dropLast ++
      readerLinesAux
        (((frag ++ (splitLinesAux chunk []).headD []) :: (splitLinesAux chunk []).tail).getLastD [])
        chunks

/-- The lines the reader emits for a file delivered in the given chunks. -/
def readerLines (chunks : List Str) : List Str := readerLinesAux [] chunks

/-- A job being streamed: the bot, the lines the reader has not emitted yet, whether the
reader has emitted `end`, and whether the `postCallback` of the trailing queue entry has
run. -/
structure Job where
  bot : Marlin
  pending : List Str
  ended : Bool
  trailingDone : Bool
  deriving DecidableEq, Repr

/-- The job right after `startJob`. The file is streamed twice: `counted` are the chunks
delivered by the stream that counts the lines, `read` the chunks delivered to the line
reader. The trace restarts, so that it holds the events of this job. -/
def Job.start (self : Marlin) (counted read : List Str) : Job :=
  { bot := { startJob self counted with trace := [] }
    pending := readerLines read
    ended := false
    trailingDone := false }

/-- What can happen next to a job. -/
inductive Step
  /-- The reader, not paused, emits its next line. -/
  | line
  /-- The reader, not paused and out of lines, emits `end`. -/
  | endOfSource
  /-- The command at the head of the queue is dispatched and completes. -/
  | complete
  /-- An external call of `updateCollaboratorCheckpoints`. -/
  | update (collaborators : List (Str × JsNumber))
  deriving DecidableEq, Repr

/-- Run one stored closure of a job. -/
def Job.runHook (j : Job) (h : Hook) : Job :=
  { j with bot := MCU.runHook j.bot h, trailingDone := j.trailingDone || decide (h = Hook.jobEnd) }

/-- One step of a job, `none` when the step cannot happen. The completion of the head
entry is modelled from the spec, the command queue not being part of the sources ("pop
head; run `preCallback` ...; on completion run `postCallback`; advance to next
head"). -/
def Job.step (tr : Transforms) (j : Job) : Step → Option Job
  | .line =>
    match j.bot.lrPaused, j.pending with
    | false, l :: rest => some { j with bot := onLine tr j.bot l, pending := rest }
    | _, _ => none
  | .endOfSource =>
    if j.bot.lrPaused = false ∧ j.pending = [] ∧ j.ended = false then
      some { j with bot := onEnd j.bot, ended := true }
    else none
  | .complete =>
    match j.bot.mQueue with
    | [] => none
    | entry :: rest =>
      some (entry.hooks.foldl Job.runHook { j with bot := { j.bot with mQueue := rest } })
  | .update collaborators =>
    some { j with bot := updateCollaboratorCheckpoints j.bot collaborators }

/-- Run a schedule of steps, `none` as soon as one of them cannot happen. -/
def Job.run (tr : Transforms) (j : Job) : List Step → Option Job
  | [] => some j
  | s :: ss =>
    match j.step tr s with
    | some j' => Job.run tr j' ss
    | none => none

/-- The successive values assigned to `percentComplete`. -/
def percents : List Event → List JsNumber
  | [] => []
  | .percent v :: evs => v :: percents evs
  | _ :: evs => percents evs

/-- The hooks of the entries of a queue, in the order in which they will run. -/
def queueHooks : List QueueEntry → List Hook
  | [] => []
  | e :: q => e.hooks ++ queueHooks q

/-- The hooks that drive the progress of a job. -/
def jobHooks (hs : List Hook) : List Hook :=
  hs.filter (fun h => decide (h = Hook.lineDone) || decide (h = Hook.jobEnd))

/-- A handler that leaves the progress of the job alone: counters, queue and the values
assigned to `percentComplete` are as before. -/
structure Quiet (s s' : Marlin) : Prop where
  sameNumLines : s'.numLines = s.numLines
  sameCurrentLine : s'.currentLine = s.currentLine
  sameQueue : s'.mQueue = s.mQueue
  samePercents : percents s'.trace = percents s.trace

/-- The relation between successive values of `percentComplete`: the comparison `a <= b`
of the two numbers. -/
def Rising (a b : JsNumber) : Prop := JsNumber.le a b = true

instance : DecidableRel Rising := fun a b => inferInstanceAs (Decidable (JsNumber.le a b = true))

/-- The invariant of a streaming job of `n` counted lines, `hs` being the hooks of the
entry in flight that have not run yet: the hooks of streamed lines precede the hook of
the trailing entry, completed, queued and unread lines together do not exceed `n`, the
trailing entry exists once the reader has ended, the last value assigned is the one of
the last completion, the values assigned so far never decrease, and 100 is among them
only when all `n` lines are complete or the trailing entry is. -/
structure JobInv (n : Nat) (hs : List Hook) (j : Job) : Prop where
  numLines : j.bot.numLines = n
  shape : ∃ a b, jobHooks (hs ++ queueHooks j.bot.mQueue) =
      List.replicate a Hook.lineDone ++ List.replicate b Hook.jobEnd ∧
    j.bot.currentLine + a + j.pending.length ≤ n ∧
    b + (if j.trailingDone = true then 1 else 0) = (if j.ended = true then 1 else 0) ∧
    (j.trailingDone = true → a = 0)
  endedPending : j.ended = true → j.pending = []
  last : (percents j.bot.trace).getLast? =
    if j.trailingDone = true then some (JsNumber.ofNat 100)
    else if j.bot.currentLine = 0 then none
    else some (percentOf j.bot.currentLine n)
  chain : List.Chain' Rising (percents j.bot.trace)
  hundred : JsNumber.ofNat 100 ∈ percents j.bot.trace →
    j.bot.currentLine = n ∨ j.trailingDone = true

/-! ## Sample states -/

/-- A bot as `Marlin`'s constructor and `startJob` leave it before the first line: no
checkpoint, no collaborators, no blocker, an empty queue, a paused reader. -/
def Marlin.fresh (name fsmCurrent : String) : Marlin :=
  { status := { checkpoint := none, collaborators := [], blocker := ⟨none, none⟩ }
    mQueue := []
    lrPaused := true
    currentLine := 0
    numLines := 0
    percentComplete := none
    jobState := "running".toList
    fsmCurrent := fsmCurrent.toList
    name := name.toList
    subscribers := none
    parked := false
    parkedZ := JsNumber.ofNat 0
    trace := [] }

/-- A bot held at the barrier `{bot: "2", checkpoint: 5}`. -/
def Marlin.blockedOn2 : Marlin :=
  { Marlin.fresh "Marlin" "processingJob" with
    status.blocker := ⟨some "2".toList, some (JsNumber.ofNat 5)⟩ }

/-- A connection with a registered data callback and an empty buffer of size 32
(connection.js:35-38). -/
def VirtualConnection.fresh : VirtualConnection :=
  { hasDataFunc := true, nBufferedCommands := 0, bufferSize := 32 }

/-- A bot named `bot1` whose park query found it at height 100. -/
def Marlin.bot1At100 : Marlin :=
  { Marlin.fresh "bot1" "connected" with parkedZ := JsNumber.ofNat 100 }

/-- A bot named `bot1` whose park query replied `Z:100.126`: the height is
`Number("100.126")`. -/
def Marlin.bot1At100126 : Marlin :=
  { Marlin.fresh "bot1" "connected" with parkedZ := JsNumber.round false 100126 1000 }

/-- A bot named `bot2` whose park query found it at height 130. -/
def Marlin.bot2At130 : Marlin :=
  { Marlin.fresh "bot2" "connected" with parkedZ := JsNumber.ofNat 130 }

/-- A file of 100 lines `G1 X1`, each ended by a line feed, read in one chunk. -/
def file100 : List Str := [(List.replicate 100 "G1 X1\n".toList).flatten]

/-- A file of one line `G1 X1` ended by a line feed. -/
def oneLineFile : List Str := ["G1 X1\n".toList]

/-- A file of two lines, each ended by a line feed. -/
def twoLineFile : List Str := ["G1 X1\nG1 X2\n".toList]

/-- A file of two lines whose last line has no line feed. -/
def unterminatedFile : List Str := ["G1 X1\nG1 X2".toList]

/-- The schedule in which each of the first `k` lines is read and its command completes
at once. -/
def immediate (k : Nat) : List Step := (List.replicate k [Step.line, Step.complete]).flatten

/-- The job over `file`, started on a fresh bot in state `processingJob` with the
identity transforms and taken through `steps`; the job as started when a step cannot
happen. -/
def Job.sample (file : List Str) (steps : List Step) : Job :=
  (Job.run Transforms.identity (Job.start (Marlin.fresh "Marlin" "processingJob") file file)
    steps).getD (Job.start (Marlin.fresh "Marlin" "processingJob") file file)

/-- A file whose first line waits for `bot2` to reach checkpoint 5, followed by two
motion lines. -/
def precursorFile : List Str := ["; <<<PRECURSOR>>> bot2 : 5\nG1 X1\nG1 X2\n".toList]

/-- The queue entry of the streamed line `code` under the identity transforms. -/
def lineCommand (code : String) : QueueEntry :=
  .command { code := some code.toList, postCallback := some .lineDone }

/-- The line `; <<<PRECURSOR>>> bot<id> : <digits>`. -/
def precursorLine (idw digits : Str) : Str :=
  "; <<<PRECURSOR>>> ".toList ++ ("bot".toList ++ (idw ++ (" : ".toList ++ digits)))

end MCU

/-! # Theorems -/

namespace MCU

/-! ## Binary64 arithmetic -/

section Numbers

open JsNumber hiding round

theorem log2Fuel_spec (fuel n : Nat) (h1 : 1 ≤ n) (hf : n ≤ fuel) :
    2 ^ log2Fuel fuel n ≤ n ∧ n < 2 ^ (log2Fuel fuel n + 1) := by
  induction fuel generalizing n with
  | zero => omega
  | succ fuel ih =>
    unfold log2Fuel
    by_cases h2 : 2 ≤ n
    · rw [if_pos h2]
      have := ih (n / 2) (by omega) (by omega)
      rw [pow_succ, pow_succ]
      constructor <;> omega
    · rw [if_neg h2]
      have : n = 1 := by omega
      subst this
      simp

theorem ilog2_spec (n : Nat) (h1 : 1 ≤ n) : 2 ^ ilog2 n ≤ n ∧ n < 2 ^ (ilog2 n + 1) :=
  log2Fuel_spec n n h1 (le_refl n)

theorem two_zpow_toNat (e : ℤ) :
    (2 : ℚ) ^ e = ((2 ^ e.toNat : ℕ) : ℚ) / ((2 ^ (-e).toNat : ℕ) : ℚ) := by
  rcases le_total 0 e with h | h
  · obtain ⟨n, rfl⟩ := Int.eq_ofNat_of_zero_le h
    simp [zpow_natCast]
  · obtain ⟨n, rfl⟩ := Int.exists_eq_neg_ofNat h
    simp [zpow_natCast]

/-- The test of `fracLog2`, read in the rationals. -/
theorem pow_le_frac_iff (a b : Nat) (hb : 0 < b) (t : ℤ) :
    b * 2 ^ t.toNat ≤ a * 2 ^ (-t).toNat ↔ (2 : ℚ) ^ t ≤ (a : ℚ) / b := by
  rw [two_zpow_toNat t]
  have hb' : (0 : ℚ) < b := by exact_mod_cast hb
  have hp : (0 : ℚ) < ((2 ^ (-t).toNat : ℕ) : ℚ) := by positivity
  rw [div_le_div_iff₀ hp hb']
  constructor
  · intro h
    have : ((b * 2 ^ t.toNat : ℕ) : ℚ) ≤ ((a * 2 ^ (-t).toNat : ℕ) : ℚ) := by exact_mod_cast h
    push_cast at this ⊢
    linarith
  · intro h
    have : ((b * 2 ^ t.toNat : ℕ) : ℚ) ≤ ((a * 2 ^ (-t).toNat : ℕ) : ℚ) := by
      push_cast at h ⊢
      linarith
    exact_mod_cast this

theorem fracLog2_spec (a b : Nat) (ha : 0 < a) (hb : 0 < b) :
    (2 : ℚ) ^ fracLog2 a b ≤ (a : ℚ) / b ∧ (a : ℚ) / b < (2 : ℚ) ^ (fracLog2 a b + 1) := by
  obtain ⟨ha1, ha2⟩ := ilog2_spec a ha
  obtain ⟨hb1, hb2⟩ := ilog2_spec b hb
  have hb' : (0 : ℚ) < b := by exact_mod_cast hb
  have ha1' : (2 : ℚ) ^ (ilog2 a : ℤ) ≤ a := by rw [zpow_natCast]; exact_mod_cast ha1
  have ha2' : (a : ℚ) < (2 : ℚ) ^ ((ilog2 a : ℤ) + 1) := by
    have : (a : ℚ) < (2 : ℚ) ^ (ilog2 a + 1) := by exact_mod_cast ha2
    rwa [← zpow_natCast, Nat.cast_add, Nat.cast_one] at this
  have hb1' : (2 : ℚ) ^ (ilog2 b : ℤ) ≤ b := by rw [zpow_natCast]; exact_mod_cast hb1
  have hb2' : (b : ℚ) < (2 : ℚ) ^ ((ilog2 b : ℤ) + 1) := by
    have : (b : ℚ) < (2 : ℚ) ^ (ilog2 b + 1) := by exact_mod_cast hb2
    rwa [← zpow_natCast, Nat.cast_add, Nat.cast_one] at this
  have h2 : (2 : ℚ) ≠ 0 := by norm_num
  have hpa : (0 : ℚ) < (2 : ℚ) ^ (ilog2 a : ℤ) := zpow_pos (by norm_num) _
  have hpb : (0 : ℚ) < (2 : ℚ) ^ (ilog2 b : ℤ) := zpow_pos (by norm_num) _
  -- a / b < 2 ^ (t + 1) and 2 ^ (t - 1) < a / b
  have hup : (a : ℚ) / b < (2 : ℚ) ^ ((ilog2 a : ℤ) - (ilog2 b : ℤ) + 1) := by
    have e1 : (2 : ℚ) ^ ((ilog2 a : ℤ) - (ilog2 b : ℤ) + 1) =
        (2 : ℚ) ^ ((ilog2 a : ℤ) + 1) / (2 : ℚ) ^ (ilog2 b : ℤ) := by
      rw [← zpow_sub₀ h2]; congr 1; ring
    rw [e1, div_lt_div_iff₀ hb' hpb]
    calc (a : ℚ) * 2 ^ (ilog2 b : ℤ) < 2 ^ ((ilog2 a : ℤ) + 1) * 2 ^ (ilog2 b : ℤ) :=
          mul_lt_mul_of_pos_right ha2' hpb
      _ ≤ 2 ^ ((ilog2 a : ℤ) + 1) * b :=
          mul_le_mul_of_nonneg_left hb1' (le_of_lt (zpow_pos (by norm_num) _))
  have hlo : (2 : ℚ) ^ ((ilog2 a : ℤ) - (ilog2 b : ℤ) - 1) < (a : ℚ) / b := by
    have e1 : (2 : ℚ) ^ ((ilog2 a : ℤ) - (ilog2 b : ℤ) - 1) =
        (2 : ℚ) ^ (ilog2 a : ℤ) / (2 : ℚ) ^ ((ilog2 b : ℤ) + 1) := by
      rw [← zpow_sub₀ h2]; congr 1; ring
    rw [e1, div_lt_div_iff₀ (zpow_pos (by norm_num) _) hb']
    calc (2 : ℚ) ^ (ilog2 a : ℤ) * b < 2 ^ (ilog2 a : ℤ) * 2 ^ ((ilog2 b : ℤ) + 1) :=
          mul_lt_mul_of_pos_left hb2' hpa
      _ ≤ a * 2 ^ ((ilog2 b : ℤ) + 1) :=
          mul_le_mul_of_nonneg_right ha1' (le_of_lt (zpow_pos (by norm_num) _))
  unfold fracLog2
  simp only []
  split
  · rename_i h
    exact ⟨(pow_le_frac_iff a b hb _).1 h, hup⟩
  · rename_i h
    have h' : ¬ (2 : ℚ) ^ ((ilog2 a : ℤ) - (ilog2 b : ℤ)) ≤ (a : ℚ) / b :=
      fun hh => h ((pow_le_frac_iff a b hb _).2 hh)
    refine ⟨le_of_lt hlo, ?_⟩
    have : (ilog2 a : ℤ) - (ilog2 b : ℤ) - 1 + 1 = (ilog2 a : ℤ) - (ilog2 b : ℤ) := by ring
    rw [this]
    exact lt_of_not_le h'

/-- The binary logarithm is determined by the value of the fraction. -/
theorem fracLog2_unique (a b : Nat) (ha : 0 < a) (hb : 0 < b) (L : ℤ)
    (h1 : (2 : ℚ) ^ L ≤ (a : ℚ) / b) (h2 : (a : ℚ) / b < (2 : ℚ) ^ (L + 1)) :
    fracLog2 a b = L := by
  obtain ⟨s1, s2⟩ := fracLog2_spec a b ha hb
  have k1 : (2 : ℚ) ^ L < (2 : ℚ) ^ (fracLog2 a b + 1) := lt_of_le_of_lt h1 s2
  have k2 : (2 : ℚ) ^ fracLog2 a b < (2 : ℚ) ^ (L + 1) := lt_of_le_of_lt s1 h2
  rw [zpow_lt_zpow_iff_right₀ (by norm_num)] at k1 k2
  omega

theorem fracLog2_mono (a b c d : Nat) (ha : 0 < a) (hb : 0 < b) (hc : 0 < c) (hd : 0 < d)
    (h : (a : ℚ) / b ≤ (c : ℚ) / d) : fracLog2 a b ≤ fracLog2 c d := by
  obtain ⟨s1, _⟩ := fracLog2_spec a b ha hb
  obtain ⟨_, t2⟩ := fracLog2_spec c d hc hd
  have k : (2 : ℚ) ^ fracLog2 a b < (2 : ℚ) ^ (fracLog2 c d + 1) :=
    lt_of_le_of_lt (le_trans s1 h) t2
  rw [zpow_lt_zpow_iff_right₀ (by norm_num)] at k
  omega

theorem roundHalfEven_bounds (Y B : Nat) (hB : 0 < B) :
    2 * Y ≤ 2 * (roundHalfEven Y B * B) + B ∧ 2 * (roundHalfEven Y B * B) ≤ 2 * Y + B ∧
    ((2 * Y = 2 * (roundHalfEven Y B * B) + B ∨ 2 * (roundHalfEven Y B * B) = 2 * Y + B) →
      roundHalfEven Y B % 2 = 0) := by
  have hY : B * (Y / B) + Y % B = Y := Nat.div_add_mod Y B
  have hr : Y % B < B := Nat.mod_lt Y hB
  generalize Y / B = q at hY
  generalize Y % B = r at hY hr
  have hqB : q * B = B * q := Nat.mul_comm q B
  unfold roundHalfEven
  rw [← hY]
  have e1 : (B * q + r) / B = q := by
    rw [Nat.add_comm, Nat.add_mul_div_left _ _ hB, Nat.div_eq_of_lt hr]; simp
  have e2 : (B * q + r) % B = r := by
    rw [Nat.add_comm, Nat.add_mul_mod_self_left, Nat.mod_eq_of_lt hr]
  rw [e1, e2]
  by_cases h1 : 2 * r < B
  · rw [if_pos h1]
    refine ⟨by omega, by omega, ?_⟩
    intro h; omega
  · rw [if_neg h1]
    by_cases h2 : B < 2 * r
    · rw [if_pos h2, Nat.add_mul, Nat.one_mul]
      refine ⟨by omega, by omega, ?_⟩
      intro h; omega
    · rw [if_neg h2]
      rcases Nat.mod_two_eq_zero_or_one q with h3 | h3
      · rw [h3, Nat.add_zero]
        refine ⟨by omega, by omega, ?_⟩
        intro _; exact h3
      · rw [h3, Nat.add_mul, Nat.one_mul]
        refine ⟨by omega, by omega, ?_⟩
        intro _; omega

theorem roundHalfEven_near (Y B : Nat) (hB : 0 < B) :
    (Y : ℚ) / B - 1 / 2 ≤ roundHalfEven Y B ∧ (roundHalfEven Y B : ℚ) ≤ (Y : ℚ) / B + 1 / 2 ∧
    (((roundHalfEven Y B : ℚ) = (Y : ℚ) / B - 1 / 2 ∨
      (roundHalfEven Y B : ℚ) = (Y : ℚ) / B + 1 / 2) → roundHalfEven Y B % 2 = 0) := by
  obtain ⟨h1, h2, h3⟩ := roundHalfEven_bounds Y B hB
  have hB' : (0 : ℚ) < B := by exact_mod_cast hB
  have h1' : (2 : ℚ) * Y ≤ 2 * (roundHalfEven Y B * B) + B := by exact_mod_cast h1
  have h2' : (2 : ℚ) * (roundHalfEven Y B * B) ≤ 2 * Y + B := by exact_mod_cast h2
  have hy : (Y : ℚ) = (Y : ℚ) / B * B := by field_simp
  refine ⟨?_, ?_, ?_⟩
  · by_contra hc
    push_neg at hc
    have : (roundHalfEven Y B : ℚ) * B < ((Y : ℚ) / B - 1 / 2) * B :=
      mul_lt_mul_of_pos_right hc hB'
    nlinarith
  · by_contra hc
    push_neg at hc
    have : ((Y : ℚ) / B + 1 / 2) * B < (roundHalfEven Y B : ℚ) * B :=
      mul_lt_mul_of_pos_right hc hB'
    nlinarith
  · intro h
    apply h3
    rcases h with h | h
    · left
      have : (2 : ℚ) * Y = 2 * (roundHalfEven Y B * B) + B := by
        rw [h]; field_simp; ring
      exact_mod_cast this
    · right
      have : (2 : ℚ) * (roundHalfEven Y B * B) = 2 * Y + B := by
        rw [h]; field_simp; ring
      exact_mod_cast this

theorem roundHalfEven_mono (Y₁ B₁ Y₂ B₂ : Nat) (h1 : 0 < B₁) (h2 : 0 < B₂)
    (h : (Y₁ : ℚ) / B₁ ≤ (Y₂ : ℚ) / B₂) : roundHalfEven Y₁ B₁ ≤ roundHalfEven Y₂ B₂ := by
  obtain ⟨_, a2, a3⟩ := roundHalfEven_near Y₁ B₁ h1
  obtain ⟨b1, _, b3⟩ := roundHalfEven_near Y₂ B₂ h2
  by_contra hc
  push_neg at hc
  have hc' : (roundHalfEven Y₂ B₂ : ℚ) + 1 ≤ roundHalfEven Y₁ B₁ := by exact_mod_cast hc
  have e1 : (roundHalfEven Y₁ B₁ : ℚ) = (Y₁ : ℚ) / B₁ + 1 / 2 := by linarith
  have e2 : (roundHalfEven Y₂ B₂ : ℚ) = (Y₂ : ℚ) / B₂ - 1 / 2 := by linarith
  have p1 := a3 (Or.inr e1)
  have p2 := b3 (Or.inl e2)
  have e3 : (roundHalfEven Y₁ B₁ : ℚ) = roundHalfEven Y₂ B₂ + 1 := by linarith
  have e4 : roundHalfEven Y₁ B₁ = roundHalfEven Y₂ B₂ + 1 := by exact_mod_cast e3
  omega

theorem roundHalfEven_congr (Y₁ B₁ Y₂ B₂ : Nat) (h1 : 0 < B₁) (h2 : 0 < B₂)
    (h : (Y₁ : ℚ) / B₁ = (Y₂ : ℚ) / B₂) : roundHalfEven Y₁ B₁ = roundHalfEven Y₂ B₂ :=
  le_antisymm (roundHalfEven_mono _ _ _ _ h1 h2 (le_of_eq h))
    (roundHalfEven_mono _ _ _ _ h2 h1 (le_of_eq h.symm))

theorem roundHalfEven_exact (Y B N : Nat) (hB : 0 < B) (h : (Y : ℚ) / B = N) :
    roundHalfEven Y B = N := by
  obtain ⟨a1, a2, _⟩ := roundHalfEven_near Y B hB
  rw [h] at a1 a2
  have b1 : (N : ℚ) < (roundHalfEven Y B : ℚ) + 1 := by linarith
  have b2 : (roundHalfEven Y B : ℚ) < (N : ℚ) + 1 := by linarith
  have c1 : N < roundHalfEven Y B + 1 := by exact_mod_cast b1
  have c2 : roundHalfEven Y B < N + 1 := by exact_mod_cast b2
  omega

/-- The fraction rounded by `roundMant` is the scaled value. -/
theorem scaled_frac (a b : Nat) (e : ℤ) :
    ((a * 2 ^ (-e).toNat : ℕ) : ℚ) / ((b * 2 ^ e.toNat : ℕ) : ℚ) = (a : ℚ) / b / (2 : ℚ) ^ e := by
  rw [two_zpow_toNat e]
  push_cast
  have hp : ((2 : ℚ) ^ e.toNat) ≠ 0 := by positivity
  have hq : ((2 : ℚ) ^ (-e).toNat) ≠ 0 := by positivity
  by_cases hb : (b : ℚ) = 0
  · simp [hb]
  · field_simp

theorem scaled_den_pos (b : Nat) (e : ℤ) (hb : 0 < b) : 0 < b * 2 ^ e.toNat :=
  Nat.mul_pos hb (Nat.pos_pow_of_pos _ (by norm_num))

/-- The value `roundMant * 2^roundExp` that `round` returns when it does not overflow. -/
theorem roundExp_mono (a b c d : Nat) (ha : 0 < a) (hb : 0 < b) (hc : 0 < c) (hd : 0 < d)
    (h : (a : ℚ) / b ≤ (c : ℚ) / d) : roundExp a b ≤ roundExp c d := by
  have := fracLog2_mono a b c d ha hb hc hd h
  unfold roundExp
  omega

theorem roundMant_le (a b : Nat) (ha : 0 < a) (hb : 0 < b) : roundMant a b ≤ 2 ^ 53 := by
  obtain ⟨_, s2⟩ := fracLog2_spec a b ha hb
  obtain ⟨_, n2, _⟩ := roundHalfEven_near (a * 2 ^ (-roundExp a b).toNat)
    (b * 2 ^ (roundExp a b).toNat) (scaled_den_pos b _ hb)
  rw [scaled_frac] at n2
  have hpe : (0 : ℚ) < (2 : ℚ) ^ roundExp a b := zpow_pos (by norm_num) _
  have hle : (2 : ℚ) ^ (fracLog2 a b + 1) ≤ (2 : ℚ) ^ (roundExp a b + 53) :=
    zpow_le_zpow_right₀ (by norm_num) (by unfold roundExp; omega)
  have hy : (a : ℚ) / b / (2 : ℚ) ^ roundExp a b < (2 : ℚ) ^ (53 : ℕ) := by
    rw [div_lt_iff₀ hpe]
    calc (a : ℚ) / b < (2 : ℚ) ^ (fracLog2 a b + 1) := s2
      _ ≤ (2 : ℚ) ^ (roundExp a b + 53) := hle
      _ = (2 : ℚ) ^ (53 : ℕ) * (2 : ℚ) ^ roundExp a b := by
          rw [zpow_add₀ (by norm_num), mul_comm]; norm_cast
  have : (roundMant a b : ℚ) < (2 : ℚ) ^ (53 : ℕ) + 1 := by
    unfold roundMant
    linarith
  have : roundMant a b < 2 ^ 53 + 1 := by exact_mod_cast this
  omega

theorem roundMant_ge (a b : Nat) (ha : 0 < a) (hb : 0 < b)
    (he : roundExp a b = fracLog2 a b - 52) : 2 ^ 52 ≤ roundMant a b := by
  obtain ⟨s1, _⟩ := fracLog2_spec a b ha hb
  obtain ⟨n1, _, _⟩ := roundHalfEven_near (a * 2 ^ (-roundExp a b).toNat)
    (b * 2 ^ (roundExp a b).toNat) (scaled_den_pos b _ hb)
  rw [scaled_frac] at n1
  have hpe : (0 : ℚ) < (2 : ℚ) ^ roundExp a b := zpow_pos (by norm_num) _
  have hy : (2 : ℚ) ^ (52 : ℕ) ≤ (a : ℚ) / b / (2 : ℚ) ^ roundExp a b := by
    rw [le_div_iff₀ hpe]
    calc (2 : ℚ) ^ (52 : ℕ) * (2 : ℚ) ^ roundExp a b = (2 : ℚ) ^ (fracLog2 a b) := by
          rw [he, ← zpow_natCast, ← zpow_add₀ (by norm_num)]; congr 1; push_cast; ring
      _ ≤ (a : ℚ) / b := s1
  have : (2 : ℚ) ^ (52 : ℕ) < (roundMant a b : ℚ) + 1 := by
    unfold roundMant
    linarith
  have : 2 ^ 52 < roundMant a b + 1 := by exact_mod_cast this
  omega

/-- Rounding is monotone in the value of the fraction. -/
theorem rawVal_mono (a b c d : Nat) (ha : 0 < a) (hb : 0 < b) (hc : 0 < c) (hd : 0 < d)
    (h : (a : ℚ) / b ≤ (c : ℚ) / d) :
    (roundMant a b : ℚ) * (2 : ℚ) ^ roundExp a b ≤ (roundMant c d : ℚ) * (2 : ℚ) ^ roundExp c d := by
  have he := roundExp_mono a b c d ha hb hc hd h
  rcases eq_or_lt_of_le he with heq | hlt
  · have hpe : (0 : ℚ) < (2 : ℚ) ^ roundExp c d := zpow_pos (by norm_num) _
    have hm : roundMant a b ≤ roundMant c d := by
      unfold roundMant
      apply roundHalfEven_mono _ _ _ _ (scaled_den_pos b _ hb) (scaled_den_pos d _ hd)
      rw [scaled_frac, scaled_frac, heq]
      exact div_le_div_of_nonneg_right h (le_of_lt hpe)
    rw [heq]
    exact mul_le_mul_of_nonneg_right (by exact_mod_cast hm) (le_of_lt hpe)
  · have h1 := roundMant_le a b ha hb
    have h2 := roundMant_ge c d hc hd (by unfold roundExp at hlt ⊢; omega)
    have h1' : (roundMant a b : ℚ) ≤ (2 : ℚ) ^ (53 : ℕ) := by exact_mod_cast h1
    have h2' : (2 : ℚ) ^ (52 : ℕ) ≤ (roundMant c d : ℚ) := by exact_mod_cast h2
    have hp1 : (0 : ℚ) < (2 : ℚ) ^ roundExp a b := zpow_pos (by norm_num) _
    have hp2 : (0 : ℚ) < (2 : ℚ) ^ roundExp c d := zpow_pos (by norm_num) _
    calc (roundMant a b : ℚ) * (2 : ℚ) ^ roundExp a b
        ≤ (2 : ℚ) ^ (53 : ℕ) * (2 : ℚ) ^ roundExp a b :=
          mul_le_mul_of_nonneg_right h1' (le_of_lt hp1)
      _ = (2 : ℚ) ^ (roundExp a b + 53) := by
          rw [zpow_add₀ (by norm_num), mul_comm]; norm_cast
      _ ≤ (2 : ℚ) ^ (roundExp c d + 52) := zpow_le_zpow_right₀ (by norm_num) (by omega)
      _ = (2 : ℚ) ^ (52 : ℕ) * (2 : ℚ) ^ roundExp c d := by
          rw [zpow_add₀ (by norm_num), mul_comm]; norm_cast
      _ ≤ (roundMant c d : ℚ) * (2 : ℚ) ^ roundExp c d :=
          mul_le_mul_of_nonneg_right h2' (le_of_lt hp2)

theorem natAbs_cast_of_pos (z : ℤ) (h : 0 < z) : ((z.natAbs : ℕ) : ℚ) = (z : ℚ) := by
  have h1 : ((z.natAbs : ℕ) : ℤ) = z := Int.natAbs_of_nonneg (le_of_lt h)
  calc ((z.natAbs : ℕ) : ℚ) = (((z.natAbs : ℕ) : ℤ) : ℚ) := (Int.cast_natCast _).symm
    _ = (z : ℚ) := by rw [h1]

theorem two_zpow_53 : (2 : ℚ) ^ (53 : ℤ) = (2 : ℚ) ^ (53 : ℕ) := by norm_num

theorem roundExp_congr (a b c d : Nat) (ha : 0 < a) (hb : 0 < b) (hc : 0 < c) (hd : 0 < d)
    (h : (a : ℚ) / b = (c : ℚ) / d) : roundExp a b = roundExp c d :=
  le_antisymm (roundExp_mono a b c d ha hb hc hd (le_of_eq h))
    (roundExp_mono c d a b hc hd ha hb (le_of_eq h.symm))

theorem roundMant_congr (a b c d : Nat) (ha : 0 < a) (hb : 0 < b) (hc : 0 < c) (hd : 0 < d)
    (h : (a : ℚ) / b = (c : ℚ) / d) : roundMant a b = roundMant c d := by
  unfold roundMant
  apply roundHalfEven_congr _ _ _ _ (scaled_den_pos b _ hb) (scaled_den_pos d _ hd)
  rw [scaled_frac, scaled_frac, roundExp_congr a b c d ha hb hc hd h, h]

/-- The result of `round` depends on the value of the fraction only. -/
theorem round_congr (neg : Bool) (a b c d : Nat) (ha : 0 < a) (hb : 0 < b) (hc : 0 < c)
    (hd : 0 < d) (h : (a : ℚ) / b = (c : ℚ) / d) : JsNumber.round neg a b = JsNumber.round neg c d := by
  unfold JsNumber.round
  rw [roundExp_congr a b c d ha hb hc hd h, roundMant_congr a b c d ha hb hc hd h]
  have h1 : a ≠ 0 := by omega
  have h2 : c ≠ 0 := by omega
  simp [h1, h2]

theorem nearest_frac (a b : Nat) (ha : 0 < a) (hb : 0 < b) :
    nearest ((a : ℚ) / b) = (roundMant a b : ℚ) * (2 : ℚ) ^ roundExp a b := by
  have hq : (0 : ℚ) < (a : ℚ) / b := by positivity
  have hnum : 0 < ((a : ℚ) / b).num := Rat.num_pos.2 hq
  have hden : 0 < ((a : ℚ) / b).den := Rat.den_pos _
  have hna : 0 < ((a : ℚ) / b).num.natAbs := Int.natAbs_pos.2 (ne_of_gt hnum)
  have hcast : ((((a : ℚ) / b).num.natAbs : ℕ) : ℚ) = ((((a : ℚ) / b).num : ℤ) : ℚ) :=
    natAbs_cast_of_pos _ hnum
  have hfrac : ((((a : ℚ) / b).num.natAbs : ℕ) : ℚ) / ((((a : ℚ) / b).den : ℕ) : ℚ) =
      (a : ℚ) / b := by
    rw [hcast]
    exact Rat.num_div_den _
  unfold nearest
  rw [roundExp_congr _ _ a b hna hden ha hb hfrac, roundMant_congr _ _ a b hna hden ha hb hfrac]

theorem nearest_mono (q₁ q₂ : ℚ) (h1 : 0 < q₁) (h : q₁ ≤ q₂) : nearest q₁ ≤ nearest q₂ := by
  have h2 : 0 < q₂ := lt_of_lt_of_le h1 h
  have n1 : 0 < q₁.num := Rat.num_pos.2 h1
  have n2 : 0 < q₂.num := Rat.num_pos.2 h2
  have e1 : ((q₁.num.natAbs : ℕ) : ℚ) / ((q₁.den : ℕ) : ℚ) = q₁ := by
    rw [natAbs_cast_of_pos _ n1]; exact Rat.num_div_den _
  have e2 : ((q₂.num.natAbs : ℕ) : ℚ) / ((q₂.den : ℕ) : ℚ) = q₂ := by
    rw [natAbs_cast_of_pos _ n2]; exact Rat.num_div_den _
  unfold nearest
  apply rawVal_mono _ _ _ _ (Int.natAbs_pos.2 (ne_of_gt n1)) (Rat.den_pos _)
    (Int.natAbs_pos.2 (ne_of_gt n2)) (Rat.den_pos _)
  rw [e1, e2]
  exact h

theorem roundExp_le (a b : Nat) (ha : 0 < a) (hb : 0 < b)
    (h : (a : ℚ) / b < (2 : ℚ) ^ (1000 : ℤ)) : roundExp a b ≤ 970 := by
  obtain ⟨s1, _⟩ := fracLog2_spec a b ha hb
  have k : (2 : ℚ) ^ fracLog2 a b < (2 : ℚ) ^ (1000 : ℤ) := lt_of_le_of_lt s1 h
  rw [zpow_lt_zpow_iff_right₀ (by norm_num)] at k
  unfold roundExp
  omega

theorem roundExp_normal (a b : Nat) (ha : 0 < a) (hb : 0 < b)
    (h : (2 : ℚ) ^ (-1000 : ℤ) ≤ (a : ℚ) / b) : roundExp a b = fracLog2 a b - 52 := by
  obtain ⟨_, s2⟩ := fracLog2_spec a b ha hb
  have k : (2 : ℚ) ^ (-1000 : ℤ) < (2 : ℚ) ^ (fracLog2 a b + 1) := lt_of_le_of_lt h s2
  rw [zpow_lt_zpow_iff_right₀ (by norm_num)] at k
  unfold roundExp
  omega

/-- Without overflow, `round` yields a finite number whose value is
`roundMant * 2^roundExp`. -/
theorem round_false_val (a b : Nat) (ha : 0 < a) (hb : 0 < b) (he : roundExp a b ≤ 970) :
    ∃ m e, JsNumber.round false a b = fin false m e ∧ (m : ℚ) * (2 : ℚ) ^ e = nearest ((a : ℚ) / b) := by
  rw [nearest_frac a b ha hb]
  unfold JsNumber.round
  have h1 : a ≠ 0 := by omega
  by_cases hm0 : roundMant a b = 0
  · exact ⟨0, 0, by rw [if_pos (Or.inr hm0)], by simp [hm0]⟩
  · by_cases hm : roundMant a b = 2 ^ 53
    · refine ⟨2 ^ 52, roundExp a b + 1, ?_, ?_⟩
      · have : ¬ (971 < roundExp a b + 1) := by omega
        rw [if_neg (not_or.2 ⟨h1, hm0⟩), if_pos hm, if_neg this]
      · rw [hm, zpow_add₀ (by norm_num)]
        push_cast
        ring
    · refine ⟨roundMant a b, roundExp a b, ?_, rfl⟩
      have : ¬ (971 < roundExp a b) := by omega
      rw [if_neg (not_or.2 ⟨h1, hm0⟩), if_neg hm, if_neg this]

theorem nearest_pos (a b : Nat) (ha : 0 < a) (hb : 0 < b)
    (h : (2 : ℚ) ^ (-1000 : ℤ) ≤ (a : ℚ) / b) : 0 < nearest ((a : ℚ) / b) := by
  rw [nearest_frac a b ha hb]
  have := roundMant_ge a b ha hb (roundExp_normal a b ha hb h)
  have hm : (0 : ℚ) < roundMant a b := by
    have : 0 < roundMant a b := lt_of_lt_of_le (by norm_num) this
    exact_mod_cast this
  exact mul_pos hm (zpow_pos (by norm_num) _)

/-- Natural numbers up to `2^53` are binary64 values. -/
theorem nearest_natCast (n : Nat) (h1 : 1 ≤ n) (h : n ≤ 2 ^ 53) : nearest (n : ℚ) = n := by
  have hn : (n : ℚ) = (n : ℚ) / ((1 : ℕ) : ℚ) := by simp
  rw [hn, nearest_frac n 1 h1 (by norm_num)]
  obtain ⟨s1, s2⟩ := fracLog2_spec n 1 h1 (by norm_num)
  have hq1 : (1 : ℚ) ≤ (n : ℚ) / ((1 : ℕ) : ℚ) := by simpa using (by exact_mod_cast h1 : (1 : ℚ) ≤ n)
  have hq2 : (n : ℚ) / ((1 : ℕ) : ℚ) ≤ (2 : ℚ) ^ (53 : ℤ) := by
    have : (n : ℚ) ≤ (2 : ℚ) ^ (53 : ℕ) := by exact_mod_cast h
    rw [two_zpow_53]
    simpa using this
  have hL0 : 0 ≤ fracLog2 n 1 := by
    have k : (2 : ℚ) ^ (0 : ℤ) < (2 : ℚ) ^ (fracLog2 n 1 + 1) := by
      rw [zpow_zero]; exact lt_of_le_of_lt hq1 s2
    rw [zpow_lt_zpow_iff_right₀ (by norm_num)] at k
    omega
  have hL1 : fracLog2 n 1 ≤ 53 := by
    have k : (2 : ℚ) ^ fracLog2 n 1 ≤ (2 : ℚ) ^ (53 : ℤ) := le_trans s1 hq2
    rw [zpow_le_zpow_iff_right₀ (by norm_num)] at k
    exact k
  have he : roundExp n 1 = fracLog2 n 1 - 52 := by unfold roundExp; omega
  have hpe : (0 : ℚ) < (2 : ℚ) ^ roundExp n 1 := zpow_pos (by norm_num) _
  by_cases hL : fracLog2 n 1 ≤ 52
  · -- the scaled value is the integer n * 2^(52 - L)
    have hexp : ((2 : ℚ) ^ (-roundExp n 1).toNat) = ((2 : ℚ) ^ roundExp n 1)⁻¹ := by
      have : (((-roundExp n 1).toNat : ℕ) : ℤ) = -roundExp n 1 := Int.toNat_of_nonneg (by omega)
      rw [← zpow_natCast, this, zpow_neg]
    have hm : roundMant n 1 = n * 2 ^ (-roundExp n 1).toNat := by
      unfold roundMant
      apply roundHalfEven_exact _ _ _ (scaled_den_pos 1 _ (by norm_num))
      rw [scaled_frac]
      push_cast
      rw [hexp]
      field_simp
    rw [hm]
    push_cast
    rw [← zpow_natCast]
    have : (((-roundExp n 1).toNat : ℕ) : ℤ) = -roundExp n 1 := Int.toNat_of_nonneg (by omega)
    rw [this, mul_assoc, ← zpow_add₀ (by norm_num)]
    simp
  · have hL53 : fracLog2 n 1 = 53 := by omega
    have hn53 : n = 2 ^ 53 := by
      have : (2 : ℚ) ^ (53 : ℤ) ≤ (n : ℚ) / ((1 : ℕ) : ℚ) := by rw [← hL53]; exact s1
      rw [two_zpow_53] at this
      have : (2 : ℚ) ^ (53 : ℕ) ≤ (n : ℚ) := by simpa using this
      have : 2 ^ 53 ≤ n := by exact_mod_cast this
      omega
    have he1 : roundExp n 1 = 1 := by omega
    have hm : roundMant n 1 = 2 ^ 52 := by
      unfold roundMant
      apply roundHalfEven_exact _ _ _ (scaled_den_pos 1 _ (by norm_num))
      rw [scaled_frac, he1, hn53]
      norm_num
    rw [hm, he1, hn53]
    norm_num

theorem ofNat_val (n : Nat) (h : n ≤ 2 ^ 53) :
    ∃ m e, ofNat n = fin false m e ∧ (m : ℚ) * (2 : ℚ) ^ e = n := by
  rcases Nat.eq_zero_or_pos n with h0 | h1
  · subst h0
    exact ⟨0, 0, by decide, by simp⟩
  · have hq : (n : ℚ) / ((1 : ℕ) : ℚ) < (2 : ℚ) ^ (1000 : ℤ) := by
      have : (n : ℚ) ≤ (2 : ℚ) ^ (53 : ℤ) := by
        have : (n : ℚ) ≤ (2 : ℚ) ^ (53 : ℕ) := by exact_mod_cast h
        rw [two_zpow_53]
        exact this
      have k : (2 : ℚ) ^ (53 : ℤ) < (2 : ℚ) ^ (1000 : ℤ) :=
        zpow_lt_zpow_right₀ (by norm_num) (by norm_num)
      simp only [Nat.cast_one, div_one]
      linarith
    obtain ⟨m, e, hr, hv⟩ := round_false_val n 1 h1 (by norm_num) (roundExp_le n 1 h1 (by norm_num) hq)
    refine ⟨m, e, hr, ?_⟩
    rw [hv]
    have := nearest_natCast n h1 h
    simpa using this

theorem val_fin_false (m : Nat) (e : ℤ) : (fin false m e).val = (m : ℚ) * (2 : ℚ) ^ e := by
  simp [JsNumber.val]

theorem scaled_cast (n : Bool) (m : Nat) (e lo : ℤ) (h : lo ≤ e) :
    ((scaled n m e lo : ℤ) : ℚ) = (fin n m e).val / (2 : ℚ) ^ lo := by
  have hp : (2 : ℚ) ^ (e - lo).toNat = (2 : ℚ) ^ e / (2 : ℚ) ^ lo := by
    have : (((e - lo).toNat : ℕ) : ℤ) = e - lo := Int.toNat_of_nonneg (by omega)
    rw [← zpow_natCast, this, zpow_sub₀ (by norm_num)]
  unfold scaled JsNumber.val
  cases n
  · simp only [Bool.false_eq_true, if_false]
    push_cast
    rw [hp]
    ring
  · simp only [if_true]
    push_cast
    rw [hp]
    ring

theorem lt_fin_iff (n₁ : Bool) (m₁ : Nat) (e₁ : ℤ) (n₂ : Bool) (m₂ : Nat) (e₂ : ℤ) :
    lt (fin n₁ m₁ e₁) (fin n₂ m₂ e₂) = true ↔ (fin n₁ m₁ e₁).val < (fin n₂ m₂ e₂).val := by
  have hp : (0 : ℚ) < (2 : ℚ) ^ (min e₁ e₂) := zpow_pos (by norm_num) _
  unfold lt
  rw [decide_eq_true_iff, ← @Int.cast_lt ℚ, scaled_cast _ _ _ _ (min_le_left _ _),
    scaled_cast _ _ _ _ (min_le_right _ _), div_lt_div_iff_of_pos_right hp]

theorem ge_fin_iff (n₁ : Bool) (m₁ : Nat) (e₁ : ℤ) (n₂ : Bool) (m₂ : Nat) (e₂ : ℤ) :
    ge (fin n₁ m₁ e₁) (fin n₂ m₂ e₂) = true ↔ (fin n₂ m₂ e₂).val ≤ (fin n₁ m₁ e₁).val := by
  have h := lt_fin_iff n₁ m₁ e₁ n₂ m₂ e₂
  unfold ge
  simp only [Bool.not_eq_true', ← not_lt]
  rw [← h]
  simp

theorem nearest_ge_half (a b : Nat) (ha : 0 < a) (hb : 0 < b)
    (h : (2 : ℚ) ^ (-1000 : ℤ) ≤ (a : ℚ) / b) : (a : ℚ) / b ≤ 2 * nearest ((a : ℚ) / b) := by
  rw [nearest_frac a b ha hb]
  have he := roundExp_normal a b ha hb h
  have hm := roundMant_ge a b ha hb he
  obtain ⟨_, s2⟩ := fracLog2_spec a b ha hb
  have hm' : (2 : ℚ) ^ (52 : ℕ) ≤ (roundMant a b : ℚ) := by exact_mod_cast hm
  have hp : (0 : ℚ) < (2 : ℚ) ^ roundExp a b := zpow_pos (by norm_num) _
  have e1 : (2 : ℚ) ^ (fracLog2 a b + 1) = 2 * ((2 : ℚ) ^ (52 : ℕ) * (2 : ℚ) ^ roundExp a b) := by
    rw [he, ← zpow_natCast, ← zpow_add₀ (by norm_num), ← zpow_one_add₀ (by norm_num)]
    congr 1
    push_cast
    ring
  have : (2 : ℚ) ^ (52 : ℕ) * (2 : ℚ) ^ roundExp a b ≤ (roundMant a b : ℚ) * (2 : ℚ) ^ roundExp a b :=
    mul_le_mul_of_nonneg_right hm' (le_of_lt hp)
  linarith

theorem nearest_le_double (a b : Nat) (ha : 0 < a) (hb : 0 < b)
    (h : (2 : ℚ) ^ (-1000 : ℤ) ≤ (a : ℚ) / b) : nearest ((a : ℚ) / b) ≤ 2 * ((a : ℚ) / b) := by
  rw [nearest_frac a b ha hb]
  have he := roundExp_normal a b ha hb h
  have hm := roundMant_le a b ha hb
  obtain ⟨s1, _⟩ := fracLog2_spec a b ha hb
  have hm' : (roundMant a b : ℚ) ≤ (2 : ℚ) ^ (53 : ℕ) := by exact_mod_cast hm
  have hp : (0 : ℚ) < (2 : ℚ) ^ roundExp a b := zpow_pos (by norm_num) _
  have e1 : 2 * (2 : ℚ) ^ (fracLog2 a b) = (2 : ℚ) ^ (53 : ℕ) * (2 : ℚ) ^ roundExp a b := by
    rw [he, ← zpow_natCast, ← zpow_add₀ (by norm_num), ← zpow_one_add₀ (by norm_num)]
    congr 1
    push_cast
    ring
  have : (roundMant a b : ℚ) * (2 : ℚ) ^ roundExp a b ≤ (2 : ℚ) ^ (53 : ℕ) * (2 : ℚ) ^ roundExp a b :=
    mul_le_mul_of_nonneg_right hm' (le_of_lt hp)
  linarith

/-- Any positive rational is a fraction of positive naturals. -/
theorem pos_rat_frac (q : ℚ) (h : 0 < q) :
    0 < q.num.natAbs ∧ 0 < q.den ∧ ((q.num.natAbs : ℕ) : ℚ) / ((q.den : ℕ) : ℚ) = q := by
  have n1 : 0 < q.num := Rat.num_pos.2 h
  refine ⟨Int.natAbs_pos.2 (ne_of_gt n1), Rat.den_pos _, ?_⟩
  rw [natAbs_cast_of_pos _ n1]
  exact Rat.num_div_den _

/-- Rounding a positive value in the normal range, given as any fraction. -/
theorem round_of_frac (a b : Nat) (ha : 0 < a) (hb : 0 < b) (q : ℚ) (hq : (a : ℚ) / b = q)
    (hlo : (2 : ℚ) ^ (-1000 : ℤ) ≤ q) (hhi : q < (2 : ℚ) ^ (1000 : ℤ)) :
    ∃ m e, JsNumber.round false a b = fin false m e ∧ 0 < m ∧
      (m : ℚ) * (2 : ℚ) ^ e = nearest q := by
  subst hq
  obtain ⟨m, e, hr, hv⟩ := round_false_val a b ha hb (roundExp_le a b ha hb hhi)
  refine ⟨m, e, hr, ?_, hv⟩
  have hpos := nearest_pos a b ha hb hlo
  rw [← hv] at hpos
  by_contra hm
  have : m = 0 := by omega
  rw [this] at hpos
  simp at hpos

theorem div_fin_val (m₁ : Nat) (e₁ : ℤ) (m₂ : Nat) (e₂ : ℤ) (h1 : 0 < m₁) (h2 : 0 < m₂)
    (hlo : (2 : ℚ) ^ (-1000 : ℤ) ≤ (m₁ : ℚ) * (2 : ℚ) ^ e₁ / ((m₂ : ℚ) * (2 : ℚ) ^ e₂))
    (hhi : (m₁ : ℚ) * (2 : ℚ) ^ e₁ / ((m₂ : ℚ) * (2 : ℚ) ^ e₂) < (2 : ℚ) ^ (1000 : ℤ)) :
    ∃ m e, div (fin false m₁ e₁) (fin false m₂ e₂) = fin false m e ∧ 0 < m ∧
      (m : ℚ) * (2 : ℚ) ^ e = nearest ((m₁ : ℚ) * (2 : ℚ) ^ e₁ / ((m₂ : ℚ) * (2 : ℚ) ^ e₂)) := by
  have hm2 : m₂ ≠ 0 := by omega
  have hdiv : div (fin false m₁ e₁) (fin false m₂ e₂) =
      JsNumber.round false (m₁ * 2 ^ (e₁ - e₂).toNat) (m₂ * 2 ^ (e₂ - e₁).toNat) := by
    simp [div, hm2]
  rw [hdiv]
  apply round_of_frac _ _ (Nat.mul_pos h1 (Nat.pos_pow_of_pos _ (by norm_num)))
    (Nat.mul_pos h2 (Nat.pos_pow_of_pos _ (by norm_num))) _ _ hlo hhi
  have hneg : (e₂ - e₁).toNat = (-(e₁ - e₂)).toNat := by congr 1; ring
  have hz : (2 : ℚ) ^ e₁ / (2 : ℚ) ^ e₂ =
      (2 : ℚ) ^ (e₁ - e₂).toNat / (2 : ℚ) ^ (e₂ - e₁).toNat := by
    rw [← zpow_sub₀ (by norm_num), two_zpow_toNat (e₁ - e₂), hneg]
    simp only [Nat.cast_pow, Nat.cast_ofNat]
  simp only [Nat.cast_mul, Nat.cast_pow, Nat.cast_ofNat]
  rw [mul_div_mul_comm, mul_div_mul_comm, hz]

theorem mul_fin_val (m₁ : Nat) (e₁ : ℤ) (m₂ : Nat) (e₂ : ℤ) (h1 : 0 < m₁) (h2 : 0 < m₂)
    (hlo : (2 : ℚ) ^ (-1000 : ℤ) ≤ (m₁ : ℚ) * (2 : ℚ) ^ e₁ * ((m₂ : ℚ) * (2 : ℚ) ^ e₂))
    (hhi : (m₁ : ℚ) * (2 : ℚ) ^ e₁ * ((m₂ : ℚ) * (2 : ℚ) ^ e₂) < (2 : ℚ) ^ (1000 : ℤ)) :
    ∃ m e, mul (fin false m₁ e₁) (fin false m₂ e₂) = fin false m e ∧ 0 < m ∧
      (m : ℚ) * (2 : ℚ) ^ e = nearest ((m₁ : ℚ) * (2 : ℚ) ^ e₁ * ((m₂ : ℚ) * (2 : ℚ) ^ e₂)) := by
  have hmul : mul (fin false m₁ e₁) (fin false m₂ e₂) =
      JsNumber.round false (m₁ * m₂ * 2 ^ (e₁ + e₂).toNat) (2 ^ (-(e₁ + e₂)).toNat) := by
    simp [mul]
  rw [hmul]
  apply round_of_frac _ _ (Nat.mul_pos (Nat.mul_pos h1 h2) (Nat.pos_pow_of_pos _ (by norm_num)))
    (Nat.pos_pow_of_pos _ (by norm_num)) _ _ hlo hhi
  have hz : (2 : ℚ) ^ e₁ * (2 : ℚ) ^ e₂ =
      (2 : ℚ) ^ (e₁ + e₂).toNat / (2 : ℚ) ^ (-(e₁ + e₂)).toNat := by
    rw [← zpow_add₀ (by norm_num), two_zpow_toNat (e₁ + e₂)]
    simp only [Nat.cast_pow, Nat.cast_ofNat]
  simp only [Nat.cast_mul, Nat.cast_pow, Nat.cast_ofNat]
  rw [mul_div_assoc, ← hz]
  ring

theorem two_zpow_neg1000_le : (2 : ℚ) ^ (-1000 : ℤ) ≤ (2 : ℚ) ^ (-54 : ℤ) :=
  zpow_le_zpow_right₀ (by norm_num) (by norm_num)

theorem two_zpow_lt_1000 : (2 : ℚ) ^ (61 : ℤ) < (2 : ℚ) ^ (1000 : ℤ) :=
  zpow_lt_zpow_right₀ (by norm_num) (by norm_num)

theorem ofNat_pos_val (n : Nat) (h1 : 1 ≤ n) (h : n ≤ 2 ^ 53) :
    ∃ m e, ofNat n = fin false m e ∧ 0 < m ∧ (m : ℚ) * (2 : ℚ) ^ e = n := by
  obtain ⟨m, e, hr, hv⟩ := ofNat_val n h
  refine ⟨m, e, hr, ?_, hv⟩
  by_contra hm
  have : m = 0 := by omega
  rw [this] at hv
  have : (n : ℚ) = 0 := by simpa using hv.symm
  have : n = 0 := by exact_mod_cast this
  omega

theorem frac_bounds (k n : Nat) (hk : 1 ≤ k) (hk2 : k ≤ 2 ^ 53) (hn : 1 ≤ n) (hn2 : n ≤ 2 ^ 53) :
    (2 : ℚ) ^ (-53 : ℤ) ≤ (k : ℚ) / n ∧ (k : ℚ) / n ≤ (2 : ℚ) ^ (53 : ℤ) := by
  have hn' : (0 : ℚ) < n := by exact_mod_cast hn
  have hk1 : (1 : ℚ) ≤ k := by exact_mod_cast hk
  have hn1 : (1 : ℚ) ≤ n := by exact_mod_cast hn
  have hk2' : (k : ℚ) ≤ (2 : ℚ) ^ (53 : ℕ) := by exact_mod_cast hk2
  have hn2' : (n : ℚ) ≤ (2 : ℚ) ^ (53 : ℕ) := by exact_mod_cast hn2
  have e1 : (2 : ℚ) ^ (-53 : ℤ) = 1 / (2 : ℚ) ^ (53 : ℕ) := by
    rw [zpow_neg, one_div]; norm_cast
  have e2 : (2 : ℚ) ^ (53 : ℤ) = (2 : ℚ) ^ (53 : ℕ) := by norm_cast
  rw [e1, e2]
  constructor
  · rw [div_le_div_iff₀ (by positivity) hn']
    nlinarith
  · rw [div_le_iff₀ hn']
    nlinarith

/-- The value of `(k / n) * 100` in binary64 arithmetic. -/
theorem percentRaw_val (k n : Nat) (hk : 1 ≤ k) (hk2 : k ≤ 2 ^ 53) (hn : 1 ≤ n)
    (hn2 : n ≤ 2 ^ 53) :
    ∃ m e, percentRaw k n = fin false m e ∧ 0 < m ∧
      (m : ℚ) * (2 : ℚ) ^ e = nearest (nearest ((k : ℚ) / n) * 100) := by
  obtain ⟨mk, ek, hrk, hmk, hvk⟩ := ofNat_pos_val k hk hk2
  obtain ⟨mn, en, hrn, hmn, hvn⟩ := ofNat_pos_val n hn hn2
  obtain ⟨mc, ec, hrc, hmc, hvc⟩ := ofNat_pos_val 100 (by norm_num) (by norm_num)
  obtain ⟨b1, b2⟩ := frac_bounds k n hk hk2 hn hn2
  have c1 : (2 : ℚ) ^ (-1000 : ℤ) ≤ (2 : ℚ) ^ (-53 : ℤ) :=
    zpow_le_zpow_right₀ (by norm_num) (by norm_num)
  have c2 : (2 : ℚ) ^ (53 : ℤ) < (2 : ℚ) ^ (1000 : ℤ) :=
    zpow_lt_zpow_right₀ (by norm_num) (by norm_num)
  have hlo1 : (2 : ℚ) ^ (-1000 : ℤ) ≤ (k : ℚ) / n := le_trans c1 b1
  obtain ⟨m1, e1, hd, hm1, hv1⟩ := div_fin_val mk ek mn en hmk hmn
    (by rw [hvk, hvn]; exact hlo1) (by rw [hvk, hvn]; exact lt_of_le_of_lt b2 c2)
  rw [hvk, hvn] at hv1
  have hk0 : 0 < k := hk
  have hn0 : 0 < n := hn
  have g1 := nearest_ge_half k n hk0 hn0 hlo1
  have g2 := nearest_le_double k n hk0 hn0 hlo1
  have d1 : (2 : ℚ) ^ (-1000 : ℤ) ≤ (2 : ℚ) ^ (-54 : ℤ) := two_zpow_neg1000_le
  have d2 : (2 : ℚ) ^ (-54 : ℤ) * 2 = (2 : ℚ) ^ (-53 : ℤ) := by
    rw [← zpow_add_one₀ (by norm_num)]; norm_num
  have d3 : (2 : ℚ) ^ (53 : ℤ) * 200 < (2 : ℚ) ^ (61 : ℤ) := by norm_num
  have hp54 : (0 : ℚ) < (2 : ℚ) ^ (-54 : ℤ) := zpow_pos (by norm_num) _
  obtain ⟨m2, e2, hmu, hm2, hv2⟩ := mul_fin_val m1 e1 mc ec hm1 hmc
    (by rw [hv1, hvc]; push_cast; nlinarith)
    (by rw [hv1, hvc]; push_cast; linarith [two_zpow_lt_1000])
  refine ⟨m2, e2, ?_, hm2, ?_⟩
  · unfold percentRaw
    rw [hrk, hrn, hrc, hd, hmu]
  · rw [hv2, hv1, hvc]
    norm_num

theorem percentRaw_mono (k n k' n' : Nat) (hk : 1 ≤ k) (hk2 : k ≤ 2 ^ 53) (hn : 1 ≤ n)
    (hn2 : n ≤ 2 ^ 53) (h : (k : ℚ) / n ≤ (k' : ℚ) / n') :
    nearest (nearest ((k : ℚ) / n) * 100) ≤ nearest (nearest ((k' : ℚ) / n') * 100) := by
  have hk' : (0 : ℚ) < k := by exact_mod_cast hk
  have hn' : (0 : ℚ) < n := by exact_mod_cast hn
  have hq : (0 : ℚ) < (k : ℚ) / n := by positivity
  obtain ⟨b1, _⟩ := frac_bounds k n hk hk2 hn hn2
  have c1 : (2 : ℚ) ^ (-1000 : ℤ) ≤ (2 : ℚ) ^ (-53 : ℤ) :=
    zpow_le_zpow_right₀ (by norm_num) (by norm_num)
  have g1 := nearest_ge_half k n hk hn (le_trans c1 b1)
  have h1 := nearest_mono _ _ hq h
  exact nearest_mono _ _ (by linarith) (by linarith)

theorem floorAbs_eq (m : Nat) (e : ℤ) : floorAbs m e = ⌊(m : ℚ) * (2 : ℚ) ^ e⌋₊ := by
  unfold floorAbs
  rw [two_zpow_toNat e, ← mul_div_assoc, ← Nat.cast_mul, Nat.floor_div_eq_div]

theorem threshold_small : JsNumber.round false 1 (10 ^ 6) =
    fin false 4722366482869645 (-72) := by decide

theorem threshold_large : JsNumber.round false (10 ^ 21) 1 =
    fin false 7629394531250000 17 := by decide

/-- In positional notation `parseInt` keeps the integer part. -/
theorem parseInt_floor (m : Nat) (e : ℤ) (hm : 0 < m)
    (hlo : (4722366482869645 : ℚ) * (2 : ℚ) ^ (-72 : ℤ) ≤ (m : ℚ) * (2 : ℚ) ^ e)
    (hhi : (m : ℚ) * (2 : ℚ) ^ e < 10 ^ 21) :
    parseInt (fin false m e) = ofNat ⌊(m : ℚ) * (2 : ℚ) ^ e⌋₊ := by
  have h1 : lt (fin false m e) (JsNumber.round false 1 (10 ^ 6)) = false := by
    rw [threshold_small, ← Bool.not_eq_true, lt_fin_iff, val_fin_false, val_fin_false]
    push_cast
    linarith
  have h2 : ge (fin false m e) (JsNumber.round false (10 ^ 21) 1) = false := by
    rw [threshold_large, ← Bool.not_eq_true, ge_fin_iff, val_fin_false, val_fin_false]
    have : ((7629394531250000 : ℕ) : ℚ) * (2 : ℚ) ^ (17 : ℤ) = 10 ^ 21 := by norm_num
    rw [this]
    linarith
  have hm0 : m ≠ 0 := by omega
  simp only [parseInt]
  rw [if_neg hm0, h1, h2, floorAbs_eq]
  simp [ofNat]

theorem percentRaw_small : percentRaw 1 (10 ^ 8) = fin false 4722366482869645 (-72) := by
  decide

theorem percentRaw_one : percentRaw 1 1 = fin false 7036874417766400 (-46) := by decide

theorem percentRaw_last : percentRaw (10 ^ 8 - 1) (10 ^ 8) =
    fin false 7036874347397655 (-46) := by decide

theorem fin_inj_val (m₁ : Nat) (e₁ : ℤ) (m₂ : Nat) (e₂ : ℤ)
    (h : fin false m₁ e₁ = fin false m₂ e₂) :
    (m₁ : ℚ) * (2 : ℚ) ^ e₁ = (m₂ : ℚ) * (2 : ℚ) ^ e₂ := by
  injection h with _ hm he
  rw [hm, he]

theorem nearest_small :
    nearest (nearest (((1 : ℕ) : ℚ) / ((10 ^ 8 : ℕ) : ℚ)) * 100) =
      (4722366482869645 : ℚ) * (2 : ℚ) ^ (-72 : ℤ) := by
  obtain ⟨m, e, hr, _, hv⟩ := percentRaw_val 1 (10 ^ 8) (by norm_num) (by norm_num)
    (by norm_num) (by norm_num)
  rw [← hv]
  rw [percentRaw_small] at hr
  have := fin_inj_val _ _ _ _ hr
  rw [← this]
  norm_num

theorem nearest_one :
    nearest (nearest (((1 : ℕ) : ℚ) / ((1 : ℕ) : ℚ)) * 100) = 100 := by
  obtain ⟨m, e, hr, _, hv⟩ := percentRaw_val 1 1 (by norm_num) (by norm_num)
    (by norm_num) (by norm_num)
  rw [← hv]
  rw [percentRaw_one] at hr
  have := fin_inj_val _ _ _ _ hr
  rw [← this]
  norm_num

theorem nearest_last :
    nearest (nearest (((10 ^ 8 - 1 : ℕ) : ℚ) / ((10 ^ 8 : ℕ) : ℚ)) * 100) < 100 := by
  obtain ⟨m, e, hr, _, hv⟩ := percentRaw_val (10 ^ 8 - 1) (10 ^ 8) (by norm_num) (by norm_num)
    (by norm_num) (by norm_num)
  rw [← hv]
  rw [percentRaw_last] at hr
  have := fin_inj_val _ _ _ _ hr
  rw [← this]
  norm_num

/-- For a file of at most `10^8` lines the percentage is the integer part of the
binary64 value of `(k / n) * 100`, at most 100. -/
theorem percentOf_eq (k n : Nat) (hk : 1 ≤ k) (hkn : k ≤ n) (hn : n ≤ 10 ^ 8) :
    percentOf k n = ofNat (percentFloor k n) ∧ percentFloor k n ≤ 100 := by
  have hn1 : 1 ≤ n := le_trans hk hkn
  have hk2 : k ≤ 2 ^ 53 := le_trans hkn (le_trans hn (by norm_num))
  have hn2 : n ≤ 2 ^ 53 := le_trans hn (by norm_num)
  have hk' : (1 : ℚ) ≤ k := by exact_mod_cast hk
  have hn' : (0 : ℚ) < n := by exact_mod_cast hn1
  have hkn' : (k : ℚ) ≤ n := by exact_mod_cast hkn
  have hn8 : (n : ℚ) ≤ ((10 ^ 8 : ℕ) : ℚ) := by exact_mod_cast hn
  obtain ⟨m, e, hr, hm, hv⟩ := percentRaw_val k n hk hk2 hn1 hn2
  have lo : nearest (nearest (((1 : ℕ) : ℚ) / ((10 ^ 8 : ℕ) : ℚ)) * 100) ≤
      nearest (nearest ((k : ℚ) / n) * 100) := by
    apply percentRaw_mono 1 (10 ^ 8) k n (by norm_num) (by norm_num) (by norm_num) (by norm_num)
    rw [div_le_div_iff₀ (by positivity) hn']
    push_cast at hn8 ⊢
    nlinarith
  have hi : nearest (nearest ((k : ℚ) / n) * 100) ≤
      nearest (nearest (((1 : ℕ) : ℚ) / ((1 : ℕ) : ℚ)) * 100) := by
    apply percentRaw_mono k n 1 1 hk hk2 hn1 hn2
    rw [div_le_div_iff₀ hn' (by norm_num)]
    push_cast
    linarith
  rw [nearest_small] at lo
  rw [nearest_one] at hi
  constructor
  · unfold percentOf percentFloor
    rw [hr, parseInt_floor m e hm (by rw [hv]; exact lo) (by rw [hv]; linarith), hv]
  · unfold percentFloor
    have : ⌊nearest (nearest ((k : ℚ) / n) * 100)⌋₊ ≤ ⌊(100 : ℚ)⌋₊ := Nat.floor_mono hi
    simpa using this

theorem percentFloor_mono (k k' n : Nat) (hk : 1 ≤ k) (hkk : k ≤ k') (hkn : k ≤ n)
    (hn : n ≤ 10 ^ 8) : percentFloor k n ≤ percentFloor k' n := by
  have hn1 : 1 ≤ n := le_trans hk hkn
  have hn' : (0 : ℚ) < n := by exact_mod_cast hn1
  unfold percentFloor
  apply Nat.floor_mono
  apply percentRaw_mono k n k' n hk (le_trans hkn (le_trans hn (by norm_num))) hn1
    (le_trans hn (by norm_num))
  exact div_le_div_of_nonneg_right (by exact_mod_cast hkk) (le_of_lt hn')

theorem percentFloor_self (n : Nat) (hn1 : 1 ≤ n) : percentFloor n n = 100 := by
  have hn' : (n : ℚ) ≠ 0 := by
    have : (0 : ℚ) < n := by exact_mod_cast hn1
    exact ne_of_gt this
  have e : (n : ℚ) / n = ((1 : ℕ) : ℚ) / ((1 : ℕ) : ℚ) := by
    rw [div_self hn']; norm_num
  unfold percentFloor
  rw [e, nearest_one]
  norm_num

theorem percentFloor_lt (k n : Nat) (hk : 1 ≤ k) (hkn : k < n) (hn : n ≤ 10 ^ 8) :
    percentFloor k n ≤ 99 := by
  have hn1 : 1 ≤ n := by omega
  have hn' : (0 : ℚ) < n := by exact_mod_cast hn1
  have hle : nearest (nearest ((k : ℚ) / n) * 100) ≤
      nearest (nearest (((10 ^ 8 - 1 : ℕ) : ℚ) / ((10 ^ 8 : ℕ) : ℚ)) * 100) := by
    apply percentRaw_mono k n (10 ^ 8 - 1) (10 ^ 8) hk
      (le_trans (le_of_lt hkn) (le_trans hn (by norm_num))) hn1 (le_trans hn (by norm_num))
    rw [div_le_div_iff₀ hn' (by norm_num)]
    have h1 : k + 1 ≤ n := hkn
    have h1' : (k : ℚ) + 1 ≤ n := by exact_mod_cast h1
    have h2' : (n : ℚ) ≤ 100000000 := by exact_mod_cast hn
    push_cast
    nlinarith
  have hlt := lt_of_le_of_lt hle nearest_last
  unfold percentFloor
  have h0 : (0 : ℚ) ≤ nearest (nearest ((k : ℚ) / n) * 100) := by
    unfold nearest
    have : (0 : ℚ) < (2 : ℚ) ^ roundExp (nearest ((k : ℚ) / n) * 100).num.natAbs
        (nearest ((k : ℚ) / n) * 100).den := zpow_pos (by norm_num) _
    positivity
  have : ⌊nearest (nearest ((k : ℚ) / n) * 100)⌋₊ < 100 := by
    rw [Nat.floor_lt h0]
    exact_mod_cast hlt
  omega

theorem ofNat_le_ofNat (a b : Nat) (h : a ≤ b) (hb : b ≤ 2 ^ 53) :
    le (ofNat a) (ofNat b) = true := by
  obtain ⟨ma, ea, hra, hva⟩ := ofNat_val a (le_trans h hb)
  obtain ⟨mb, eb, hrb, hvb⟩ := ofNat_val b hb
  unfold le
  rw [hra, hrb, ge_fin_iff, val_fin_false, val_fin_false, hva, hvb]
  exact_mod_cast h

theorem ofNat_injective (a b : Nat) (ha : a ≤ 2 ^ 53) (hb : b ≤ 2 ^ 53)
    (h : ofNat a = ofNat b) : a = b := by
  obtain ⟨ma, ea, hra, hva⟩ := ofNat_val a ha
  obtain ⟨mb, eb, hrb, hvb⟩ := ofNat_val b hb
  rw [hra, hrb] at h
  have := fin_inj_val _ _ _ _ h
  rw [hva, hvb] at this
  exact_mod_cast this

/-- With at most `10^8` lines the percentage never decreases as lines complete. -/
theorem percentOf_mono (k k' n : Nat) (hk : 1 ≤ k) (hkk : k ≤ k') (hkn : k' ≤ n)
    (hn : n ≤ 10 ^ 8) : le (percentOf k n) (percentOf k' n) = true := by
  obtain ⟨e1, _⟩ := percentOf_eq k n hk (le_trans hkk hkn) hn
  obtain ⟨e2, b2⟩ := percentOf_eq k' n (le_trans hk hkk) hkn hn
  rw [e1, e2]
  exact ofNat_le_ofNat _ _ (percentFloor_mono k k' n hk hkk (le_trans hkk hkn) hn)
    (le_trans b2 (by norm_num))

theorem percentOf_self (n : Nat) (hn1 : 1 ≤ n) (hn : n ≤ 10 ^ 8) :
    percentOf n n = ofNat 100 := by
  rw [(percentOf_eq n n hn1 (le_refl n) hn).1, percentFloor_self n hn1]

theorem percentOf_le_100 (k n : Nat) (hk : 1 ≤ k) (hkn : k ≤ n) (hn : n ≤ 10 ^ 8) :
    le (percentOf k n) (ofNat 100) = true := by
  obtain ⟨e1, b1⟩ := percentOf_eq k n hk hkn hn
  rw [e1]
  exact ofNat_le_ofNat _ _ b1 (by norm_num)

theorem percentOf_ne_100 (k n : Nat) (hk : 1 ≤ k) (hkn : k < n) (hn : n ≤ 10 ^ 8) :
    percentOf k n ≠ ofNat 100 := by
  obtain ⟨e1, b1⟩ := percentOf_eq k n hk (le_of_lt hkn) hn
  rw [e1]
  intro h
  have := ofNat_injective _ _ (le_trans b1 (by norm_num)) (by norm_num) h
  have := percentFloor_lt k n hk hkn hn
  omega

/-- A natural number up to `2^53` survives `parseInt`. -/
theorem parseInt_ofNat (n : Nat) (h : n ≤ 2 ^ 53) : parseInt (ofNat n) = ofNat n := by
  rcases Nat.eq_zero_or_pos n with h0 | h1
  · subst h0; decide
  · obtain ⟨m, e, hr, hm, hv⟩ := ofNat_pos_val n h1 h
    have hn1 : (1 : ℚ) ≤ n := by exact_mod_cast h1
    have hn2 : (n : ℚ) ≤ (2 : ℚ) ^ (53 : ℕ) := by exact_mod_cast h
    rw [hr, parseInt_floor m e hm (by rw [hv]; norm_num; linarith)
      (by rw [hv]; norm_num at hn2 ⊢; linarith), hv]
    simpa using hr

end Numbers

/-! ## C1: the precursor barrier -/

theorem checkPrecursors_of_blocker (self : Marlin) (b : Str) (c : JsNumber)
    (hb : self.status.blocker.bot = some b) (hc : self.status.blocker.checkpoint = some c) :
    checkPrecursors self =
      if barrierOpen self.status.collaborators b c then lrResume self else self := by
  simp [checkPrecursors, hb, hc]

theorem barrierOpen_iff (m : List (Str × JsNumber)) (b : Str) (c : JsNumber) :
    barrierOpen m b c = true ↔ ∃ v, m.lookup b = some v ∧ JsNumber.ge v c = true := by
  unfold barrierOpen
  cases h : m.lookup b <;> simp

/-- C1: with a blocker whose bot `b` and checkpoint `c` are both defined,
`updateCollaboratorCheckpoints(m)` stores `m` as `status.collaborators`; if `m` has an
entry for `b` whose value is `>= c` it calls `lr.resume()` once and line production is
on afterwards; otherwise it calls nothing on the reader and leaves it as it was. It
never calls `lr.pause()`, and a second call with the same satisfying map just resumes
again. -/
theorem updateCollaboratorCheckpoints_barrier (self : Marlin) (b : Str) (c : JsNumber)
    (m : List (Str × JsNumber))
    (hb : self.status.blocker.bot = some b) (hc : self.status.blocker.checkpoint = some c) :
    (updateCollaboratorCheckpoints self m).status.collaborators = m ∧
    ((∃ v, m.lookup b = some v ∧ JsNumber.ge v c = true) →
      (updateCollaboratorCheckpoints self m).trace = self.trace ++ [Event.lrResume] ∧
      (updateCollaboratorCheckpoints self m).lrPaused = false ∧
      (updateCollaboratorCheckpoints (updateCollaboratorCheckpoints self m) m).trace =
        self.trace ++ [Event.lrResume, Event.lrResume] ∧
      (updateCollaboratorCheckpoints (updateCollaboratorCheckpoints self m) m).lrPaused =
        false) ∧
    ((¬ ∃ v, m.lookup b = some v ∧ JsNumber.ge v c = true) →
      (updateCollaboratorCheckpoints self m).trace = self.trace ∧
      (updateCollaboratorCheckpoints self m).lrPaused = self.lrPaused) ∧
    Event.lrPause ∉ (updateCollaboratorCheckpoints self m).trace.drop self.trace.length := by
  have key : updateCollaboratorCheckpoints self m =
      if barrierOpen m b c then lrResume { self with status.collaborators := m }
      else { self with status.collaborators := m } := by
    exact checkPrecursors_of_blocker { self with status.collaborators := m } b c hb hc
  by_cases hopen : barrierOpen m b c = true
  · have hex := (barrierOpen_iff m b c).1 hopen
    have h1 : updateCollaboratorCheckpoints self m =
        lrResume { self with status.collaborators := m } := by rw [key, if_pos hopen]
    have h2 : updateCollaboratorCheckpoints (updateCollaboratorCheckpoints self m) m =
        lrResume (lrResume { self with status.collaborators := m }) := by
      rw [h1]
      have h3 := checkPrecursors_of_blocker
        { lrResume { self with status.collaborators := m } with status.collaborators := m }
        b c hb hc
      rw [if_pos hopen] at h3
      exact h3
    refine ⟨by rw [h1]; rfl, fun _ => ⟨by rw [h1]; rfl, by rw [h1]; rfl, ?_, by rw [h2]; rfl⟩,
      fun hno => absurd hex hno, ?_⟩
    · rw [h2]; simp [lrResume, emit]
    · rw [h1]; simp [lrResume, emit]
  · have hno : ¬ ∃ v, m.lookup b = some v ∧ JsNumber.ge v c = true :=
      fun hex => hopen ((barrierOpen_iff m b c).2 hex)
    have h1 : updateCollaboratorCheckpoints self m = { self with status.collaborators := m } := by
      rw [key, if_neg hopen]
    refine ⟨by rw [h1], fun hex => absurd hex hno, fun _ => ⟨by rw [h1], by rw [h1]⟩, ?_⟩
    rw [h1]; simp

/-- The barrier `{bot: "2", checkpoint: 5}` with the map `{"2": 5}`: production resumes,
also on a repeated call. -/
theorem updateCollaboratorCheckpoints_barrier_witness :
    (updateCollaboratorCheckpoints Marlin.blockedOn2
        [("2".toList, JsNumber.ofNat 5)]).status.collaborators =
      [("2".toList, JsNumber.ofNat 5)] ∧
    (updateCollaboratorCheckpoints Marlin.blockedOn2 [("2".toList, JsNumber.ofNat 5)]).trace =
      [Event.lrResume] ∧
    (updateCollaboratorCheckpoints Marlin.blockedOn2
        [("2".toList, JsNumber.ofNat 5)]).lrPaused = false ∧
    (updateCollaboratorCheckpoints
        (updateCollaboratorCheckpoints Marlin.blockedOn2 [("2".toList, JsNumber.ofNat 5)])
        [("2".toList, JsNumber.ofNat 5)]).lrPaused = false :=
  have h := updateCollaboratorCheckpoints_barrier Marlin.blockedOn2 "2".toList
    (JsNumber.ofNat 5) [("2".toList, JsNumber.ofNat 5)] rfl rfl
  have hex : ∃ v, List.lookup "2".toList [("2".toList, JsNumber.ofNat 5)] = some v ∧
      JsNumber.ge v (JsNumber.ofNat 5) = true := ⟨JsNumber.ofNat 5, by decide, by decide⟩
  ⟨h.1, (h.2.1 hex).1, (h.2.1 hex).2.1, (h.2.1 hex).2.2.2⟩

/-- The scenario of the spec: with checkpoint 5 required of bot "2", the value 4 keeps
the reader paused while 5 and 6 resume it. -/
theorem barrier_scenario :
    (updateCollaboratorCheckpoints Marlin.blockedOn2
      [("2".toList, JsNumber.ofNat 4)]).lrPaused = true ∧
    (updateCollaboratorCheckpoints Marlin.blockedOn2
      [("2".toList, JsNumber.ofNat 5)]).lrPaused = false ∧
    (updateCollaboratorCheckpoints Marlin.blockedOn2
      [("2".toList, JsNumber.ofNat 6)]).lrPaused = false ∧
    (updateCollaboratorCheckpoints Marlin.blockedOn2
      [("3".toList, JsNumber.ofNat 6)]).lrPaused = true := by
  decide

/-! ## C3: unsupported instructions on the simulated connection -/

theorem waitForBufferToClear_polls (bufferSize : Nat) (seen : List Nat) (r : Nat × Nat)
    (h : waitForBufferToClear bufferSize seen = some r) : r.1 ≤ seen.length := by
  induction seen generalizing r with
  | nil => simp [waitForBufferToClear] at h
  | cons v seen ih =>
    simp only [waitForBufferToClear] at h
    split at h
    · cases hw : waitForBufferToClear bufferSize seen with
      | none => simp [hw] at h
      | some r' =>
        simp [hw] at h
        have := ih r' hw
        subst h
        simp
        omega
    · simp at h
      subst h
      simp

/-- C3, as stated, fails: `M114` is neither a `G4` nor a `G1` instruction, and `send`
logs the error and then hands the reply `ok` to the data callback. -/
theorem send_unsupported_still_replies :
    splitFirst " ".toList "M114".toList ≠ "G4".toList ∧
    splitFirst " ".toList "M114".toList ≠ "G1".toList ∧
    (send VirtualConnection.fresh [] "M114".toList).2 =
      [ConnEvent.logError "command not supported".toList, ConnEvent.data "ok".toList] := by
  decide

/-- C3, amended: with a data callback registered, a command whose first space-separated
token is neither `G4` nor `G1` either is still waiting for room in the buffer, having
done nothing but poll, or has logged the error `command not supported` and then
invoked the data callback exactly once, with the reply `ok`; with room in the buffer it
is the latter, without any poll. -/
theorem send_unsupported (self : VirtualConnection) (seen : List Nat) (cmd : Str)
    (hf : self.hasDataFunc = true)
    (h4 : splitFirst " ".toList cmd ≠ "G4".toList)
    (h1 : splitFirst " ".toList cmd ≠ "G1".toList) :
    ((send self seen cmd).2 = List.replicate seen.length ConnEvent.poll ∨
      ∃ polls, polls ≤ seen.length ∧
        (send self seen cmd).2 = List.replicate polls ConnEvent.poll ++
          [ConnEvent.logError "command not supported".toList, ConnEvent.data "ok".toList]) ∧
    (self.nBufferedCommands < self.bufferSize →
      send self seen cmd =
        (self, [ConnEvent.logError "command not supported".toList,
          ConnEvent.data "ok".toList])) := by
  have h4' : splitFirst [' '] cmd ≠ ['G', '4'] := h4
  have h1' : splitFirst [' '] cmd ≠ ['G', '1'] := h1
  constructor
  · by_cases hroom : self.bufferSize ≤ self.nBufferedCommands
    · cases hw : waitForBufferToClear self.bufferSize seen with
      | none => left; simp [send, hf, hroom, hw]
      | some r =>
        right
        refine ⟨r.1, waitForBufferToClear_polls _ _ _ hw, ?_⟩
        simp [send, hf, hroom, hw, h4', h1']
    · right
      exact ⟨0, Nat.zero_le _, by simp [send, hf, hroom, h4', h1']⟩
  · intro hroom
    have hroom' : ¬ self.bufferSize ≤ self.nBufferedCommands := by omega
    simp [send, hf, hroom', h4', h1']
    cases self
    simp_all

/-- The instruction `M114` on a fresh connection is answered `ok` after the error is
logged. -/
theorem send_unsupported_witness :
    send VirtualConnection.fresh [] "M114".toList =
      (VirtualConnection.fresh, [ConnEvent.logError "command not supported".toList,
        ConnEvent.data "ok".toList]) :=
  (send_unsupported VirtualConnection.fresh [] "M114".toList rfl (by decide) (by decide)).2
    (by decide)

/-! ## C4, C5: the park sequence -/

theorem roundHalfUp_near (a b : Nat) (hb : 0 < b) :
    |(JsNumber.roundHalfUp a b : ℚ) - (a : ℚ) / b| ≤ 1 / 2 := by
  have hb' : (0 : ℚ) < b := by exact_mod_cast hb
  have h1 : 2 * b * JsNumber.roundHalfUp a b ≤ 2 * a + b := by
    unfold JsNumber.roundHalfUp
    exact Nat.mul_div_le _ _
  have h2 : 2 * a + b < 2 * b * (JsNumber.roundHalfUp a b + 1) := by
    unfold JsNumber.roundHalfUp
    exact Nat.lt_mul_div_succ _ (by omega)
  have h1' : 2 * (b : ℚ) * JsNumber.roundHalfUp a b ≤ 2 * a + b := by exact_mod_cast h1
  have h2' : 2 * (a : ℚ) + b < 2 * b * (JsNumber.roundHalfUp a b + 1) := by exact_mod_cast h2
  obtain ⟨q, hq⟩ : ∃ q : ℚ, q = (a : ℚ) / b := ⟨_, rfl⟩
  have ha : (a : ℚ) = q * b := by
    rw [hq]
    field_simp
  rw [← hq]
  rw [ha] at h1' h2'
  have l1 : (JsNumber.roundHalfUp a b : ℚ) - 1 / 2 ≤ q :=
    le_of_mul_le_mul_left (by linarith) hb'
  have l2 : q < (JsNumber.roundHalfUp a b : ℚ) + 1 / 2 :=
    lt_of_mul_lt_mul_left (by linarith) (le_of_lt hb')
  rw [abs_le]
  constructor <;> linarith

/-- The number `toFixed(f)` prints is within half a unit of the last digit of the
value. -/
theorem fixedUnits_near (f m : Nat) (e : ℤ) :
    |(JsNumber.fixedUnits f m e : ℚ) / 10 ^ f - (m : ℚ) * (2 : ℚ) ^ e| ≤ 1 / (2 * 10 ^ f) := by
  have hp : (0 : ℚ) < 10 ^ f := by positivity
  have hb : 0 < 2 ^ (-e).toNat := by positivity
  have h := roundHalfUp_near (m * 2 ^ e.toNat * 10 ^ f) (2 ^ (-e).toNat) hb
  have hv : ((m * 2 ^ e.toNat * 10 ^ f : ℕ) : ℚ) / ((2 ^ (-e).toNat : ℕ) : ℚ) =
      (m : ℚ) * (2 : ℚ) ^ e * 10 ^ f := by
    rw [two_zpow_toNat e]
    push_cast
    ring
  rw [hv] at h
  have h' : (JsNumber.fixedUnits f m e : ℚ) / 10 ^ f - (m : ℚ) * (2 : ℚ) ^ e =
      ((JsNumber.roundHalfUp (m * 2 ^ e.toNat * 10 ^ f) (2 ^ (-e).toNat) : ℚ) -
        (m : ℚ) * (2 : ℚ) ^ e * 10 ^ f) / 10 ^ f := by
    unfold JsNumber.fixedUnits
    field_simp
    ring
  rw [h', abs_div, abs_of_pos hp, div_le_div_iff₀ hp (by positivity)]
  calc |(JsNumber.roundHalfUp (m * 2 ^ e.toNat * 10 ^ f) (2 ^ (-e).toNat) : ℚ) -
        (m : ℚ) * (2 : ℚ) ^ e * 10 ^ f| * (2 * 10 ^ f)
      ≤ 1 / 2 * (2 * 10 ^ f) := by
        apply mul_le_mul_of_nonneg_right h (by positivity)
    _ = 1 * 10 ^ f := by ring

/-- C4, as stated, fails: for the position reply `Z:100.126` the lift instruction is
`G1 Z110.13 F1000`, and the height 110.13 it names is above the sum of the parsed height
and the lift margin. -/
theorem parkCommandArray_lift_rounded :
    Marlin.bot1At100126.parkedZ = JsNumber.round false 100126 1000 ∧
    QueueEntry.text "G1 Z110.13 F1000".toList ∈ parkCommandArray Marlin.bot1At100126 ∧
    JsNumber.lt (JsNumber.add Marlin.bot1At100126.parkedZ (JsNumber.ofNat 10))
      (JsNumber.round false 11013 100) = true := by
  decide

/-- C4, amended: the park sequence contains a Z-lift instruction `G1 Z...` exactly when
the parsed height `z` satisfies `z < 135 - 10`, and 135 - 10 is 125; the instruction
then is `G1 Z<t> F1000` with `<t>` the text `(z + 10).toFixed(2)`, which for a sum of
magnitude below `10^21` is the sign and the decimal with two digits after the point
nearest to the sum, at most 0.005 away from it; height 100 yields the lift
`G1 Z110.00 F1000`, height 130 yields none. -/
theorem parkCommandArray_lift (self : Marlin) :
    ((∃ t, QueueEntry.text ("G1 Z".toList ++ t) ∈ parkCommandArray self) ↔
      JsNumber.lt self.parkedZ (JsNumber.sub (JsNumber.ofNat 135) (JsNumber.ofNat 10)) = true) ∧
    (∀ t, QueueEntry.text ("G1 Z".toList ++ t) ∈ parkCommandArray self →
      t = JsNumber.toFixed 2 (JsNumber.add self.parkedZ (JsNumber.ofNat 10)) ++
        " F1000".toList) ∧
    JsNumber.sub (JsNumber.ofNat 135) (JsNumber.ofNat 10) = JsNumber.ofNat 125 ∧
    (∀ neg m e, JsNumber.add self.parkedZ (JsNumber.ofNat 10) = JsNumber.fin neg m e →
      JsNumber.ge (JsNumber.fin false m e) (JsNumber.round false (10 ^ 21) 1) = false →
      JsNumber.toFixed 2 (JsNumber.add self.parkedZ (JsNumber.ofNat 10)) =
        (if neg = true ∧ m ≠ 0 then "-".toList else []) ++
          JsNumber.fixedPoint 2 (JsNumber.fixedUnits 2 m e) ∧
      |(JsNumber.fixedUnits 2 m e : ℚ) / 100 - (m : ℚ) * (2 : ℚ) ^ e| ≤ 1 / 200) ∧
    QueueEntry.text "G1 Z110.00 F1000".toList ∈ parkCommandArray Marlin.bot1At100 ∧
    (∀ t, QueueEntry.text ("G1 Z".toList ++ t) ∉ parkCommandArray Marlin.bot2At130) := by
  have e4 : "G1 Z".toList = ['G', '1', ' ', 'Z'] := rfl
  refine ⟨?_, ?_, by decide, ?_, by decide, ?_⟩
  · by_cases h : JsNumber.lt self.parkedZ (JsNumber.sub (JsNumber.ofNat 135) parkLift) = true
    · have h' : JsNumber.lt self.parkedZ
          (JsNumber.sub (JsNumber.ofNat 135) (JsNumber.ofNat 10)) = true := h
      simp only [h', iff_true]
      refine ⟨JsNumber.toFixed 2 (JsNumber.add self.parkedZ parkLift) ++ " F1000".toList, ?_⟩
      unfold parkCommandArray
      rw [if_pos h]
      simp
    · have h' : ¬ JsNumber.lt self.parkedZ
          (JsNumber.sub (JsNumber.ofNat 135) (JsNumber.ofNat 10)) = true := h
      refine ⟨fun ⟨t, ht⟩ => ?_, fun hlt => absurd hlt h'⟩
      unfold parkCommandArray at ht
      rw [if_neg h] at ht
      simp [e4] at ht
  · intro t ht
    unfold parkCommandArray at ht
    by_cases h : JsNumber.lt self.parkedZ (JsNumber.sub (JsNumber.ofNat 135) parkLift) = true
    · rw [if_pos h] at ht
      simp only [List.mem_append, List.mem_cons, List.mem_singleton, QueueEntry.text.injEq,
        List.not_mem_nil, or_false] at ht
      rcases ht with ((ht | ht) | ht) | ht
      · simp [e4] at ht
      · simp [e4] at ht
      · rw [List.append_assoc] at ht
        exact List.append_cancel_left ht
      · simp at ht
    · rw [if_neg h] at ht
      simp [e4] at ht
  · intro neg m e hsum hbig
    constructor
    · rw [hsum]
      simp only [JsNumber.toFixed, hbig]
      rfl
    · have := fixedUnits_near 2 m e
      norm_num at this ⊢
      exact this
  · intro t ht
    have h : JsNumber.lt Marlin.bot2At130.parkedZ
        (JsNumber.sub (JsNumber.ofNat 135) parkLift) = false := by decide
    unfold parkCommandArray at ht
    simp [h, e4] at ht

/-- C5 fails on the code: the X/Y move `parkGcode` (`G1 X5 Y238 F3000` for `bot1`,
`G1 X495 Y238 F3000` otherwise) is built but is not part of the sequence handed to
`prependCommands`; for `bot1` at height 100 the sequence is retract, lift and the final
`G28 X Y`, whose `postCallback` sets `parked`. -/
theorem parkCommandArray_omits_parkGcode :
    (∀ self : Marlin, QueueEntry.text (parkGcode self) ∉ parkCommandArray self) ∧
    parkGcode Marlin.bot1At100 = "G1 X5 Y238 F3000".toList ∧
    parkGcode Marlin.bot2At130 = "G1 X495 Y238 F3000".toList ∧
    parkCommandArray Marlin.bot1At100 =
      [QueueEntry.text "G92 E0".toList, QueueEntry.text "G1 E-2 F3000".toList,
        QueueEntry.text "G1 Z110.00 F1000".toList,
        QueueEntry.command
          { code := some "G28 X Y".toList, postCallback := some Hook.parkDone }] ∧
    (runHook Marlin.bot1At100 Hook.parkPlan).mQueue = parkCommandArray Marlin.bot1At100 ∧
    (runHook Marlin.bot1At100 Hook.parkDone).parked = true := by
  refine ⟨?_, by decide, by decide, by decide, by decide, by decide⟩
  intro self hmem
  unfold parkCommandArray at hmem
  simp only [List.mem_append, List.mem_cons, List.mem_singleton, QueueEntry.text.injEq,
    List.not_mem_nil, or_false] at hmem
  rcases hmem with ((h | h) | h) | h
  · unfold parkGcode at h
    split at h <;> simp at h
  · unfold parkGcode at h
    split at h <;> simp at h
  · split at h
    · simp only [List.mem_singleton, QueueEntry.text.injEq] at h
      unfold parkGcode at h
      split at h <;> simp at h
    · simp at h
  · simp at h

/-! ## C7, C8: ad-hoc instructions and the bot state -/

theorem gcodeInitialState_error (self : Marlin)
    (h1 : self.fsmCurrent ≠ "connected".toList)
    (h2 : self.fsmCurrent ≠ "processingJob".toList)
    (h3 : self.fsmCurrent ≠ "processingJobGcode".toList)
    (h4 : self.fsmCurrent ≠ "parked".toList) :
    gcodeInitialState self =
      .error ("\"processGcode\" not possible from state \"".toList ++ self.fsmCurrent) := by
  unfold gcodeInitialState
  rw [if_neg h1, if_neg (fun h => h.elim h2 h3), if_neg h4]

/-- C7, as stated, fails: in state `processingJobGcode`, which is none of `connected`,
`processingJob` and `parked`, the three operations succeed and enqueue their group. -/
theorem adhoc_accepted_in_processingJobGcode :
    (Marlin.fresh "Marlin" "processingJobGcode").fsmCurrent ≠ "connected".toList ∧
    (Marlin.fresh "Marlin" "processingJobGcode").fsmCurrent ≠ "processingJob".toList ∧
    (Marlin.fresh "Marlin" "processingJobGcode").fsmCurrent ≠ "parked".toList ∧
    streamGcode Transforms.identity (Marlin.fresh "Marlin" "processingJobGcode")
        (some "G1 X1".toList) =
      (.ok true, { Marlin.fresh "Marlin" "processingJobGcode" with
        mQueue := [.command { preCallback := some .jobToGcode }, .text "G1 X1".toList,
          .command { preCallback := some .jobGcodeDone }] }) ∧
    processGcode Transforms.identity (Marlin.fresh "Marlin" "processingJobGcode")
        (some "G1 X1".toList) =
      (.ok (), { Marlin.fresh "Marlin" "processingJobGcode" with
        mQueue := [.command { preCallback := some .jobToGcode },
          .command { code := some "G1 X1".toList, processData := some .resolveReply },
          .command { preCallback := some .jobGcodeDone }] }) ∧
    jog (Marlin.fresh "Marlin" "processingJobGcode") "x".toList (JsNumber.ofNat 1) none =
      (.ok (), { Marlin.fresh "Marlin" "processingJobGcode" with
        mQueue := [.command { preCallback := some .jobToGcode },
          .command { code := some "M114".toList,
                     processData := some (.jogReply "x".toList (JsNumber.ofNat 1) none) },
          .command { preCallback := some .jobGcodeDone }] }) := by
  refine ⟨by decide, by decide, by decide, rfl, rfl, rfl⟩

/-- C7, amended: in every bot state other than `connected`, `processingJob`,
`processingJobGcode` and `parked` (in particular in `processingParkGcode`),
`processGcode` and `jog` fail with an error, and `streamGcode` fails with an error
unless the queue already holds 32 entries, in which case it returns `false`; in every
case the call leaves the bot as it found it, so the command queue is unchanged and the
instruction is not enqueued. -/
theorem adhoc_rejected_without_transition (tr : Transforms) (self : Marlin)
    (gcode : Option Str) (axis : Str) (amount : JsNumber) (feedRate : Option JsNumber)
    (h1 : self.fsmCurrent ≠ "connected".toList)
    (h2 : self.fsmCurrent ≠ "processingJob".toList)
    (h3 : self.fsmCurrent ≠ "processingJobGcode".toList)
    (h4 : self.fsmCurrent ≠ "parked".toList) :
    ((∃ err, (processGcode tr self gcode).1 = .error err) ∧
      (processGcode tr self gcode).2 = self ∧
      (processGcode tr self gcode).2.mQueue = self.mQueue) ∧
    ((∃ err, (jog self axis amount feedRate).1 = .error err) ∧
      (jog self axis amount feedRate).2 = self ∧
      (jog self axis amount feedRate).2.mQueue = self.mQueue) ∧
    (((self.mQueue.length < 32 ∧ ∃ err, (streamGcode tr self gcode).1 = .error err) ∨
        (32 ≤ self.mQueue.length ∧ (streamGcode tr self gcode).1 = .ok false)) ∧
      (streamGcode tr self gcode).2 = self ∧
      (streamGcode tr self gcode).2.mQueue = self.mQueue) := by
  have hinit := gcodeInitialState_error self h1 h2 h3 h4
  have hp : (∃ err, (processGcode tr self gcode).1 = .error err) ∧
      (processGcode tr self gcode).2 = self := by
    unfold processGcode
    cases tr.addOffset gcode with
    | none => exact ⟨⟨_, rfl⟩, rfl⟩
    | some g => simp [hinit]
  have hj : (∃ err, (jog self axis amount feedRate).1 = .error err) ∧
      (jog self axis amount feedRate).2 = self := by
    unfold jog
    simp [hinit]
  have hs : ((self.mQueue.length < 32 ∧ ∃ err, (streamGcode tr self gcode).1 = .error err) ∨
        (32 ≤ self.mQueue.length ∧ (streamGcode tr self gcode).1 = .ok false)) ∧
      (streamGcode tr self gcode).2 = self := by
    by_cases hq : 32 ≤ self.mQueue.length
    · exact ⟨Or.inr ⟨hq, by simp [streamGcode, hq]⟩, by simp [streamGcode, hq]⟩
    · unfold streamGcode
      rw [if_neg hq]
      cases tr.addOffset gcode with
      | none => exact ⟨Or.inl ⟨by omega, _, rfl⟩, rfl⟩
      | some g =>
        refine ⟨Or.inl ⟨by omega, ?_⟩, ?_⟩ <;> simp [hinit]
  exact ⟨⟨hp.1, hp.2, by rw [hp.2]⟩, ⟨hj.1, hj.2, by rw [hj.2]⟩, ⟨hs.1, hs.2, by rw [hs.2]⟩⟩

/-- In `processingParkGcode` the three operations fail and leave the empty queue of the
bot empty. -/
theorem adhoc_rejected_without_transition_witness :
    (∃ err, (processGcode Transforms.identity (Marlin.fresh "Marlin" "processingParkGcode")
      (some "G1 X1".toList)).1 = .error err) ∧
    (processGcode Transforms.identity (Marlin.fresh "Marlin" "processingParkGcode")
      (some "G1 X1".toList)).2.mQueue = [] ∧
    (∃ err, (jog (Marlin.fresh "Marlin" "processingParkGcode") "x".toList (JsNumber.ofNat 1)
      none).1 = .error err) ∧
    (jog (Marlin.fresh "Marlin" "processingParkGcode") "x".toList (JsNumber.ofNat 1)
      none).2.mQueue = [] ∧
    (∃ err, (streamGcode Transforms.identity (Marlin.fresh "Marlin" "processingParkGcode")
      (some "G1 X1".toList)).1 = .error err) ∧
    (streamGcode Transforms.identity (Marlin.fresh "Marlin" "processingParkGcode")
      (some "G1 X1".toList)).2.mQueue = [] :=
  have h := adhoc_rejected_without_transition Transforms.identity
    (Marlin.fresh "Marlin" "processingParkGcode") (some "G1 X1".toList) "x".toList
    (JsNumber.ofNat 1) none (by decide) (by decide) (by decide) (by decide)
  ⟨h.1.1, h.1.2.2, h.2.1.1, h.2.1.2.2,
    h.2.2.1.elim (fun hl => hl.2) (fun hr => absurd hr.1 (by decide)), h.2.2.2.2⟩

/-- C8 fails on the code: a group enqueued from `parked` opens with the `parkToGcode`
hook but its last entry is the empty string, without any hook (`gcodeFinalState` looks
for `processingParkGcode` while the bot is still `parked`), whereas the group enqueued
from `processingJob` carries `jobToGcode` and `jobGcodeDone`. -/
theorem adhoc_group_from_parked_not_closed :
    (∀ self : Marlin, gcodeFinalState { self with fsmCurrent := "parked".toList } = .text []) ∧
    (QueueEntry.text []).hooks = [] ∧
    streamGcode Transforms.identity (Marlin.fresh "Marlin" "parked") (some "G1 X1".toList) =
      (.ok true, { Marlin.fresh "Marlin" "parked" with
        mQueue := [.command { preCallback := some .parkToGcode }, .text "G1 X1".toList,
          .text []] }) ∧
    processGcode Transforms.identity (Marlin.fresh "Marlin" "parked") (some "G1 X1".toList) =
      (.ok (), { Marlin.fresh "Marlin" "parked" with
        mQueue := [.command { preCallback := some .parkToGcode },
          .command { code := some "G1 X1".toList, processData := some .resolveReply },
          .text []] }) ∧
    jog (Marlin.fresh "Marlin" "parked") "x".toList (JsNumber.ofNat 1) none =
      (.ok (), { Marlin.fresh "Marlin" "parked" with
        mQueue := [.command { preCallback := some .parkToGcode },
          .command { code := some "M114".toList,
                     processData := some (.jogReply "x".toList (JsNumber.ofNat 1) none) },
          .text []] }) ∧
    streamGcode Transforms.identity (Marlin.fresh "Marlin" "processingJob")
        (some "G1 X1".toList) =
      (.ok true, { Marlin.fresh "Marlin" "processingJob" with
        mQueue := [.command { preCallback := some .jobToGcode }, .text "G1 X1".toList,
          .command { preCallback := some .jobGcodeDone }] }) := by
  refine ⟨fun self => ?_, rfl, rfl, rfl, rfl, rfl⟩
  simp [gcodeFinalState]

/-! ## The matcher -/

theorem dropPrefix_append (l rest : Str) : dropPrefix l (l ++ rest) = some rest := by
  induction l with
  | nil => cases rest <;> rfl
  | cons a l ih => simp [dropPrefix, ih]

theorem dropPrefix_some (l s rest : Str) (h : dropPrefix l s = some rest) : s = l ++ rest := by
  induction l generalizing s with
  | nil =>
    cases s <;> simp [dropPrefix] at h <;> simp [h]
  | cons a l ih =>
    cases s with
    | nil => simp [dropPrefix] at h
    | cons c s =>
      simp only [dropPrefix] at h
      split at h
      · rename_i hac
        rw [hac, ih s h]
        rfl
      · simp at h

theorem starRun_greedy {α : Type} (p : Char → Bool) (k : Str → Option α) (l rest : Str) (r : α)
    (hl : ∀ c ∈ l, p c = true) (hrest : ∀ c, rest.head? = some c → p c = false)
    (hk : k rest = some r) : starRun p k (l ++ rest) = some r := by
  induction l with
  | nil =>
    cases rest with
    | nil => simpa [starRun] using hk
    | cons c cs =>
      have hc : p c = false := hrest c rfl
      simp [starRun, hc, hk]
  | cons a l ih =>
    have ha : p a = true := hl a (List.mem_cons_self a l)
    have ih' := ih (fun c hc => hl c (List.mem_cons_of_mem a hc))
    simp [starRun, ha, ih']

theorem starRun_sound {α : Type} (p : Char → Bool) (k : Str → Option α) (s : Str) (r : α)
    (h : starRun p k s = some r) :
    ∃ l rest, s = l ++ rest ∧ (∀ c ∈ l, p c = true) ∧ k rest = some r := by
  induction s with
  | nil => exact ⟨[], [], rfl, by simp, by simpa [starRun] using h⟩
  | cons c cs ih =>
    simp only [starRun] at h
    by_cases hc : p c = true
    · rw [if_pos hc] at h
      cases hrec : starRun p k cs with
      | some r' =>
        rw [hrec] at h
        have hr : r' = r := by simpa using h
        subst hr
        obtain ⟨l, rest, hs, hl, hk⟩ := ih hrec
        refine ⟨c :: l, rest, by rw [hs]; rfl, ?_, hk⟩
        intro d hd
        rcases List.mem_cons.1 hd with hd | hd
        · rw [hd]; exact hc
        · exact hl d hd
      | none =>
        rw [hrec] at h
        exact ⟨[], c :: cs, rfl, by simp, h⟩
    · rw [if_neg hc] at h
      exact ⟨[], c :: cs, rfl, by simp, h⟩

theorem starRun_isSome {α : Type} (p : Char → Bool) (k : Str → Option α) (s : Str) (r : α)
    (h : k s = some r) : ∃ r', starRun p k s = some r' := by
  cases s with
  | nil => exact ⟨r, by simpa [starRun] using h⟩
  | cons c cs =>
    simp only [starRun]
    by_cases hc : p c = true
    · rw [if_pos hc]
      cases hrec : starRun p k cs with
      | some r' => exact ⟨r', rfl⟩
      | none => exact ⟨r, h⟩
    · rw [if_neg hc]
      exact ⟨r, h⟩

theorem run_lit_append {α : Type} (l rest : Str) (caps : List Str)
    (k : Str → List Str → Option α) :
    (Re.lit l).run (l ++ rest) caps k = k rest caps := by
  simp [Re.run, dropPrefix_append]

theorem run_lit_some {α : Type} (l s : Str) (caps : List Str) (k : Str → List Str → Option α)
    (r : α) (h : (Re.lit l).run s caps k = some r) :
    ∃ rest, s = l ++ rest ∧ k rest caps = some r := by
  simp only [Re.run] at h
  cases hd : dropPrefix l s with
  | none => simp [hd] at h
  | some rest =>
    rw [hd] at h
    exact ⟨rest, dropPrefix_some l s rest hd, h⟩

theorem run_seq {α : Type} (r₁ r₂ : Re) (s : Str) (caps : List Str)
    (k : Str → List Str → Option α) :
    (Re.seq r₁ r₂).run s caps k = r₁.run s caps (fun rest caps₁ => r₂.run rest caps₁ k) := rfl

theorem run_star {α : Type} (p : Char → Bool) (s : Str) (caps : List Str)
    (k : Str → List Str → Option α) :
    (Re.star p).run s caps k = starRun p (fun rest => k rest caps) s := rfl

theorem take_length_sub (l rest : Str) :
    (l ++ rest).take ((l ++ rest).length - rest.length) = l := by
  simp

theorem run_plus_greedy {α : Type} (p : Char → Bool) (l rest : Str) (caps : List Str)
    (k : Str → List Str → Option α) (r : α) (hne : l ≠ [])
    (hl : ∀ c ∈ l, p c = true) (hrest : ∀ c, rest.head? = some c → p c = false)
    (hk : k rest caps = some r) : (Re.plus p).run (l ++ rest) caps k = some r := by
  cases l with
  | nil => exact absurd rfl hne
  | cons a l =>
    have ha : p a = true := hl a (List.mem_cons_self a l)
    simp only [Re.run, List.cons_append, ha, if_true]
    exact starRun_greedy p _ l rest r (fun c hc => hl c (List.mem_cons_of_mem a hc)) hrest hk

theorem run_plus_some {α : Type} (p : Char → Bool) (s : Str) (caps : List Str)
    (k : Str → List Str → Option α) (r : α) (h : (Re.plus p).run s caps k = some r) :
    ∃ l rest, s = l ++ rest ∧ l ≠ [] ∧ (∀ c ∈ l, p c = true) ∧ k rest caps = some r := by
  cases s with
  | nil => simp [Re.run] at h
  | cons c cs =>
    simp only [Re.run] at h
    by_cases hc : p c = true
    · rw [if_pos hc] at h
      obtain ⟨l, rest, hs, hl, hk⟩ := starRun_sound p _ cs r h
      refine ⟨c :: l, rest, by rw [hs]; rfl, by simp, ?_, hk⟩
      intro d hd
      rcases List.mem_cons.1 hd with hd | hd
      · rw [hd]; exact hc
      · exact hl d hd
    · rw [if_neg hc] at h
      simp at h

theorem run_group_plus_greedy {α : Type} (p : Char → Bool) (l rest : Str) (caps : List Str)
    (k : Str → List Str → Option α) (r : α) (hne : l ≠ [])
    (hl : ∀ c ∈ l, p c = true) (hrest : ∀ c, rest.head? = some c → p c = false)
    (hk : k rest (caps ++ [l]) = some r) :
    (Re.group (Re.plus p)).run (l ++ rest) caps k = some r := by
  simp only [Re.run]
  have := run_plus_greedy p l rest caps
    (fun rest' caps₁ => k rest' (caps₁ ++ [(l ++ rest).take ((l ++ rest).length - rest'.length)]))
    r hne hl hrest (by simpa using hk)
  simpa [Re.run] using this

theorem run_group_plus_some {α : Type} (p : Char → Bool) (s : Str) (caps : List Str)
    (k : Str → List Str → Option α) (r : α)
    (h : (Re.group (Re.plus p)).run s caps k = some r) :
    ∃ l rest, s = l ++ rest ∧ l ≠ [] ∧ (∀ c ∈ l, p c = true) ∧ k rest (caps ++ [l]) = some r := by
  simp only [Re.run] at h
  have h' : (Re.plus p).run s caps
      (fun rest caps₁ => k rest (caps₁ ++ [s.take (s.length - rest.length)])) = some r := by
    simpa [Re.run] using h
  obtain ⟨l, rest, hs, hne, hl, hk⟩ := run_plus_some p s caps _ r h'
  refine ⟨l, rest, hs, hne, hl, ?_⟩
  rw [hs] at hk
  simpa using hk

theorem run_group_star_greedy {α : Type} (p : Char → Bool) (l : Str) (caps : List Str)
    (k : Str → List Str → Option α) (r : α)
    (hl : ∀ c ∈ l, p c = true) (hk : k [] (caps ++ [l]) = some r) :
    (Re.group (Re.star p)).run l caps k = some r := by
  simp only [Re.run]
  have := starRun_greedy p
    (fun rest' => k rest' (caps ++ [l.take (l.length - rest'.length)])) l [] r hl
    (by simp) (by simpa using hk)
  simpa using this

/-! ## C6: recognising a directive line -/

/-- A line `<prefix>; <<<NAME>>> <payload>` whose prefix is made of word characters and
white space, whose name is a non-empty run of word characters and whose payload holds no
line terminator matches the directive pattern, with captures `NAME` and `<payload>`. -/
theorem conductorComment_exec (pre name payload : Str)
    (hpre : ∀ c ∈ pre, isWordDigitSpace c = true) (hne : name ≠ [])
    (hname : ∀ c ∈ name, isWord c = true) (hpay : ∀ c ∈ payload, isDot c = true) :
    conductorComment.exec (pre ++ ("; <<<".toList ++ (name ++ (">>> ".toList ++ payload)))) =
      some [name, payload] := by
  unfold Re.exec conductorComment
  simp only [Re.run]
  apply starRun_greedy _ _ pre _ _ hpre
  · intro c hc
    have : c = ';' := by simpa using hc.symm
    subst this
    decide
  · have h1 := dropPrefix_append "; <<<".toList (name ++ (">>> ".toList ++ payload))
    simp only [h1]
    have h2 := run_group_plus_greedy isWord name (">>> ".toList ++ payload) []
      (fun rest caps₁ => (Re.seq (Re.lit ">>> ".toList) (Re.group (Re.star isDot))).run rest caps₁
        (fun rest caps => if rest = [] then some caps else none)) [name, payload] hne hname
      (by
        intro c hc
        have : c = '>' := by simpa using hc.symm
        subst this
        decide)
      (by
        simp only [Re.run, List.nil_append]
        have h3 := dropPrefix_append ">>> ".toList payload
        simp only [h3]
        have h4 := run_group_star_greedy isDot payload [name]
          (fun rest caps => if rest = [] then some caps else none) [name, payload] hpay
          (by simp)
        simpa [Re.run] using h4)
    simpa [Re.run] using h2

/-- The directive branch of the line handler never touches the queue. -/
theorem onCheckpoint_mQueue (self : Marlin) (payload : Str) :
    (onCheckpoint self payload).mQueue = self.mQueue := by
  unfold onCheckpoint
  cases checkpointBotRegex.exec payload with
  | none => rfl
  | some caps =>
    simp only [notifySubscribers, lrResume, emit]
    cases self.subscribers <;> rfl

theorem checkPrecursors_mQueue (self : Marlin) : (checkPrecursors self).mQueue = self.mQueue := by
  unfold checkPrecursors
  split
  · split <;> rfl
  · rfl

theorem onPrecursor_mQueue (self : Marlin) (payload : Str) :
    (onPrecursor self payload).mQueue = self.mQueue := by
  unfold onPrecursor
  cases precursorBotRegex.exec payload with
  | none => rfl
  | some caps => simp only [checkPrecursors_mQueue]; rfl

theorem onLine_directive_mQueue (tr : Transforms) (self : Marlin) (line : Str) (caps : List Str)
    (h : conductorComment.exec line = some caps) :
    (onLine tr self line).mQueue = self.mQueue := by
  unfold onLine
  simp only [h]
  split
  · rw [onCheckpoint_mQueue]; rfl
  · split
    · rw [onPrecursor_mQueue]; rfl
    · split <;> rfl

/-- C6, as stated, fails: with the prefix `G1 X1.5 ` (a dot is neither a word character
nor white space) the line `G1 X1.5 ; <<<CHECKPOINT>>> bot1 : 7` does not match the
directive pattern; the checkpoint is not recorded and the prefix is enqueued as a
command. -/
theorem directive_after_dotted_prefix_is_executed :
    conductorComment.exec "G1 X1.5 ; <<<CHECKPOINT>>> bot1 : 7".toList = none ∧
    (onLine Transforms.identity (Marlin.fresh "Marlin" "processingJob")
      "G1 X1.5 ; <<<CHECKPOINT>>> bot1 : 7".toList).status.checkpoint = none ∧
    (onLine Transforms.identity (Marlin.fresh "Marlin" "processingJob")
      "G1 X1.5 ; <<<CHECKPOINT>>> bot1 : 7".toList).mQueue =
      [.command { code := some "G1 X1.5 ".toList, postCallback := some .lineDone }] := by
  decide

/-- C6, amended: for every prefix made only of word characters (`[A-Za-z0-9_]`) and
white space, every NAME in {CHECKPOINT, PRECURSOR, DRY} and every payload free of line
terminators (in particular `bot<id> : <integer>`), the line `<prefix>; <<<NAME>>>
<payload>` matches the directive pattern with captures NAME and payload, and the line
handler leaves the queue as it was: nothing derived from the line, prefix included, is
enqueued. -/
theorem directive_line_never_enqueued (tr : Transforms) (self : Marlin)
    (pre name payload : Str)
    (hpre : ∀ c ∈ pre, isWordDigitSpace c = true)
    (hname : name = "CHECKPOINT".toList ∨ name = "PRECURSOR".toList ∨ name = "DRY".toList)
    (hpay : ∀ c ∈ payload, isDot c = true) :
    conductorComment.exec (pre ++ ("; <<<".toList ++ (name ++ (">>> ".toList ++ payload)))) =
      some [name, payload] ∧
    (onLine tr self (pre ++ ("; <<<".toList ++ (name ++ (">>> ".toList ++ payload))))).mQueue =
      self.mQueue := by
  have hex : conductorComment.exec
      (pre ++ ("; <<<".toList ++ (name ++ (">>> ".toList ++ payload)))) =
      some [name, payload] := by
    apply conductorComment_exec pre name payload hpre _ _ hpay
    · rcases hname with h | h | h <;> rw [h] <;> decide
    · rcases hname with h | h | h <;> rw [h] <;> decide
  exact ⟨hex, onLine_directive_mQueue tr self _ _ hex⟩

/-- The line `G1 X10 ; <<<PRECURSOR>>> bot2 : 5` is a directive and enqueues nothing. -/
theorem directive_line_never_enqueued_witness :
    conductorComment.exec ("G1 X10 ".toList ++ ("; <<<".toList ++ ("PRECURSOR".toList ++
      (">>> ".toList ++ "bot2 : 5".toList)))) = some ["PRECURSOR".toList, "bot2 : 5".toList] ∧
    (onLine Transforms.identity (Marlin.fresh "Marlin" "processingJob")
      ("G1 X10 ".toList ++ ("; <<<".toList ++ ("PRECURSOR".toList ++
        (">>> ".toList ++ "bot2 : 5".toList))))).mQueue =
      (Marlin.fresh "Marlin" "processingJob").mQueue :=
  directive_line_never_enqueued Transforms.identity (Marlin.fresh "Marlin" "processingJob")
    "G1 X10 ".toList "PRECURSOR".toList "bot2 : 5".toList (by decide) (by decide) (by decide)

/-! ## C2: the CHECKPOINT directive -/

theorem isDigit_not_isSpace (c : Char) (h : isDigit c = true) : isSpace c = false := by
  simp only [isDigit, decide_eq_true_eq] at h
  simp only [isSpace, isLineTerminator, Bool.decide_or, Bool.decide_and, Bool.or_eq_false_iff,
    Bool.and_eq_false_imp, decide_eq_false_iff_not, decide_eq_true_eq, Bool.decide_eq_true]
  omega

theorem isDigit_isDot (c : Char) (h : isDigit c = true) : isDot c = true := by
  simp only [isDigit, decide_eq_true_eq] at h
  simp only [isDot, isLineTerminator, Bool.not_eq_true', decide_eq_false_iff_not]
  omega

theorem isWord_isDot (c : Char) (h : isWord c = true) : isDot c = true := by
  simp only [isWord, decide_eq_true_eq] at h
  simp only [isDot, isLineTerminator, Bool.not_eq_true', decide_eq_false_iff_not]
  omega

theorem isDigit_ne_space (c : Char) (h : isDigit c = true) : c ≠ ' ' := by
  intro hc
  subst hc
  exact absurd h (by decide)

theorem isWord_ne_space (c : Char) (h : isWord c = true) : c ≠ ' ' := by
  intro hc
  subst hc
  exact absurd h (by decide)

/-- A string of digits read by `parseInt` is the number it denotes, rounded to
binary64. -/
theorem parseIntStr_digits (digits : Str) (hd : digits ≠ [])
    (hdd : ∀ c ∈ digits, isDigit c = true) :
    parseIntStr digits = JsNumber.ofNat (digitsValue digits) := by
  cases digits with
  | nil => exact absurd rfl hd
  | cons c cs =>
    have hc : isDigit c = true := hdd c (List.mem_cons_self c cs)
    have hsp : isSpace c = false := isDigit_not_isSpace c hc
    have hm : c ≠ '-' := by
      intro h; subst h; exact absurd hc (by decide)
    have hp : c ≠ '+' := by
      intro h; subst h; exact absurd hc (by decide)
    have htw : List.takeWhile isDigit (c :: cs) = c :: cs :=
      List.takeWhile_eq_self_iff.2 hdd
    unfold parseIntStr
    simp only [List.dropWhile, hsp, List.head?, Option.some.injEq, hm, hp, or_self, if_false,
      htw, decide_False]
    simp [JsNumber.ofNat]

/-- The text after the last blank of a string is determined by the string. -/
theorem after_last_blank (x y d d' : Str) (h : x ++ ' ' :: d = y ++ ' ' :: d')
    (hd : ' ' ∉ d) (hd' : ' ' ∉ d') : d = d' := by
  rcases List.append_eq_append_iff.1 h with ⟨a, _, ha⟩ | ⟨a, _, ha⟩
  · cases a with
    | nil => simpa using ha
    | cons c a =>
      simp only [List.cons_append, List.cons.injEq] at ha
      exact absurd (by rw [ha.2]; simp) hd
  · cases a with
    | nil => simpa using ha.symm
    | cons c a =>
      simp only [List.cons_append, List.cons.injEq] at ha
      exact absurd (by rw [ha.2]; simp) hd'

/-- The CHECKPOINT payload `bot<id> : <digits>` matches its pattern, and whichever
`bot` the backtracking settles on, the second capture is the digit string. -/
theorem checkpointBotRegex_exec (idw digits : Str) (hid : idw ≠ [])
    (hidw : ∀ c ∈ idw, isWord c = true) (hd : digits ≠ [])
    (hdd : ∀ c ∈ digits, isDigit c = true) :
    ∃ w, checkpointBotRegex.exec ("bot".toList ++ (idw ++ (" : ".toList ++ digits))) =
      some [w, digits] := by
  -- the tail of the pattern succeeds on the whole payload
  have hk : (Re.seq (Re.lit "bot".toList) (Re.seq (Re.group (Re.plus isWord))
      (Re.seq (Re.lit " : ".toList) (Re.group (Re.plus isDigit))))).run
      ("bot".toList ++ (idw ++ (" : ".toList ++ digits))) []
      (fun rest caps => if rest = [] then some caps else none) = some [idw, digits] := by
    simp only [Re.run]
    have h1 := dropPrefix_append "bot".toList (idw ++ (" : ".toList ++ digits))
    simp only [h1]
    have h2 := run_group_plus_greedy isWord idw (" : ".toList ++ digits) []
      (fun rest caps₁ => (Re.seq (Re.lit " : ".toList) (Re.group (Re.plus isDigit))).run rest caps₁
        (fun rest caps => if rest = [] then some caps else none)) [idw, digits] hid hidw
      (by
        intro c hc
        have : c = ' ' := by simpa using hc.symm
        subst this
        decide)
      (by
        simp only [Re.run, List.nil_append]
        have h3 := dropPrefix_append " : ".toList digits
        simp only [h3]
        have h4 := run_group_plus_greedy isDigit digits [] [idw]
          (fun rest caps => if rest = [] then some caps else none) [idw, digits] hd hdd
          (by simp) (by simp)
        simpa [Re.run] using h4)
    simpa [Re.run] using h2
  have hex : ∃ r, checkpointBotRegex.exec ("bot".toList ++ (idw ++ (" : ".toList ++ digits))) =
      some r := by
    unfold Re.exec checkpointBotRegex
    simp only [Re.run]
    exact starRun_isSome isDot _ _ _ (by simpa [Re.run] using hk)
  obtain ⟨r, hr⟩ := hex
  -- every successful match ends with the same digits
  have hr' := hr
  unfold Re.exec checkpointBotRegex at hr'
  rw [run_seq, run_star] at hr'
  obtain ⟨l, rest, hsplit, _, hrest⟩ := starRun_sound isDot _ _ r hr'
  simp only [run_seq] at hrest
  obtain ⟨r1, e1, hrest⟩ := run_lit_some "bot".toList rest [] _ r hrest
  obtain ⟨w, r2, e2, _, hw, hrest⟩ := run_group_plus_some isWord r1 [] _ r hrest
  obtain ⟨r3, e3, hrest⟩ := run_lit_some " : ".toList r2 _ _ r hrest
  obtain ⟨d, r4, e4, _, hdig, hrest⟩ := run_group_plus_some isDigit r3 _ _ r hrest
  have hr4 : r4 = [] := by
    by_contra hne
    simp [hne] at hrest
  have hrw : r = [w, d] := by
    rw [hr4] at hrest
    simpa using hrest.symm
  have hpayload : (l ++ ("bot".toList ++ (w ++ [' ', ':']))) ++ ' ' :: d =
      ("bot".toList ++ (idw ++ [' ', ':'])) ++ ' ' :: digits := by
    have : "bot".toList ++ (idw ++ (" : ".toList ++ digits)) =
        l ++ ("bot".toList ++ (w ++ (" : ".toList ++ (d ++ [])))) := by
      rw [hsplit, e1, e2, e3, e4, hr4]
    have e5 : " : ".toList = [' ', ':', ' '] := rfl
    rw [e5, List.append_nil] at this
    simp only [List.append_assoc, List.cons_append, List.nil_append] at this ⊢
    exact this.symm
  have hdd' : d = digits :=
    after_last_blank _ _ d digits hpayload
      (fun hmem => isDigit_ne_space ' ' (hdig ' ' hmem) rfl)
      (fun hmem => isDigit_ne_space ' ' (hdd ' ' hmem) rfl)
  exact ⟨w, by rw [hr, hrw, hdd']⟩

theorem onCheckpoint_status (self : Marlin) (payload : Str) (caps : List Str)
    (h : checkpointBotRegex.exec payload = some caps) :
    (onCheckpoint self payload).status =
      { self.status with
        checkpoint := some (JsNumber.parseInt (parseIntStr (caps.getD 1 []))) } := by
  unfold onCheckpoint
  simp only [h]
  unfold notifySubscribers
  split <;> rfl

/-- C2, as stated, fails for integers beyond the exact range of JavaScript numbers: the
line `; <<<CHECKPOINT>>> bot1 : 9007199254740993` sets the checkpoint to
9007199254740992. -/
theorem checkpoint_beyond_exact_range :
    digitsValue "9007199254740993".toList = 9007199254740993 ∧
    (onLine Transforms.identity (Marlin.fresh "Marlin" "processingJob")
      "; <<<CHECKPOINT>>> bot1 : 9007199254740993".toList).status.checkpoint =
      some (JsNumber.fin false 4503599627370496 1) ∧
    (JsNumber.fin false 4503599627370496 1).val = 9007199254740992 := by
  refine ⟨by decide, by decide, ?_⟩
  norm_num [JsNumber.val]

/-- C2, amended: for every line `; <<<CHECKPOINT>>> bot<id> : <n>` with `<id>` a
non-empty run of word characters and `<n>` a decimal integer of at most 2^53 (the
integers a JavaScript number holds exactly), the line handler sets `status.checkpoint`
to the integer n, leaves the command queue unchanged and leaves `status.blocker` and
`status.collaborators` unchanged. -/
theorem checkpoint_directive (tr : Transforms) (self : Marlin) (idw digits : Str)
    (hid : idw ≠ []) (hidw : ∀ c ∈ idw, isWord c = true) (hd : digits ≠ [])
    (hdd : ∀ c ∈ digits, isDigit c = true) (hn : digitsValue digits ≤ 2 ^ 53) :
    (onLine tr self ("; <<<CHECKPOINT>>> ".toList ++
        ("bot".toList ++ (idw ++ (" : ".toList ++ digits))))).status.checkpoint =
      some (JsNumber.ofNat (digitsValue digits)) ∧
    (JsNumber.ofNat (digitsValue digits)).val = digitsValue digits ∧
    (onLine tr self ("; <<<CHECKPOINT>>> ".toList ++
        ("bot".toList ++ (idw ++ (" : ".toList ++ digits))))).mQueue = self.mQueue ∧
    (onLine tr self ("; <<<CHECKPOINT>>> ".toList ++
        ("bot".toList ++ (idw ++ (" : ".toList ++ digits))))).status.blocker =
      self.status.blocker ∧
    (onLine tr self ("; <<<CHECKPOINT>>> ".toList ++
        ("bot".toList ++ (idw ++ (" : ".toList ++ digits))))).status.collaborators =
      self.status.collaborators := by
  have hpay : ∀ c ∈ "bot".toList ++ (idw ++ (" : ".toList ++ digits)), isDot c = true := by
    intro c hc
    simp only [List.mem_append] at hc
    rcases hc with hc | hc | hc | hc
    · have : c = 'b' ∨ c = 'o' ∨ c = 't' := by simpa using hc
      rcases this with h | h | h <;> subst h <;> decide
    · exact isWord_isDot c (hidw c hc)
    · have : c = ' ' ∨ c = ':' := by
        have : c = ' ' ∨ c = ':' ∨ c = ' ' := by simpa using hc
        tauto
      rcases this with h | h <;> subst h <;> decide
    · exact isDigit_isDot c (hdd c hc)
  have hline : "; <<<CHECKPOINT>>> ".toList ++
      ("bot".toList ++ (idw ++ (" : ".toList ++ digits))) =
      [] ++ ("; <<<".toList ++ ("CHECKPOINT".toList ++ (">>> ".toList ++
        ("bot".toList ++ (idw ++ (" : ".toList ++ digits)))))) := rfl
  have hcc := conductorComment_exec [] "CHECKPOINT".toList
    ("bot".toList ++ (idw ++ (" : ".toList ++ digits))) (by simp) (by decide) (by decide) hpay
  rw [← hline] at hcc
  obtain ⟨w, hw⟩ := checkpointBotRegex_exec idw digits hid hidw hd hdd
  have hval : JsNumber.parseInt (parseIntStr digits) = JsNumber.ofNat (digitsValue digits) := by
    rw [parseIntStr_digits digits hd hdd, parseInt_ofNat _ hn]
  have hon : onLine tr self ("; <<<CHECKPOINT>>> ".toList ++
      ("bot".toList ++ (idw ++ (" : ".toList ++ digits)))) =
      onCheckpoint (lrPause self) ("bot".toList ++ (idw ++ (" : ".toList ++ digits))) := by
    unfold onLine
    simp only [hcc]
    simp
  have hst := onCheckpoint_status (lrPause self)
    ("bot".toList ++ (idw ++ (" : ".toList ++ digits))) [w, digits] hw
  simp only [List.getD_cons_succ, List.getD_cons_zero, hval] at hst
  refine ⟨?_, ?_, ?_, ?_, ?_⟩
  · rw [hon, hst]
  · obtain ⟨m, e, hr, hv⟩ := ofNat_val (digitsValue digits) hn
    rw [hr, val_fin_false, hv]
  · exact onLine_directive_mQueue tr self _ _ hcc
  · rw [hon, hst]
    rfl
  · rw [hon, hst]
    rfl

/-- The line `; <<<CHECKPOINT>>> bot1 : 7` sets the checkpoint to 7 and enqueues
nothing. -/
theorem checkpoint_directive_witness :
    (onLine Transforms.identity (Marlin.fresh "Marlin" "processingJob")
      ("; <<<CHECKPOINT>>> ".toList ++ ("bot".toList ++ ("1".toList ++
        (" : ".toList ++ "7".toList))))).status.checkpoint =
      some (JsNumber.ofNat (digitsValue "7".toList)) ∧
    digitsValue "7".toList = 7 ∧
    (onLine Transforms.identity (Marlin.fresh "Marlin" "processingJob")
      ("; <<<CHECKPOINT>>> ".toList ++ ("bot".toList ++ ("1".toList ++
        (" : ".toList ++ "7".toList))))).mQueue = [] :=
  have h := checkpoint_directive Transforms.identity (Marlin.fresh "Marlin" "processingJob")
    "1".toList "7".toList (by decide) (by decide) (by decide) (by decide) (by decide)
  ⟨h.1, by decide, h.2.2.1⟩

/-! ## Progress of a streaming job -/

theorem percents_append (l₁ l₂ : List Event) :
    percents (l₁ ++ l₂) = percents l₁ ++ percents l₂ := by
  induction l₁ with
  | nil => rfl
  | cons e l ih => cases e <;> simp [percents, ih]

theorem Quiet.refl (self : Marlin) : Quiet self self := ⟨rfl, rfl, rfl, rfl⟩

theorem Quiet.trans {s₁ s₂ s₃ : Marlin} (h₁ : Quiet s₁ s₂) (h₂ : Quiet s₂ s₃) : Quiet s₁ s₃ :=
  ⟨h₂.sameNumLines.trans h₁.sameNumLines, h₂.sameCurrentLine.trans h₁.sameCurrentLine,
    h₂.sameQueue.trans h₁.sameQueue, h₂.samePercents.trans h₁.samePercents⟩

theorem emit_quiet (self : Marlin) (ev : Event) (h : ∀ v, ev ≠ Event.percent v) :
    Quiet self (emit self ev) := by
  refine ⟨rfl, rfl, rfl, ?_⟩
  simp only [emit, percents_append]
  cases ev <;> first | exact absurd rfl (h _) | simp [percents]

theorem lrPause_quiet (self : Marlin) : Quiet self (lrPause self) := by
  refine ⟨rfl, rfl, rfl, ?_⟩
  simp [lrPause, emit, percents_append, percents]

theorem lrResume_quiet (self : Marlin) : Quiet self (lrResume self) := by
  refine ⟨rfl, rfl, rfl, ?_⟩
  simp [lrResume, emit, percents_append, percents]

theorem percents_notify (subs : List Str) (name : Str) (cp : Option JsNumber) :
    percents (subs.map (fun sub => Event.notify sub name cp)) = [] := by
  induction subs with
  | nil => rfl
  | cons s subs ih => simpa [percents] using ih

theorem notifySubscribers_quiet (self : Marlin) : Quiet self (notifySubscribers self) := by
  unfold notifySubscribers
  split
  · refine ⟨rfl, rfl, rfl, ?_⟩
    simp [percents_append, percents_notify]
  · exact Quiet.refl self

theorem checkPrecursors_quiet (self : Marlin) : Quiet self (checkPrecursors self) := by
  unfold checkPrecursors
  split
  · split
    · exact lrResume_quiet self
    · exact Quiet.refl self
  · exact Quiet.refl self

theorem updateCollaboratorCheckpoints_quiet (self : Marlin) (m : List (Str × JsNumber)) :
    Quiet self (updateCollaboratorCheckpoints self m) := by
  have h := checkPrecursors_quiet { self with status.collaborators := m }
  exact ⟨h.sameNumLines, h.sameCurrentLine, h.sameQueue, h.samePercents⟩

theorem onCheckpoint_quiet (self : Marlin) (payload : Str) :
    Quiet self (onCheckpoint self payload) := by
  unfold onCheckpoint
  split
  · exact emit_quiet self _ (by intro v h; cases h)
  · rename_i caps _
    have h1 := emit_quiet
      { self with
        status.checkpoint := some (JsNumber.parseInt (parseIntStr (caps.getD 1 []))) }
      (.infoReachedCheckpoint (caps.getD 0 []) (parseIntStr (caps.getD 1 [])))
      (by intro v h; cases h)
    have h := Quiet.trans (Quiet.trans h1 (lrResume_quiet _)) (notifySubscribers_quiet _)
    exact ⟨h.sameNumLines, h.sameCurrentLine, h.sameQueue, h.samePercents⟩

theorem onPrecursor_quiet (self : Marlin) (payload : Str) :
    Quiet self (onPrecursor self payload) := by
  unfold onPrecursor
  split
  · exact emit_quiet self _ (by intro v h; cases h)
  · rename_i caps _
    have h1 := emit_quiet
      { self with
        status.blocker :=
          { bot := some (caps.getD 0 []), checkpoint := some (parseIntStr (caps.getD 1 [])) } }
      (.infoBlockerSet (caps.getD 0 []) (parseIntStr (caps.getD 1 [])))
      (by intro v h; cases h)
    have h := Quiet.trans h1 (checkPrecursors_quiet _)
    exact ⟨h.sameNumLines, h.sameCurrentLine, h.sameQueue, h.samePercents⟩

theorem directive_quiet (self : Marlin) (caps : List Str) :
    Quiet self
      (if caps.getD 0 [] = "CHECKPOINT".toList then onCheckpoint self (caps.getD 1 [])
      else if caps.getD 0 [] = "PRECURSOR".toList then onPrecursor self (caps.getD 1 [])
      else if caps.getD 0 [] = "DRY".toList then lrResume self
      else emit self (.errorUnknownComment (caps.getD 0 []) (caps.getD 1 []))) := by
  split
  · exact onCheckpoint_quiet _ _
  · split
    · exact onPrecursor_quiet _ _
    · split
      · exact lrResume_quiet _
      · exact emit_quiet _ _ (by intro v h; cases h)

theorem onLine_some (tr : Transforms) (self : Marlin) (line : Str) (caps : List Str)
    (h : conductorComment.exec line = some caps) :
    onLine tr self line =
      if caps.getD 0 [] = "CHECKPOINT".toList then onCheckpoint (lrPause self) (caps.getD 1 [])
      else if caps.getD 0 [] = "PRECURSOR".toList then
        onPrecursor (lrPause self) (caps.getD 1 [])
      else if caps.getD 0 [] = "DRY".toList then lrResume (lrPause self)
      else emit (lrPause self) (.errorUnknownComment (caps.getD 0 []) (caps.getD 1 [])) := by
  unfold onLine
  simp only [h]

theorem onLine_none (tr : Transforms) (self : Marlin) (line : Str)
    (h : conductorComment.exec line = none) :
    onLine tr self line =
      if (splitFirst ";".toList line).length ≤ 0 then lrResume (lrPause self)
      else queueCommands (lrPause self)
        [.command
          { code := tr.addFeedMultiplier (tr.addSpeedMultiplier
              (tr.addOffset (some (splitFirst ";".toList line))))
            postCallback := some .lineDone }] := by
  unfold onLine
  simp only [h]

/-- The line handler either leaves the queue alone or appends one entry whose only hook
is that of a streamed line; it assigns no percentage and moves no counter. -/
theorem onLine_effect (tr : Transforms) (self : Marlin) (line : Str) :
    (onLine tr self line).numLines = self.numLines ∧
    (onLine tr self line).currentLine = self.currentLine ∧
    percents (onLine tr self line).trace = percents self.trace ∧
    ((onLine tr self line).mQueue = self.mQueue ∨
      ∃ code, (onLine tr self line).mQueue =
        self.mQueue ++ [.command { code := code, postCallback := some .lineDone }]) := by
  have hp := lrPause_quiet self
  cases h : conductorComment.exec line with
  | some caps =>
    rw [onLine_some tr self line caps h]
    have hq := Quiet.trans hp (directive_quiet (lrPause self) caps)
    exact ⟨hq.sameNumLines, hq.sameCurrentLine, hq.samePercents, Or.inl hq.sameQueue⟩
  | none =>
    rw [onLine_none tr self line h]
    split
    · have hq := Quiet.trans hp (lrResume_quiet (lrPause self))
      exact ⟨hq.sameNumLines, hq.sameCurrentLine, hq.samePercents, Or.inl hq.sameQueue⟩
    · exact ⟨rfl, rfl, hp.samePercents, Or.inr ⟨_, rfl⟩⟩

theorem jobHooks_append (l₁ l₂ : List Hook) : jobHooks (l₁ ++ l₂) = jobHooks l₁ ++ jobHooks l₂ := by
  simp [jobHooks]

theorem queueHooks_append (q₁ q₂ : List QueueEntry) :
    queueHooks (q₁ ++ q₂) = queueHooks q₁ ++ queueHooks q₂ := by
  induction q₁ with
  | nil => rfl
  | cons e q ih => simp [queueHooks, ih]

theorem jobHooks_cons_lineDone (hs : List Hook) :
    jobHooks (Hook.lineDone :: hs) = Hook.lineDone :: jobHooks hs := by
  simp [jobHooks]

theorem jobHooks_cons_jobEnd (hs : List Hook) :
    jobHooks (Hook.jobEnd :: hs) = Hook.jobEnd :: jobHooks hs := by
  simp [jobHooks]

theorem jobHooks_cons_other (h : Hook) (hs : List Hook) (h1 : h ≠ Hook.lineDone)
    (h2 : h ≠ Hook.jobEnd) : jobHooks (h :: hs) = jobHooks hs := by
  simp [jobHooks, h1, h2]

theorem shape_lineDone (X : List Hook) (a b : Nat)
    (h : Hook.lineDone :: X = List.replicate a Hook.lineDone ++ List.replicate b Hook.jobEnd) :
    ∃ a', a = a' + 1 ∧ X = List.replicate a' Hook.lineDone ++ List.replicate b Hook.jobEnd := by
  cases a with
  | zero =>
    cases b with
    | zero => simp at h
    | succ b => simp [List.replicate_succ] at h
  | succ a =>
    refine ⟨a, rfl, ?_⟩
    simpa [List.replicate_succ] using h

theorem shape_jobEnd (X : List Hook) (a b : Nat)
    (h : Hook.jobEnd :: X = List.replicate a Hook.lineDone ++ List.replicate b Hook.jobEnd) :
    a = 0 ∧ ∃ b', b = b' + 1 ∧ X = List.replicate b' Hook.jobEnd := by
  cases a with
  | zero =>
    cases b with
    | zero => simp at h
    | succ b =>
      refine ⟨rfl, b, rfl, ?_⟩
      simpa [List.replicate_succ] using h
  | succ a => simp [List.replicate_succ] at h

/-- What the hook of a streamed line does. -/
theorem runHook_lineDone (self : Marlin) :
    (runHook self .lineDone).numLines = self.numLines ∧
    (runHook self .lineDone).currentLine = self.currentLine + 1 ∧
    (runHook self .lineDone).mQueue = self.mQueue ∧
    (runHook self .lineDone).percentComplete =
      some (percentOf (self.currentLine + 1) self.numLines) ∧
    percents (runHook self .lineDone).trace =
      percents self.trace ++ [percentOf (self.currentLine + 1) self.numLines] := by
  by_cases h : self.jobState = "running".toList
  · simp only [runHook, h, if_true]
    simp [setPercent, emit, lrResume, percents_append, percents]
  · simp only [runHook, h, if_false]
    simp [setPercent, emit, percents_append, percents]

/-- What the hook of the trailing entry does. -/
theorem runHook_jobEnd (self : Marlin) :
    (runHook self .jobEnd).numLines = self.numLines ∧
    (runHook self .jobEnd).currentLine = self.currentLine ∧
    (runHook self .jobEnd).mQueue = self.mQueue ∧
    percents (runHook self .jobEnd).trace = percents self.trace ++ [JsNumber.ofNat 100] := by
  simp [runHook, setPercent, emit, percents_append, percents]

theorem fsmFire_quiet (src dst : String) (self : Marlin) : Quiet self (fsmFire src dst self) := by
  unfold fsmFire
  split
  · exact ⟨rfl, rfl, rfl, rfl⟩
  · exact Quiet.refl self

/-- The other hooks assign no percentage, move no counter and add no job hook to the
queue. -/
theorem runHook_other (self : Marlin) (h : Hook) (h1 : h ≠ Hook.lineDone)
    (h2 : h ≠ Hook.jobEnd) :
    (runHook self h).numLines = self.numLines ∧
    (runHook self h).currentLine = self.currentLine ∧
    percents (runHook self h).trace = percents self.trace ∧
    jobHooks (queueHooks (runHook self h).mQueue) = jobHooks (queueHooks self.mQueue) := by
  cases h with
  | lineDone => exact absurd rfl h1
  | jobEnd => exact absurd rfl h2
  | jobToGcode =>
    have q := fsmFire_quiet "processingJob" "processingJobGcode" self
    exact ⟨q.sameNumLines, q.sameCurrentLine, q.samePercents, by rw [show (runHook self .jobToGcode).mQueue = self.mQueue from q.sameQueue]⟩
  | parkToGcode =>
    have q := fsmFire_quiet "parked" "processingParkGcode" self
    exact ⟨q.sameNumLines, q.sameCurrentLine, q.samePercents, by rw [show (runHook self .parkToGcode).mQueue = self.mQueue from q.sameQueue]⟩
  | jobGcodeDone =>
    have q := fsmFire_quiet "processingJobGcode" "processingJob" self
    exact ⟨q.sameNumLines, q.sameCurrentLine, q.samePercents, by rw [show (runHook self .jobGcodeDone).mQueue = self.mQueue from q.sameQueue]⟩
  | parkGcodeDone =>
    have q := fsmFire_quiet "processingParkGcode" "parked" self
    exact ⟨q.sameNumLines, q.sameCurrentLine, q.samePercents, by rw [show (runHook self .parkGcodeDone).mQueue = self.mQueue from q.sameQueue]⟩
  | parkStart =>
    have q := emit_quiet self (.debug "Starting park movements".toList) (by intro v h; cases h)
    exact ⟨q.sameNumLines, q.sameCurrentLine, q.samePercents, by rw [show (runHook self .parkStart).mQueue = self.mQueue from q.sameQueue]⟩
  | parkPlan =>
    refine ⟨rfl, rfl, rfl, ?_⟩
    show jobHooks (queueHooks (parkCommandArray self ++ self.mQueue)) = _
    rw [queueHooks_append, jobHooks_append]
    have : jobHooks (queueHooks (parkCommandArray self)) = [] := by
      unfold parkCommandArray
      split <;> simp [queueHooks, QueueEntry.hooks, jobHooks]
    rw [this, List.nil_append]
  | parkDone =>
    have q := emit_quiet { self with parked := true } (.debug "Done with park movements".toList)
      (by intro v h; cases h)
    exact ⟨q.sameNumLines, q.sameCurrentLine, q.samePercents, by rw [show (runHook self .parkDone).mQueue = self.mQueue from q.sameQueue]⟩

theorem getLast_append_singleton_eq {α : Type} (l : List α) (x : α) :
    (l ++ [x]).getLast? = some x := by
  simp

/-- Running one hook of the entry in flight keeps the invariant. -/
theorem JobInv_runHook (n : Nat) (hn : n ≤ 10 ^ 8) (h : Hook) (hs : List Hook) (j : Job)
    (inv : JobInv n (h :: hs) j) : JobInv n hs (Job.runHook j h) := by
  obtain ⟨a, b, hshape, hcount, hb, hdone⟩ := inv.shape
  rw [List.cons_append] at hshape
  have hnum := inv.numLines
  by_cases h1 : h = Hook.lineDone
  · subst h1
    rw [jobHooks_cons_lineDone] at hshape
    obtain ⟨a', ha, hshape'⟩ := shape_lineDone _ a b hshape
    have hnd : j.trailingDone = false := by
      cases hd : j.trailingDone with
      | false => rfl
      | true => have := hdone hd; omega
    obtain ⟨e1, e2, e3, _, e5⟩ := runHook_lineDone j.bot
    have hc1 : j.bot.currentLine + 1 ≤ n := by omega
    have hlast := inv.last
    rw [hnd] at hlast
    simp only [Bool.false_eq_true, if_false] at hlast
    refine ⟨?_, ⟨a', b, ?_, ?_, ?_, ?_⟩, inv.endedPending, ?_, ?_, ?_⟩
    · show (runHook j.bot .lineDone).numLines = n
      rw [e1, hnum]
    · show jobHooks (hs ++ queueHooks (runHook j.bot .lineDone).mQueue) = _
      rw [e3]; exact hshape'
    · show (runHook j.bot .lineDone).currentLine + a' + j.pending.length ≤ n
      rw [e2]; omega
    · show b + (if (j.trailingDone || decide (Hook.lineDone = Hook.jobEnd)) = true then 1 else 0) = _
      simpa using hb
    · intro hd
      have : (j.trailingDone || decide (Hook.lineDone = Hook.jobEnd)) = true := hd
      simp [hnd] at this
    · show (percents (runHook j.bot .lineDone).trace).getLast? =
        if (j.trailingDone || decide (Hook.lineDone = Hook.jobEnd)) = true then
          some (JsNumber.ofNat 100)
        else if (runHook j.bot .lineDone).currentLine = 0 then none
        else some (percentOf (runHook j.bot .lineDone).currentLine n)
      rw [e5, e2, hnum, getLast_append_singleton_eq]
      simp [hnd]
    · show List.Chain' Rising (percents (runHook j.bot .lineDone).trace)
      rw [e5, List.chain'_append]
      refine ⟨inv.chain, List.chain'_singleton _, ?_⟩
      intro x hx y hy
      simp only [List.head?_cons, Option.mem_def, Option.some.injEq] at hy
      subst hy
      rw [hlast] at hx
      by_cases hc0 : j.bot.currentLine = 0
      · simp [hc0] at hx
      · simp only [hc0, if_false, Option.mem_def, Option.some.injEq] at hx
        subst hx
        rw [hnum]
        exact percentOf_mono _ _ n (by omega) (by omega) hc1 hn
    · intro hmem
      have hmem' : JsNumber.ofNat 100 ∈ percents (runHook j.bot .lineDone).trace := hmem
      rw [e5, List.mem_append] at hmem'
      left
      show (runHook j.bot .lineDone).currentLine = n
      rw [e2]
      rcases hmem' with hm | hm
      · rcases inv.hundred hm with hcn | hd
        · omega
        · rw [hnd] at hd; cases hd
      · have hv : percentOf (j.bot.currentLine + 1) n = JsNumber.ofNat 100 := by
          rw [hnum] at hm
          exact (List.mem_singleton.1 hm).symm
        by_contra hne
        exact percentOf_ne_100 _ n (by omega) (by omega) hn hv
  · by_cases h2 : h = Hook.jobEnd
    · subst h2
      rw [jobHooks_cons_jobEnd] at hshape
      obtain ⟨ha, b', hb', hshape'⟩ := shape_jobEnd _ a b hshape
      have hnd : j.trailingDone = false := by
        cases hd : j.trailingDone with
        | false => rfl
        | true =>
          rw [hd] at hb
          simp only [if_true] at hb
          split at hb <;> omega
      have hended : j.ended = true := by
        cases he : j.ended with
        | true => rfl
        | false =>
          rw [he] at hb
          simp at hb
          omega
      have hb0 : b' = 0 := by
        rw [hnd, hended] at hb
        simp at hb
        omega
      obtain ⟨e1, e2, e3, e5⟩ := runHook_jobEnd j.bot
      have hlast := inv.last
      rw [hnd] at hlast
      simp only [Bool.false_eq_true, if_false] at hlast
      refine ⟨?_, ⟨0, 0, ?_, ?_, ?_, ?_⟩, inv.endedPending, ?_, ?_, ?_⟩
      · show (runHook j.bot .jobEnd).numLines = n
        rw [e1, hnum]
      · show jobHooks (hs ++ queueHooks (runHook j.bot .jobEnd).mQueue) = _
        rw [e3, hshape', hb0]
        rfl
      · show (runHook j.bot .jobEnd).currentLine + 0 + j.pending.length ≤ n
        rw [e2]; omega
      · show 0 + (if (j.trailingDone || decide (Hook.jobEnd = Hook.jobEnd)) = true then 1 else 0) =
          if j.ended = true then 1 else 0
        simp [hended]
      · intro _; rfl
      · show (percents (runHook j.bot .jobEnd).trace).getLast? =
          if (j.trailingDone || decide (Hook.jobEnd = Hook.jobEnd)) = true then
            some (JsNumber.ofNat 100)
          else if (runHook j.bot .jobEnd).currentLine = 0 then none
          else some (percentOf (runHook j.bot .jobEnd).currentLine n)
        rw [e5, getLast_append_singleton_eq]
        simp
      · show List.Chain' Rising (percents (runHook j.bot .jobEnd).trace)
        rw [e5, List.chain'_append]
        refine ⟨inv.chain, List.chain'_singleton _, ?_⟩
        intro x hx y hy
        simp only [List.head?_cons, Option.mem_def, Option.some.injEq] at hy
        subst hy
        rw [hlast] at hx
        by_cases hc0 : j.bot.currentLine = 0
        · simp [hc0] at hx
        · simp only [hc0, if_false, Option.mem_def, Option.some.injEq] at hx
          subst hx
          exact percentOf_le_100 _ n (by omega) (by omega) hn
      · intro _
        right
        show (j.trailingDone || decide (Hook.jobEnd = Hook.jobEnd)) = true
        simp
    · rw [jobHooks_cons_other h _ h1 h2, jobHooks_append] at hshape
      obtain ⟨e1, e2, e5, e6⟩ := runHook_other j.bot h h1 h2
      have hd' : (j.trailingDone || decide (h = Hook.jobEnd)) = j.trailingDone := by
        simp [h2]
      refine ⟨?_, ⟨a, b, ?_, ?_, ?_, ?_⟩, inv.endedPending, ?_, ?_, ?_⟩
      · show (runHook j.bot h).numLines = n
        rw [e1, hnum]
      · show jobHooks (hs ++ queueHooks (runHook j.bot h).mQueue) = _
        rw [jobHooks_append, e6]; exact hshape
      · show (runHook j.bot h).currentLine + a + j.pending.length ≤ n
        rw [e2]; exact hcount
      · show b + (if (j.trailingDone || decide (h = Hook.jobEnd)) = true then 1 else 0) = _
        rw [hd']; exact hb
      · intro hd
        have : (j.trailingDone || decide (h = Hook.jobEnd)) = true := hd
        rw [hd'] at this
        exact hdone this
      · show (percents (runHook j.bot h).trace).getLast? =
          if (j.trailingDone || decide (h = Hook.jobEnd)) = true then some (JsNumber.ofNat 100)
          else if (runHook j.bot h).currentLine = 0 then none
          else some (percentOf (runHook j.bot h).currentLine n)
        rw [e5, e2, hd']; exact inv.last
      · show List.Chain' Rising (percents (runHook j.bot h).trace)
        rw [e5]; exact inv.chain
      · intro hmem
        have hmem' : JsNumber.ofNat 100 ∈ percents (runHook j.bot h).trace := hmem
        rw [e5] at hmem'
        rcases inv.hundred hmem' with hcn | hd
        · left
          show (runHook j.bot h).currentLine = n
          rw [e2]; exact hcn
        · right
          show (j.trailingDone || decide (h = Hook.jobEnd)) = true
          rw [hd']; exact hd

theorem JobInv_runHooks (n : Nat) (hn : n ≤ 10 ^ 8) (hs' hs : List Hook) (j : Job)
    (inv : JobInv n (hs' ++ hs) j) : JobInv n hs (hs'.foldl Job.runHook j) := by
  induction hs' generalizing j with
  | nil => exact inv
  | cons h hs' ih => exact ih _ (JobInv_runHook n hn h (hs' ++ hs) j inv)

theorem onEnd_effect (self : Marlin) :
    (onEnd self).numLines = self.numLines ∧ (onEnd self).currentLine = self.currentLine ∧
    percents (onEnd self).trace = percents self.trace ∧
    (onEnd self).mQueue = self.mQueue ++ [.command { postCallback := some .jobEnd }] := by
  refine ⟨rfl, rfl, ?_, rfl⟩
  simp [onEnd, queueCommands, emit, percents_append, percents]

/-- Every step of a job keeps the invariant. -/
theorem JobInv_step (n : Nat) (hn : n ≤ 10 ^ 8) (tr : Transforms) (j j' : Job) (s : Step)
    (inv : JobInv n [] j) (hstep : j.step tr s = some j') : JobInv n [] j' := by
  obtain ⟨a, b, hshape, hcount, hb, hdone⟩ := inv.shape
  rw [List.nil_append] at hshape
  cases s with
  | line =>
    simp only [Job.step] at hstep
    split at hstep
    · rename_i l rest hp hpend
      have hj : j' = { j with bot := onLine tr j.bot l, pending := rest } := by
        simpa using hstep.symm
      subst hj
      have hne : j.ended = false := by
        cases he : j.ended with
        | false => rfl
        | true => have := inv.endedPending he; rw [hpend] at this; cases this
      have hnd : j.trailingDone = false := by
        cases hd : j.trailingDone with
        | false => rfl
        | true => rw [hd, hne] at hb; simp at hb
      have hb0 : b = 0 := by rw [hnd, hne] at hb; simpa using hb
      obtain ⟨e1, e2, e5, e6⟩ := onLine_effect tr j.bot l
      have hlen : j.pending.length = rest.length + 1 := by rw [hpend]; rfl
      refine ⟨?_, ?_, ?_, ?_, ?_, ?_⟩
      · show (onLine tr j.bot l).numLines = n
        rw [e1]; exact inv.numLines
      · rcases e6 with hq | ⟨code, hq⟩
        · refine ⟨a, b, ?_, ?_, hb, hdone⟩
          · show jobHooks ([] ++ queueHooks (onLine tr j.bot l).mQueue) = _
            rw [hq, List.nil_append]; exact hshape
          · show (onLine tr j.bot l).currentLine + a + rest.length ≤ n
            rw [e2]; omega
        · refine ⟨a + 1, b, ?_, ?_, hb, ?_⟩
          · show jobHooks ([] ++ queueHooks (onLine tr j.bot l).mQueue) = _
            rw [hq, List.nil_append, queueHooks_append, jobHooks_append, hshape, hb0]
            simp [queueHooks, QueueEntry.hooks, jobHooks, List.replicate_succ']
          · show (onLine tr j.bot l).currentLine + (a + 1) + rest.length ≤ n
            rw [e2]; omega
          · intro hd
            have : j.trailingDone = true := hd
            rw [hnd] at this
            cases this
      · intro he
        have : j.ended = true := he
        rw [hne] at this
        cases this
      · show (percents (onLine tr j.bot l).trace).getLast? =
          if j.trailingDone = true then some (JsNumber.ofNat 100)
          else if (onLine tr j.bot l).currentLine = 0 then none
          else some (percentOf (onLine tr j.bot l).currentLine n)
        rw [e5, e2]; exact inv.last
      · show List.Chain' Rising (percents (onLine tr j.bot l).trace)
        rw [e5]; exact inv.chain
      · intro hmem
        have hmem' : JsNumber.ofNat 100 ∈ percents (onLine tr j.bot l).trace := hmem
        rw [e5] at hmem'
        rcases inv.hundred hmem' with hcn | hd
        · left
          show (onLine tr j.bot l).currentLine = n
          rw [e2]; exact hcn
        · right; exact hd
    · cases hstep
  | endOfSource =>
    simp only [Job.step] at hstep
    split at hstep
    · rename_i hcond
      obtain ⟨_, hpend, hne⟩ := hcond
      have hj : j' = { j with bot := onEnd j.bot, ended := true } := by
        simpa using hstep.symm
      subst hj
      have hnd : j.trailingDone = false := by
        cases hd : j.trailingDone with
        | false => rfl
        | true => rw [hd, hne] at hb; simp at hb
      have hb0 : b = 0 := by rw [hnd, hne] at hb; simpa using hb
      obtain ⟨e1, e2, e5, e6⟩ := onEnd_effect j.bot
      refine ⟨?_, ⟨a, 1, ?_, ?_, ?_, ?_⟩, ?_, ?_, ?_, ?_⟩
      · show (onEnd j.bot).numLines = n
        rw [e1]; exact inv.numLines
      · show jobHooks ([] ++ queueHooks (onEnd j.bot).mQueue) = _
        rw [e6, List.nil_append, queueHooks_append, jobHooks_append, hshape, hb0]
        simp [queueHooks, QueueEntry.hooks, jobHooks]
      · show (onEnd j.bot).currentLine + a + j.pending.length ≤ n
        rw [e2]; exact hcount
      · show 1 + (if j.trailingDone = true then 1 else 0) = if true = true then 1 else 0
        simp [hnd]
      · intro hd
        have : j.trailingDone = true := hd
        rw [hnd] at this
        cases this
      · intro _; exact hpend
      · show (percents (onEnd j.bot).trace).getLast? =
          if j.trailingDone = true then some (JsNumber.ofNat 100)
          else if (onEnd j.bot).currentLine = 0 then none
          else some (percentOf (onEnd j.bot).currentLine n)
        rw [e5, e2]; exact inv.last
      · show List.Chain' Rising (percents (onEnd j.bot).trace)
        rw [e5]; exact inv.chain
      · intro hmem
        have hmem' : JsNumber.ofNat 100 ∈ percents (onEnd j.bot).trace := hmem
        rw [e5] at hmem'
        rcases inv.hundred hmem' with hcn | hd
        · left
          show (onEnd j.bot).currentLine = n
          rw [e2]; exact hcn
        · right; exact hd
    · cases hstep
  | complete =>
    simp only [Job.step] at hstep
    split at hstep
    · cases hstep
    · rename_i entry rest hq
      have hj : j' = entry.hooks.foldl Job.runHook
          { j with bot := { j.bot with mQueue := rest } } := by
        simpa using hstep.symm
      subst hj
      apply JobInv_runHooks n hn entry.hooks [] _
      rw [hq] at hshape
      refine ⟨inv.numLines, ⟨a, b, ?_, hcount, hb, hdone⟩, inv.endedPending, inv.last,
        inv.chain, inv.hundred⟩
      show jobHooks (entry.hooks ++ [] ++ queueHooks rest) = _
      rw [List.append_nil]
      exact hshape
  | update m =>
    simp only [Job.step] at hstep
    have hj : j' = { j with bot := updateCollaboratorCheckpoints j.bot m } := by
      simpa using hstep.symm
    subst hj
    have q := updateCollaboratorCheckpoints_quiet j.bot m
    refine ⟨?_, ⟨a, b, ?_, ?_, hb, hdone⟩, inv.endedPending, ?_, ?_, ?_⟩
    · show (updateCollaboratorCheckpoints j.bot m).numLines = n
      rw [q.sameNumLines]; exact inv.numLines
    · show jobHooks ([] ++ queueHooks (updateCollaboratorCheckpoints j.bot m).mQueue) = _
      rw [q.sameQueue, List.nil_append]; exact hshape
    · show (updateCollaboratorCheckpoints j.bot m).currentLine + a + j.pending.length ≤ n
      rw [q.sameCurrentLine]; exact hcount
    · show (percents (updateCollaboratorCheckpoints j.bot m).trace).getLast? =
        if j.trailingDone = true then some (JsNumber.ofNat 100)
        else if (updateCollaboratorCheckpoints j.bot m).currentLine = 0 then none
        else some (percentOf (updateCollaboratorCheckpoints j.bot m).currentLine n)
      rw [q.samePercents, q.sameCurrentLine]; exact inv.last
    · show List.Chain' Rising (percents (updateCollaboratorCheckpoints j.bot m).trace)
      rw [q.samePercents]; exact inv.chain
    · intro hmem
      have hmem' : JsNumber.ofNat 100 ∈
          percents (updateCollaboratorCheckpoints j.bot m).trace := hmem
      rw [q.samePercents] at hmem'
      rcases inv.hundred hmem' with hcn | hd
      · left
        show (updateCollaboratorCheckpoints j.bot m).currentLine = n
        rw [q.sameCurrentLine]; exact hcn
      · right; exact hd

theorem JobInv_run (n : Nat) (hn : n ≤ 10 ^ 8) (tr : Transforms) (steps : List Step)
    (j j' : Job) (inv : JobInv n [] j) (hrun : Job.run tr j steps = some j') :
    JobInv n [] j' := by
  induction steps generalizing j with
  | nil =>
    simp only [Job.run, Option.some.injEq] at hrun
    subst hrun
    exact inv
  | cons s steps ih =>
    simp only [Job.run] at hrun
    cases hs : j.step tr s with
    | none => rw [hs] at hrun; cases hrun
    | some j₁ =>
      rw [hs] at hrun
      exact ih j₁ (JobInv_step n hn tr j j₁ s inv hs) hrun

theorem jobHooks_queueHooks_nil (q : List QueueEntry)
    (hq : ∀ e ∈ q, Hook.lineDone ∉ e.hooks ∧ Hook.jobEnd ∉ e.hooks) :
    jobHooks (queueHooks q) = [] := by
  induction q with
  | nil => rfl
  | cons e q ih =>
    have he := hq e (List.mem_cons_self e q)
    have ih' := ih (fun e' he' => hq e' (List.mem_cons_of_mem e he'))
    simp only [queueHooks, jobHooks_append, ih', List.append_nil]
    unfold jobHooks
    rw [List.filter_eq_nil_iff]
    intro h hmem
    simp only [Bool.or_eq_true, decide_eq_true_eq, not_or]
    exact ⟨fun h1 => he.1 (h1 ▸ hmem), fun h2 => he.2 (h2 ▸ hmem)⟩

theorem JobInv_start (self : Marlin) (counted read : List Str)
    (hq : ∀ e ∈ self.mQueue, Hook.lineDone ∉ e.hooks ∧ Hook.jobEnd ∉ e.hooks)
    (hlines : (readerLines read).length ≤ countLines counted) :
    JobInv (countLines counted) [] (Job.start self counted read) := by
  refine ⟨rfl, ⟨0, 0, ?_, ?_, rfl, fun _ => rfl⟩, ?_, rfl, List.chain'_nil, ?_⟩
  · show jobHooks ([] ++ queueHooks self.mQueue) = _
    rw [List.nil_append, jobHooks_queueHooks_nil _ hq]
    rfl
  · show 0 + 0 + (readerLines read).length ≤ countLines counted
    omega
  · intro h
    cases h
  · intro h
    cases h

/-! ## C9: the percentage after the k-th completion -/

theorem Job.run_append (tr : Transforms) (j : Job) (s₁ s₂ : List Step) :
    Job.run tr j (s₁ ++ s₂) = (Job.run tr j s₁).bind (fun j' => Job.run tr j' s₂) := by
  induction s₁ generalizing j with
  | nil => rfl
  | cons s s₁ ih =>
    simp only [List.cons_append, Job.run]
    cases j.step tr s with
    | none => rfl
    | some j' => exact ih j'

theorem immediate_succ (k : Nat) :
    immediate (k + 1) = immediate k ++ [Step.line, Step.complete] := by
  unfold immediate
  rw [List.replicate_succ', List.flatten_append]
  simp

/-- Reading an executable line and completing its command at once. -/
theorem line_complete (tr : Transforms) (j : Job) (l : Str) (rest : List Str)
    (hpend : j.pending = l :: rest) (hp : j.bot.lrPaused = false) (hq : j.bot.mQueue = [])
    (hs : j.bot.jobState = "running".toList)
    (hl : conductorComment.exec l = none) (hc : splitFirst ";".toList l ≠ []) :
    ∃ j', Job.run tr j [Step.line, Step.complete] = some j' ∧
      j'.pending = rest ∧ j'.bot.lrPaused = false ∧ j'.bot.mQueue = [] ∧
      j'.bot.jobState = "running".toList ∧ j'.bot.numLines = j.bot.numLines ∧
      j'.bot.currentLine = j.bot.currentLine + 1 ∧
      j'.bot.percentComplete = some (percentOf (j.bot.currentLine + 1) j.bot.numLines) ∧
      j'.ended = j.ended ∧ j'.trailingDone = j.trailingDone := by
  have hlen : ¬ (splitFirst ";".toList l).length ≤ 0 := by
    intro h
    exact hc (List.length_eq_zero.1 (Nat.le_zero.1 h))
  have hon := onLine_none tr j.bot l hl
  rw [if_neg hlen] at hon
  have h1 : j.step tr Step.line =
      some { j with bot := onLine tr j.bot l, pending := rest } := by
    simp only [Job.step, hpend, hp]
  have hq1 : (onLine tr j.bot l).mQueue =
      [QueueEntry.command
        { code := tr.addFeedMultiplier (tr.addSpeedMultiplier
            (tr.addOffset (some (splitFirst ";".toList l))))
          postCallback := some Hook.lineDone }] := by
    rw [hon]
    simp [queueCommands, lrPause, emit, hq]
  have h2 : Job.step tr { j with bot := onLine tr j.bot l, pending := rest } Step.complete =
      some (Job.runHook
        { j with bot := { onLine tr j.bot l with mQueue := [] }, pending := rest }
        Hook.lineDone) := by
    simp only [Job.step, hq1]
    rfl
  refine ⟨Job.runHook
      { j with bot := { onLine tr j.bot l with mQueue := [] }, pending := rest }
      Hook.lineDone, ?_, ?_⟩
  · simp only [Job.run, h1, h2]
  · have hs1 : (onLine tr j.bot l).jobState = "running".toList := by
      rw [hon]; exact hs
    have hn1 : (onLine tr j.bot l).numLines = j.bot.numLines := by rw [hon]; rfl
    have hc1 : (onLine tr j.bot l).currentLine = j.bot.currentLine := by rw [hon]; rfl
    simp only [Job.runHook, runHook, hs1, if_true]
    simp [setPercent, emit, lrResume, hn1, hc1]


/-- A source of executable lines, each command completing at once: after `k` lines the
counter is `k` and the percentage is `parseInt((k / numLines) * 100, 10)`. -/
theorem immediate_progress (tr : Transforms) (self : Marlin) (counted read : List Str)
    (k : Nat) (hq : self.mQueue = []) (hs : self.jobState = "running".toList)
    (hlines : ∀ l ∈ readerLines read,
      conductorComment.exec l = none ∧ splitFirst ";".toList l ≠ [])
    (hk : k ≤ (readerLines read).length) :
    ∃ j, Job.run tr (Job.start self counted read) (immediate k) = some j ∧
      j.pending = (readerLines read).drop k ∧ j.bot.lrPaused = false ∧ j.bot.mQueue = [] ∧
      j.bot.jobState = "running".toList ∧ j.bot.numLines = countLines counted ∧
      j.bot.currentLine = k ∧
      (1 ≤ k → j.bot.percentComplete = some (percentOf k (countLines counted))) ∧
      j.ended = false ∧ j.trailingDone = false := by
  induction k with
  | zero =>
    refine ⟨Job.start self counted read, rfl, rfl, rfl, hq, hs, rfl, rfl, ?_, rfl, rfl⟩
    intro h
    omega
  | succ k ih =>
    obtain ⟨j, hrun, hpend, hp, hq', hs', hn, hc, _, he, hd⟩ := ih (by omega)
    have hlt : k < (readerLines read).length := by omega
    have hdrop : (readerLines read).drop k =
        (readerLines read).get ⟨k, hlt⟩ :: (readerLines read).drop (k + 1) :=
      List.drop_eq_getElem_cons hlt
    have hmem : (readerLines read).get ⟨k, hlt⟩ ∈ readerLines read := List.get_mem _ _ _
    obtain ⟨hl1, hl2⟩ := hlines _ hmem
    obtain ⟨j', hrun', hpend', hp', hq'', hs'', hn', hc', hpc', he', hd'⟩ :=
      line_complete tr j _ _ (hpend.trans hdrop) hp hq' hs' hl1 hl2
    refine ⟨j', ?_, hpend', hp', hq'', hs'', hn'.trans hn, by rw [hc', hc], ?_,
      he'.trans he, hd'.trans hd⟩
    · rw [immediate_succ, Job.run_append, hrun]
      exact hrun'
    · intro _
      rw [hpc', hc, hn]

/-- For a source of `n` executable lines with `n` counted separators, `n` at most
`10^8`, each command completing at once: after the `k`-th completion the counter is `k`,
the percentage is the integer part of the binary64 value of `(k / n) * 100`, and it is
100 exactly when `k = n`. -/
theorem immediate_percent (tr : Transforms) (self : Marlin) (counted read : List Str)
    (k : Nat) (hq : self.mQueue = []) (hs : self.jobState = "running".toList)
    (hlines : ∀ l ∈ readerLines read,
      conductorComment.exec l = none ∧ splitFirst ";".toList l ≠ [])
    (hcount : (readerLines read).length = countLines counted)
    (hn : countLines counted ≤ 10 ^ 8) (hk1 : 1 ≤ k) (hk : k ≤ countLines counted) :
    ∃ j, Job.run tr (Job.start self counted read) (immediate k) = some j ∧
      j.bot.numLines = countLines counted ∧ j.bot.currentLine = k ∧
      j.bot.percentComplete = some (JsNumber.ofNat (percentFloor k (countLines counted))) ∧
      (j.bot.percentComplete = some (JsNumber.ofNat 100) ↔ k = countLines counted) := by
  obtain ⟨j, hrun, _, _, _, _, hnl, hc, hpc, _, _⟩ :=
    immediate_progress tr self counted read k hq hs hlines (by omega)
  have hp := hpc hk1
  refine ⟨j, hrun, hnl, hc, ?_, ?_⟩
  · rw [hp, (percentOf_eq k _ hk1 hk hn).1]
  · rw [hp]
    constructor
    · intro h
      by_contra hne
      exact percentOf_ne_100 k _ hk1 (lt_of_le_of_ne hk hne) hn (Option.some.inj h)
    · intro h
      rw [h, percentOf_self _ (h ▸ hk1) hn]

/-- The first of the two lines of a terminated file: counter 1, 50 percent. -/
theorem immediate_percent_two_lines :
    ∃ j, Job.run Transforms.identity
        (Job.start (Marlin.fresh "Marlin" "processingJob") twoLineFile twoLineFile)
        (immediate 1) = some j ∧
      j.bot.numLines = countLines twoLineFile ∧ j.bot.currentLine = 1 ∧
      j.bot.percentComplete =
        some (JsNumber.ofNat (percentFloor 1 (countLines twoLineFile))) ∧
      (j.bot.percentComplete = some (JsNumber.ofNat 100) ↔ 1 = countLines twoLineFile) :=
  immediate_percent Transforms.identity (Marlin.fresh "Marlin" "processingJob")
    twoLineFile twoLineFile 1 rfl rfl (by decide) (by decide) (by decide) (by decide)
    (by decide)

/-- C9 fails on the code: for the file of 100 lines `G1 X1`, each ended by a line feed,
`numLines` is 100 and after the 29th streamed command completes the line counter is 29,
but `percentComplete` is 28, not `floor(29 / 100 * 100) = 29`: in binary64 arithmetic
`29 / 100` is rounded, its product with 100 is `28.999999999999996`, and `parseInt`
keeps the digits before the decimal point. -/
theorem percentComplete_29_of_100 :
    countLines file100 = 100 ∧ (readerLines file100).length = 100 ∧
    (Job.run Transforms.identity
        (Job.start (Marlin.fresh "Marlin" "processingJob") file100 file100)
        (immediate 29)).map
      (fun j => (j.bot.numLines, j.bot.currentLine, j.bot.percentComplete)) =
      some (100, 29, some (JsNumber.ofNat 28)) ∧
    ⌊((29 : ℚ) / 100) * 100⌋₊ = 29 ∧
    JsNumber.ofNat 28 ≠ JsNumber.ofNat ⌊((29 : ℚ) / 100) * 100⌋₊ := by
  have h : ⌊((29 : ℚ) / 100) * 100⌋₊ = 29 := by norm_num
  refine ⟨by decide, by decide, by decide, h, ?_⟩
  rw [h]
  decide

/-! ## C10: the values of the percentage within one job -/

/-- C10, as stated, fails: for the file of one line `G1 X1` ended by a line feed, once
the command of that line completes `percentComplete` is 100, while the reader has not
emitted `end` yet, the trailing entry has not been appended to the queue (the queue is
empty) and its `postCallback` has not run. -/
theorem percentComplete_100_before_trailing_entry :
    (Job.run Transforms.identity
        (Job.start (Marlin.fresh "Marlin" "processingJob") oneLineFile oneLineFile)
        [Step.line, Step.complete]).map
      (fun j => (percents j.bot.trace, j.bot.percentComplete, j.ended, j.trailingDone,
        j.bot.mQueue)) =
      some ([JsNumber.ofNat 100], some (JsNumber.ofNat 100), false, false, []) := by
  decide

/-- When the last line of a file has no separator after it, the count `numLines` is one
short of the lines the reader emits, and the values assigned are 100, 200 and 100. -/
theorem percentComplete_unterminated_file :
    countLines unterminatedFile = 1 ∧ (readerLines unterminatedFile).length = 2 ∧
    (Job.run Transforms.identity
        (Job.start (Marlin.fresh "Marlin" "processingJob") unterminatedFile unterminatedFile)
        [Step.line, Step.complete, Step.line, Step.complete, Step.endOfSource,
          Step.complete]).map (fun j => percents j.bot.trace) =
      some [JsNumber.ofNat 100, JsNumber.ofNat 200, JsNumber.ofNat 100] ∧
    JsNumber.le (JsNumber.ofNat 200) (JsNumber.ofNat 100) = false := by
  decide

/-- C10, amended: within one job over a source of at most `10^8` counted lines in which
the reader emits no more lines than were counted (every line is followed by a
separator), with no streamed-line or trailing entry left in the queue from before the
job, after every sequence of steps that can happen (lines read, the end of the source,
completions of the head of the queue, checkpoint updates) the successive values of
`percentComplete` are non-decreasing, and 100 is among them only if the source is fully
consumed, no command of a streamed line is left in the queue, and either the line
counter has reached `numLines` or the `postCallback` of the trailing entry has run. -/
theorem percentComplete_monotone (tr : Transforms) (self : Marlin)
    (counted read : List Str) (steps : List Step) (j : Job)
    (hq : ∀ e ∈ self.mQueue, Hook.lineDone ∉ e.hooks ∧ Hook.jobEnd ∉ e.hooks)
    (hlines : (readerLines read).length ≤ countLines counted)
    (hn : countLines counted ≤ 10 ^ 8)
    (hrun : Job.run tr (Job.start self counted read) steps = some j) :
    List.Chain' Rising (percents j.bot.trace) ∧
    (JsNumber.ofNat 100 ∈ percents j.bot.trace →
      j.pending = [] ∧ Hook.lineDone ∉ queueHooks j.bot.mQueue ∧
      (j.bot.currentLine = j.bot.numLines ∨ j.trailingDone = true)) := by
  have inv := JobInv_run (countLines counted) hn tr steps _ j
    (JobInv_start self counted read hq hlines) hrun
  refine ⟨inv.chain, fun hmem => ?_⟩
  obtain ⟨a, b, hshape, hcount, hb, hdone⟩ := inv.shape
  rw [List.nil_append] at hshape
  have hcase := inv.hundred hmem
  have hpa : j.pending = [] ∧ a = 0 := by
    rcases hcase with hc | hd
    · have : j.pending.length = 0 := by omega
      exact ⟨List.length_eq_zero.1 this, by omega⟩
    · have he : j.ended = true := by
        cases he : j.ended with
        | true => rfl
        | false => rw [hd, he] at hb; simp at hb
      exact ⟨inv.endedPending he, hdone hd⟩
  refine ⟨hpa.1, ?_, ?_⟩
  · intro hmemq
    have : Hook.lineDone ∈ jobHooks (queueHooks j.bot.mQueue) := by
      unfold jobHooks
      rw [List.mem_filter]
      exact ⟨hmemq, by simp⟩
    rw [hshape, hpa.2] at this
    simp at this
  · rcases hcase with hc | hd
    · left; rw [inv.numLines]; exact hc
    · right; exact hd

/-- A file of two terminated lines streamed to its end: the schedule can happen, the
values assigned are 50, 100 and 100, they never decrease, and the source is consumed. -/
theorem percentComplete_monotone_witness :
    Job.run Transforms.identity
        (Job.start (Marlin.fresh "Marlin" "processingJob") twoLineFile twoLineFile)
        [Step.line, Step.complete, Step.line, Step.complete, Step.endOfSource,
          Step.complete] =
      some (Job.sample twoLineFile
        [Step.line, Step.complete, Step.line, Step.complete, Step.endOfSource,
          Step.complete]) ∧
    percents (Job.sample twoLineFile
        [Step.line, Step.complete, Step.line, Step.complete, Step.endOfSource,
          Step.complete]).bot.trace =
      [JsNumber.ofNat 50, JsNumber.ofNat 100, JsNumber.ofNat 100] ∧
    List.Chain' Rising (percents (Job.sample twoLineFile
        [Step.line, Step.complete, Step.line, Step.complete, Step.endOfSource,
          Step.complete]).bot.trace) ∧
    (Job.sample twoLineFile
        [Step.line, Step.complete, Step.line, Step.complete, Step.endOfSource,
          Step.complete]).pending = [] :=
  have h := percentComplete_monotone Transforms.identity
    (Marlin.fresh "Marlin" "processingJob") twoLineFile twoLineFile
    [Step.line, Step.complete, Step.line, Step.complete, Step.endOfSource, Step.complete]
    (Job.sample twoLineFile
      [Step.line, Step.complete, Step.line, Step.complete, Step.endOfSource, Step.complete])
    (by decide) (by decide) (by decide) (by decide)
  ⟨by decide, by decide, h.1, (h.2 (by decide)).1⟩

/-! ## C11: one line at a time -/

/-- C11 fails on the code: with the file `; <<<PRECURSOR>>> bot2 : 5`, `G1 X1`, `G1 X2`
and `bot2` already at checkpoint 5, the blocker is satisfied and stays stored. After the
line `G1 X1` is read the reader is paused and its command is queued; a later update
`{bot2: 6}` makes `checkPrecursors` resume the reader although the `postCallback` of
that command has not run (the line counter is still 0), and the line `G1 X2` is read and
queued behind it. -/
theorem reader_resumed_while_command_in_flight :
    (Job.run Transforms.identity
        (Job.start (Marlin.fresh "Marlin" "processingJob") precursorFile precursorFile)
        [Step.update [("bot2".toList, JsNumber.ofNat 5)], Step.line, Step.line]).map
      (fun j => (j.bot.lrPaused, j.bot.mQueue, j.bot.currentLine)) =
      some (true, [lineCommand "G1 X1"], 0) ∧
    (Job.run Transforms.identity
        (Job.start (Marlin.fresh "Marlin" "processingJob") precursorFile precursorFile)
        [Step.update [("bot2".toList, JsNumber.ofNat 5)], Step.line, Step.line,
          Step.update [("bot2".toList, JsNumber.ofNat 6)]]).map
      (fun j => (j.bot.lrPaused, j.bot.mQueue, j.bot.currentLine)) =
      some (false, [lineCommand "G1 X1"], 0) ∧
    (Job.run Transforms.identity
        (Job.start (Marlin.fresh "Marlin" "processingJob") precursorFile precursorFile)
        [Step.update [("bot2".toList, JsNumber.ofNat 5)], Step.line, Step.line,
          Step.update [("bot2".toList, JsNumber.ofNat 6)], Step.line]).map
      (fun j => (j.bot.lrPaused, j.bot.mQueue, j.bot.currentLine)) =
      some (true, [lineCommand "G1 X1", lineCommand "G1 X2"], 0) := by
  decide

/-! ## C12: the PRECURSOR directive -/

theorem run_group_bot_greedy {α : Type} (w rest : Str) (caps : List Str)
    (k : Str → List Str → Option α) (r : α) (hne : w ≠ [])
    (hw : ∀ c ∈ w, isWord c = true) (hrest : ∀ c, rest.head? = some c → isWord c = false)
    (hk : k rest (caps ++ ["bot".toList ++ w]) = some r) :
    (Re.group (Re.seq (Re.lit "bot".toList) (Re.plus isWord))).run
      ("bot".toList ++ (w ++ rest)) caps k = some r := by
  simp only [Re.run]
  have h1 := dropPrefix_append "bot".toList (w ++ rest)
  simp only [h1]
  have h2 := run_plus_greedy isWord w rest caps
    (fun rest' caps₁ => k rest' (caps₁ ++
      [("bot".toList ++ (w ++ rest)).take (("bot".toList ++ (w ++ rest)).length - rest'.length)]))
    r hne hw hrest (by
      have : ("bot".toList ++ (w ++ rest)).take
          (("bot".toList ++ (w ++ rest)).length - rest.length) = "bot".toList ++ w := by
        rw [← List.append_assoc]
        exact take_length_sub _ _
      simp only [this]
      exact hk)
  simpa [Re.run] using h2

theorem run_group_bot_some {α : Type} (s : Str) (caps : List Str)
    (k : Str → List Str → Option α) (r : α)
    (h : (Re.group (Re.seq (Re.lit "bot".toList) (Re.plus isWord))).run s caps k = some r) :
    ∃ w rest, s = "bot".toList ++ (w ++ rest) ∧ w ≠ [] ∧ (∀ c ∈ w, isWord c = true) ∧
      k rest (caps ++ ["bot".toList ++ w]) = some r := by
  have h' : (Re.lit "bot".toList).run s caps (fun rest₁ caps₁ => (Re.plus isWord).run rest₁ caps₁
      (fun rest caps₂ => k rest (caps₂ ++ [s.take (s.length - rest.length)]))) = some r := h
  obtain ⟨r1, e1, h1⟩ := run_lit_some "bot".toList s caps _ r h'
  obtain ⟨w, rest, e2, hne, hw, hk⟩ := run_plus_some isWord r1 caps _ r h1
  refine ⟨w, rest, by rw [e1, e2], hne, hw, ?_⟩
  have : s.take (s.length - rest.length) = "bot".toList ++ w := by
    rw [e1, e2, ← List.append_assoc]
    exact take_length_sub _ _
  rw [this] at hk
  exact hk

/-- The PRECURSOR payload `bot<id> : <digits>` matches its pattern; when no `bot`
followed by further characters ends `<id>`, the captures are `bot<id>` and the digits. -/
theorem precursorBotRegex_exec (idw digits : Str) (hid : idw ≠ [])
    (hidw : ∀ c ∈ idw, isWord c = true) (hd : digits ≠ [])
    (hdd : ∀ c ∈ digits, isDigit c = true)
    (hbot : ∀ w, w ≠ [] → ¬ ("bot".toList ++ w) <:+ idw) :
    precursorBotRegex.exec ("bot".toList ++ (idw ++ (" : ".toList ++ digits))) =
      some ["bot".toList ++ idw, digits] := by
  have hk : (Re.seq (Re.group (Re.seq (Re.lit "bot".toList) (Re.plus isWord)))
      (Re.seq (Re.lit " : ".toList) (Re.group (Re.plus isDigit)))).run
      ("bot".toList ++ (idw ++ (" : ".toList ++ digits))) []
      (fun rest caps => if rest = [] then some caps else none) =
      some ["bot".toList ++ idw, digits] := by
    rw [run_seq]
    apply run_group_bot_greedy idw (" : ".toList ++ digits) [] _ _ hid hidw
    · intro c hc
      have : c = ' ' := by simpa using hc.symm
      subst this
      decide
    · simp only [Re.run, List.nil_append]
      have h3 := dropPrefix_append " : ".toList digits
      simp only [h3]
      have h4 := run_group_plus_greedy isDigit digits [] ["bot".toList ++ idw]
        (fun rest caps => if rest = [] then some caps else none)
        ["bot".toList ++ idw, digits] hd hdd (by simp) (by simp)
      simpa [Re.run] using h4
  have hex : ∃ r, precursorBotRegex.exec ("bot".toList ++ (idw ++ (" : ".toList ++ digits))) =
      some r := by
    unfold Re.exec precursorBotRegex
    rw [run_seq, run_star]
    exact starRun_isSome isDot _ _ _ hk
  obtain ⟨r, hr⟩ := hex
  have hr' := hr
  unfold Re.exec precursorBotRegex at hr'
  rw [run_seq, run_star] at hr'
  obtain ⟨l, rest, hsplit, _, hrest⟩ := starRun_sound isDot _ _ r hr'
  rw [run_seq] at hrest
  obtain ⟨w, r2, e2, hwne, hw, hrest⟩ := run_group_bot_some rest [] _ r hrest
  rw [run_seq] at hrest
  obtain ⟨r3, e3, hrest⟩ := run_lit_some " : ".toList r2 _ _ r hrest
  obtain ⟨d, r4, e4, _, hdig, hrest⟩ := run_group_plus_some isDigit r3 _ _ r hrest
  have hr4 : r4 = [] := by
    by_contra hne
    simp [hne] at hrest
  have hrw : r = ["bot".toList ++ w, d] := by
    rw [hr4] at hrest
    simpa using hrest.symm
  have hpayload : (l ++ ("bot".toList ++ (w ++ [' ', ':']))) ++ ' ' :: d =
      ("bot".toList ++ (idw ++ [' ', ':'])) ++ ' ' :: digits := by
    have : "bot".toList ++ (idw ++ (" : ".toList ++ digits)) =
        l ++ ("bot".toList ++ (w ++ (" : ".toList ++ (d ++ [])))) := by
      rw [hsplit, e2, e3, e4, hr4]
    have e5 : " : ".toList = [' ', ':', ' '] := rfl
    rw [e5, List.append_nil] at this
    simp only [List.append_assoc, List.cons_append, List.nil_append] at this ⊢
    exact this.symm
  have hdd' : d = digits :=
    after_last_blank _ _ d digits hpayload
      (fun hmem => isDigit_ne_space ' ' (hdig ' ' hmem) rfl)
      (fun hmem => isDigit_ne_space ' ' (hdd ' ' hmem) rfl)
  rw [hdd'] at hpayload
  have hfront : l ++ ("bot".toList ++ (w ++ [' ', ':'])) = "bot".toList ++ (idw ++ [' ', ':']) :=
    List.append_cancel_right hpayload
  have hfront' : (l ++ ("bot".toList ++ w)) ++ [' ', ':'] = ("bot".toList ++ idw) ++ [' ', ':'] := by
    simpa [List.append_assoc] using hfront
  have hcore : l ++ ("bot".toList ++ w) = "bot".toList ++ idw := List.append_cancel_right hfront'
  have hl : l = [] := by
    have eb : "bot".toList = ['b', 'o', 't'] := rfl
    rw [eb] at hcore
    match l, hcore with
    | [], _ => rfl
    | [_], hc =>
      simp only [List.cons_append, List.nil_append, List.cons.injEq] at hc
      exact absurd hc.2.1 (by decide)
    | [_, _], hc =>
      simp only [List.cons_append, List.nil_append, List.cons.injEq] at hc
      exact absurd hc.2.2.1 (by decide)
    | _ :: _ :: _ :: l', hc =>
      simp only [List.cons_append, List.nil_append, List.cons.injEq] at hc
      exact absurd ⟨l', hc.2.2.2⟩ (hbot w hwne)
  rw [hl, List.nil_append] at hcore
  have hw' : w = idw := List.append_cancel_left hcore
  rw [hr, hrw, hw', hdd']

theorem ofNat_ge_iff (a b : Nat) (ha : a ≤ 2 ^ 53) (hb : b ≤ 2 ^ 53) :
    JsNumber.ge (JsNumber.ofNat a) (JsNumber.ofNat b) = true ↔ b ≤ a := by
  obtain ⟨ma, ea, hra, hva⟩ := ofNat_val a ha
  obtain ⟨mb, eb, hrb, hvb⟩ := ofNat_val b hb
  rw [hra, hrb, ge_fin_iff, val_fin_false, val_fin_false, hva, hvb]
  exact_mod_cast Iff.rfl

theorem onPrecursor_of_exec (self : Marlin) (payload : Str) (caps : List Str)
    (h : precursorBotRegex.exec payload = some caps) :
    onPrecursor self payload =
      checkPrecursors
        (emit { self with
            status.blocker :=
              { bot := some (caps.getD 0 []), checkpoint := some (parseIntStr (caps.getD 1 [])) } }
          (.infoBlockerSet (caps.getD 0 []) (parseIntStr (caps.getD 1 [])))) := by
  unfold onPrecursor
  simp only [h]

/-- C12, amended: for every line `; <<<PRECURSOR>>> bot<id> : <n>` with `<id>` a
non-empty run of word characters no suffix of which is `bot` followed by further
characters, and `<n>` a decimal integer of at most 2^53, the line handler replaces
`status.blocker`, whatever it was, by `{bot: bot<id>, checkpoint: n}`, enqueues nothing,
leaves `status.checkpoint` and `status.collaborators` unchanged, and after pausing the
reader resumes it if and only if `collaborators[bot<id>] >= n`: for an entry holding an
integer `v` of at most 2^53 exactly when `n ≤ v`, and never without an entry. -/
theorem precursor_directive (tr : Transforms) (self : Marlin) (idw digits : Str)
    (hid : idw ≠ []) (hidw : ∀ c ∈ idw, isWord c = true) (hd : digits ≠ [])
    (hdd : ∀ c ∈ digits, isDigit c = true)
    (hbot : ∀ w, w ≠ [] → ¬ ("bot".toList ++ w) <:+ idw)
    (hn : digitsValue digits ≤ 2 ^ 53) :
    (onLine tr self (precursorLine idw digits)).status.blocker =
      ⟨some ("bot".toList ++ idw), some (JsNumber.ofNat (digitsValue digits))⟩ ∧
    (JsNumber.ofNat (digitsValue digits)).val = digitsValue digits ∧
    (onLine tr self (precursorLine idw digits)).mQueue = self.mQueue ∧
    (onLine tr self (precursorLine idw digits)).status.checkpoint = self.status.checkpoint ∧
    (onLine tr self (precursorLine idw digits)).status.collaborators =
      self.status.collaborators ∧
    (onLine tr self (precursorLine idw digits)).trace =
      self.trace ++ [Event.lrPause,
        Event.infoBlockerSet ("bot".toList ++ idw) (JsNumber.ofNat (digitsValue digits))] ++
      (if barrierOpen self.status.collaborators ("bot".toList ++ idw)
          (JsNumber.ofNat (digitsValue digits)) = true then [Event.lrResume] else []) ∧
    ((onLine tr self (precursorLine idw digits)).lrPaused = false ↔
      barrierOpen self.status.collaborators ("bot".toList ++ idw)
        (JsNumber.ofNat (digitsValue digits)) = true) ∧
    (∀ v, v ≤ 2 ^ 53 →
      self.status.collaborators.lookup ("bot".toList ++ idw) = some (JsNumber.ofNat v) →
      ((onLine tr self (precursorLine idw digits)).lrPaused = false ↔ digitsValue digits ≤ v)) ∧
    (self.status.collaborators.lookup ("bot".toList ++ idw) = none →
      (onLine tr self (precursorLine idw digits)).lrPaused = true) := by
  have hpay : ∀ c ∈ "bot".toList ++ (idw ++ (" : ".toList ++ digits)), isDot c = true := by
    intro c hc
    simp only [List.mem_append] at hc
    rcases hc with hc | hc | hc | hc
    · have : c = 'b' ∨ c = 'o' ∨ c = 't' := by simpa using hc
      rcases this with h | h | h <;> subst h <;> decide
    · exact isWord_isDot c (hidw c hc)
    · have : c = ' ' ∨ c = ':' := by
        have : c = ' ' ∨ c = ':' ∨ c = ' ' := by simpa using hc
        tauto
      rcases this with h | h <;> subst h <;> decide
    · exact isDigit_isDot c (hdd c hc)
  have hline : precursorLine idw digits =
      [] ++ ("; <<<".toList ++ ("PRECURSOR".toList ++ (">>> ".toList ++
        ("bot".toList ++ (idw ++ (" : ".toList ++ digits)))))) := rfl
  have hcc := conductorComment_exec [] "PRECURSOR".toList
    ("bot".toList ++ (idw ++ (" : ".toList ++ digits))) (by simp) (by decide) (by decide) hpay
  rw [← hline] at hcc
  have hex := precursorBotRegex_exec idw digits hid hidw hd hdd hbot
  have hon : onLine tr self (precursorLine idw digits) =
      checkPrecursors
        (emit { lrPause self with
            status.blocker :=
              { bot := some ("bot".toList ++ idw)
                checkpoint := some (JsNumber.ofNat (digitsValue digits)) } }
          (.infoBlockerSet ("bot".toList ++ idw) (JsNumber.ofNat (digitsValue digits)))) := by
    rw [onLine_some tr self _ _ hcc]
    simp only [List.getD_cons_succ, List.getD_cons_zero]
    rw [if_pos True.intro]
    rw [onPrecursor_of_exec _ _ _ hex]
    simp only [List.getD_cons_succ, List.getD_cons_zero, parseIntStr_digits digits hd hdd]
    exact if_neg (by decide)
  have hcp := checkPrecursors_of_blocker
    (emit { lrPause self with
        status.blocker :=
          { bot := some ("bot".toList ++ idw)
            checkpoint := some (JsNumber.ofNat (digitsValue digits)) } }
      (.infoBlockerSet ("bot".toList ++ idw) (JsNumber.ofNat (digitsValue digits))))
    ("bot".toList ++ idw) (JsNumber.ofNat (digitsValue digits)) rfl rfl
  rw [hcp] at hon
  have hcoll : (emit { lrPause self with
        status.blocker :=
          { bot := some ("bot".toList ++ idw)
            checkpoint := some (JsNumber.ofNat (digitsValue digits)) } }
      (.infoBlockerSet ("bot".toList ++ idw)
        (JsNumber.ofNat (digitsValue digits)))).status.collaborators =
      self.status.collaborators := rfl
  rw [hcoll] at hon
  have hpaused : (onLine tr self (precursorLine idw digits)).lrPaused = false ↔
      barrierOpen self.status.collaborators ("bot".toList ++ idw)
        (JsNumber.ofNat (digitsValue digits)) = true := by
    rw [hon]
    by_cases hb : barrierOpen self.status.collaborators ("bot".toList ++ idw)
        (JsNumber.ofNat (digitsValue digits)) = true
    · rw [if_pos hb]
      exact ⟨fun _ => hb, fun _ => rfl⟩
    · rw [if_neg hb]
      refine ⟨fun h => ?_, fun h => absurd h hb⟩
      have h' : true = false := h
      cases h'
  refine ⟨?_, ?_, ?_, ?_, ?_, ?_, hpaused, ?_, ?_⟩
  · rw [hon]; split <;> rfl
  · obtain ⟨m, e, hr, hv⟩ := ofNat_val (digitsValue digits) hn
    rw [hr, val_fin_false, hv]
  · exact onLine_directive_mQueue tr self _ _ hcc
  · rw [hon]; split <;> rfl
  · rw [hon]; split <;> rfl
  · rw [hon]
    split
    · simp [lrResume, lrPause, emit]
    · simp [lrPause, emit]
  · intro v hv hlook
    rw [hpaused]
    unfold barrierOpen
    rw [hlook]
    exact ofNat_ge_iff v (digitsValue digits) hv hn
  · intro hlook
    have : ¬ barrierOpen self.status.collaborators ("bot".toList ++ idw)
        (JsNumber.ofNat (digitsValue digits)) = true := by
      unfold barrierOpen
      rw [hlook]
      simp
    cases hp : (onLine tr self (precursorLine idw digits)).lrPaused with
    | true => rfl
    | false => exact absurd (hpaused.1 hp) this

/-- C12, as stated, fails. For `<id>` = `xbot2` the pattern `/^.*(bot\w+) : (\d+)$/`
lets `.*` take `botx`, and the blocker's bot is `bot2`, not the token `botxbot2`. For
`<n>` = 9007199254740993, beyond the integers a JavaScript number holds exactly, the
blocker's checkpoint is 9007199254740992, and with `bot2` at 9007199254740992 the reader
is resumed although that is below `<n>`. -/
theorem precursor_capture_and_range :
    (onLine Transforms.identity (Marlin.fresh "Marlin" "processingJob")
      (precursorLine "xbot2".toList "5".toList)).status.blocker =
      ⟨some "bot2".toList, some (JsNumber.ofNat 5)⟩ ∧
    "bot2".toList ≠ "bot".toList ++ "xbot2".toList ∧
    digitsValue "9007199254740993".toList = 9007199254740993 ∧
    (onLine Transforms.identity
      { Marlin.fresh "Marlin" "processingJob" with
        status.collaborators := [("bot2".toList, JsNumber.ofNat 9007199254740992)] }
      (precursorLine "2".toList "9007199254740993".toList)).status.blocker =
      ⟨some "bot2".toList, some (JsNumber.ofNat 9007199254740992)⟩ ∧
    (onLine Transforms.identity
      { Marlin.fresh "Marlin" "processingJob" with
        status.collaborators := [("bot2".toList, JsNumber.ofNat 9007199254740992)] }
      (precursorLine "2".toList "9007199254740993".toList)).lrPaused = false := by
  decide

/-- The line `; <<<PRECURSOR>>> bot2 : 5` with `bot2` at checkpoint 5 sets the blocker and
resumes the reader; with `bot2` at 4 the reader stays paused. -/
theorem precursor_directive_witness :
    (onLine Transforms.identity
      { Marlin.fresh "Marlin" "processingJob" with
        status.collaborators := [("bot2".toList, JsNumber.ofNat 5)] }
      (precursorLine "2".toList "5".toList)).status.blocker =
      ⟨some ("bot".toList ++ "2".toList), some (JsNumber.ofNat (digitsValue "5".toList))⟩ ∧
    (onLine Transforms.identity
      { Marlin.fresh "Marlin" "processingJob" with
        status.collaborators := [("bot2".toList, JsNumber.ofNat 5)] }
      (precursorLine "2".toList "5".toList)).lrPaused = false ∧
    digitsValue "5".toList = 5 :=
  have h := precursor_directive Transforms.identity
    { Marlin.fresh "Marlin" "processingJob" with
      status.collaborators := [("bot2".toList, JsNumber.ofNat 5)] }
    "2".toList "5".toList (by decide) (by decide) (by decide) (by decide)
    (fun w hw hsuf => by
      have hlen := hsuf.length_le
      have hw' : 0 < w.length := List.length_pos.2 hw
      simp only [List.length_append] at hlen
      have h3 : "bot".toList.length = 3 := rfl
      have h1 : "2".toList.length = 1 := rfl
      omega)
    (by decide)
  ⟨h.1, (h.2.2.2.2.2.2.2.1 5 (by norm_num) rfl).2 (by decide), by decide⟩

theorem jsSplitAux_semicolon_head (s cur : Str) :
    (jsSplitAux ";".toList 0 s cur).headD [] =
      cur.reverse ++ s.takeWhile (fun c => decide (c ≠ ';')) := by
  induction s generalizing cur with
  | nil => simp [jsSplitAux]
  | cons c cs ih =>
    simp only [jsSplitAux]
    by_cases hc : c = ';'
    · subst hc
      simp [List.isPrefixOf, List.takeWhile]
    · have hp : List.isPrefixOf ";".toList (c :: cs) = false := by
        have : (';' == c) = false := by
          simp only [beq_eq_false_iff_ne, ne_eq]
          exact fun h => hc h.symm
        simp [List.isPrefixOf, this]
      simp only [hp, Bool.false_eq_true, if_false]
      rw [ih]
      simp [List.takeWhile, hc]

/-- The piece before the first `;`. -/
theorem splitFirst_semicolon (line : Str) :
    splitFirst ";".toList line = line.takeWhile (fun c => decide (c ≠ ';')) := by
  unfold splitFirst jsSplit
  rw [jsSplitAux_semicolon_head]
  rfl

/-! ## C13: executable lines -/

/-- C13: for every line that does not match the directive pattern, the executable
portion `line.split(';')[0]` is the text before the first `;`. If it is empty the line
handler, having paused the reader, resumes it and leaves the queue unchanged. Otherwise
it appends exactly one command to the tail of the queue, whose code is
`addFeedMultiplier(addSpeedMultiplier(addOffset(portion)))`, and after pausing the
reader calls nothing else on it: the reader stays paused. -/
theorem executable_line (tr : Transforms) (self : Marlin) (line : Str)
    (h : conductorComment.exec line = none) :
    splitFirst ";".toList line = line.takeWhile (fun c => decide (c ≠ ';')) ∧
    (splitFirst ";".toList line = [] →
      (onLine tr self line).lrPaused = false ∧
      (onLine tr self line).mQueue = self.mQueue ∧
      (onLine tr self line).trace = self.trace ++ [Event.lrPause, Event.lrResume]) ∧
    (splitFirst ";".toList line ≠ [] →
      (onLine tr self line).mQueue = self.mQueue ++
        [QueueEntry.command
          { code := tr.addFeedMultiplier (tr.addSpeedMultiplier
              (tr.addOffset (some (splitFirst ";".toList line))))
            postCallback := some Hook.lineDone }] ∧
      (onLine tr self line).lrPaused = true ∧
      (onLine tr self line).trace = self.trace ++ [Event.lrPause]) := by
  refine ⟨splitFirst_semicolon line, ?_, ?_⟩
  · intro he
    have hlen : (splitFirst ";".toList line).length ≤ 0 := by rw [he]; simp
    rw [onLine_none tr self line h, if_pos hlen]
    simp [lrResume, lrPause, emit]
  · intro hne
    have hlen : ¬ (splitFirst ";".toList line).length ≤ 0 := by
      intro hl
      exact hne (List.length_eq_zero.1 (Nat.le_zero.1 hl))
    rw [onLine_none tr self line h, if_neg hlen]
    simp [queueCommands, lrPause, emit]

/-- A line with a trailing comment enqueues the text before the `;`; a line that is only
a comment enqueues nothing and resumes the reader. -/
theorem executable_line_witness :
    (onLine Transforms.identity (Marlin.fresh "Marlin" "processingJob")
      "G1 X10 ; move".toList).mQueue = [lineCommand "G1 X10 "] ∧
    (onLine Transforms.identity (Marlin.fresh "Marlin" "processingJob")
      "G1 X10 ; move".toList).lrPaused = true ∧
    (onLine Transforms.identity (Marlin.fresh "Marlin" "processingJob")
      "; only a comment".toList).mQueue = [] ∧
    (onLine Transforms.identity (Marlin.fresh "Marlin" "processingJob")
      "; only a comment".toList).lrPaused = false :=
  have h1 := (executable_line Transforms.identity (Marlin.fresh "Marlin" "processingJob")
    "G1 X10 ; move".toList (by decide)).2.2 (by decide)
  have h2 := (executable_line Transforms.identity (Marlin.fresh "Marlin" "processingJob")
    "; only a comment".toList (by decide)).2.1 (by decide)
  ⟨h1.1, h1.2.1, h2.2.1, h2.1⟩

/-! ## C14: DRY and unrecognised directives -/

/-- C14: for every line matching the directive pattern, with captured name and payload:
if the name is none of CHECKPOINT, PRECURSOR and DRY, the line handler pauses the reader,
logs the error and does nothing else, so the reader stays paused, the queue and the
status are unchanged; if the name is DRY, it pauses the reader and resumes it
unconditionally, the queue and the status being unchanged. -/
theorem unknown_and_dry_directive (tr : Transforms) (self : Marlin) (line : Str) (caps : List Str)
    (h : conductorComment.exec line = some caps) :
    (caps.getD 0 [] ≠ "CHECKPOINT".toList → caps.getD 0 [] ≠ "PRECURSOR".toList →
      caps.getD 0 [] ≠ "DRY".toList →
      (onLine tr self line).lrPaused = true ∧
      (onLine tr self line).trace = self.trace ++
        [Event.lrPause, Event.errorUnknownComment (caps.getD 0 []) (caps.getD 1 [])] ∧
      (onLine tr self line).mQueue = self.mQueue ∧
      (onLine tr self line).status = self.status) ∧
    (caps.getD 0 [] = "DRY".toList →
      (onLine tr self line).lrPaused = false ∧
      (onLine tr self line).trace = self.trace ++ [Event.lrPause, Event.lrResume] ∧
      (onLine tr self line).mQueue = self.mQueue ∧
      (onLine tr self line).status = self.status) := by
  constructor
  · intro h1 h2 h3
    rw [onLine_some tr self line caps h, if_neg h1, if_neg h2, if_neg h3]
    simp [lrPause, emit]
  · intro hd
    have h1 : caps.getD 0 [] ≠ "CHECKPOINT".toList := by rw [hd]; decide
    have h2 : caps.getD 0 [] ≠ "PRECURSOR".toList := by rw [hd]; decide
    rw [onLine_some tr self line caps h, if_neg h1, if_neg h2, if_pos hd]
    simp [lrResume, lrPause, emit]

/-- The line `; <<<FOO>>> x` leaves the reader paused; the line `; <<<DRY>>> run`
resumes it. -/
theorem unknown_and_dry_directive_witness :
    (onLine Transforms.identity (Marlin.fresh "Marlin" "processingJob")
      "; <<<FOO>>> x".toList).lrPaused = true ∧
    (onLine Transforms.identity (Marlin.fresh "Marlin" "processingJob")
      "; <<<FOO>>> x".toList).mQueue = [] ∧
    (onLine Transforms.identity (Marlin.fresh "Marlin" "processingJob")
      "; <<<DRY>>> run".toList).lrPaused = false ∧
    (onLine Transforms.identity (Marlin.fresh "Marlin" "processingJob")
      "; <<<DRY>>> run".toList).status = (Marlin.fresh "Marlin" "processingJob").status :=
  have h1 := (unknown_and_dry_directive Transforms.identity
    (Marlin.fresh "Marlin" "processingJob") "; <<<FOO>>> x".toList
    ["FOO".toList, "x".toList] (by decide)).1 (by decide) (by decide) (by decide)
  have h2 := (unknown_and_dry_directive Transforms.identity
    (Marlin.fresh "Marlin" "processingJob") "; <<<DRY>>> run".toList
    ["DRY".toList, "run".toList] (by decide)).2 (by decide)
  ⟨h1.1, h1.2.2.1, h2.1, h2.2.2.2⟩

end MCU
